import Mathlib

/-!
# BnkExtractor: a shallow embedding of `libbnkextr/BnkExtractor.cpp`

The C++ function `ExtractBnkFile` decodes a chunked sound-bank container from a
`std::fstream`, then copies the payloads listed in the `DIDX` index out of the
`DATA` chunk.  The embedding below follows the source statement by statement.

Modelling conventions.

* A file is a finite list of bytes; the input stream is the triple
  (contents, get position, failbit).  `eofbit` is only ever set together with
  `failbit` by the calls the program makes, so it is not tracked separately.
* `ReadContent` is `istream::read` of `sizeof(T)` bytes into the object
  representation of `T`: when fewer bytes are left it stores the bytes that are
  left, sets `failbit` and returns `false`; on a stream whose `failbit` is set it
  stores nothing.
* `seekg` and `tellg` do nothing useful on a stream whose `failbit` is set.
* Integers are naturals with explicit reduction modulo `2^32`; the host is
  little-endian with 64-bit `std::size_t` and `std::streamoff`.
* `struct Object` is declared without a packing pragma, so there are `pad`
  bytes between its one-byte `type` and its `size`; `pad` is a parameter of
  the hierarchy decoder (`naturalPad = 3` under natural alignment).
* A loop that the C++ program may never leave (the `DIDX` loop, whose 32-bit
  counter can wrap) is modelled with fuel and returns `none` when it does not
  terminate.
-/

namespace BnkExtr

/-! ## Bytes and the input stream -/

abbrev Byte := Fin 256

/-- The input `std::fstream`: file contents, get position and `failbit`. -/
structure IStream where
  data : List Byte
  pos : Nat
  fail : Bool
deriving DecidableEq, Repr

/-- A zero-initialised object representation of `n` bytes. -/
def zeros (n : Nat) : List Byte := List.replicate n 0

/-- Little-endian value of an object representation. -/
def leNat : List Byte → Nat
  | [] => 0
  | b :: bs => b.val + 256 * leNat bs

/-- The unsigned field of `len` bytes stored at byte offset `off` of `mem`. -/
def field (mem : List Byte) (off len : Nat) : Nat := leNat ((mem.drop off).take len)

/-- The object representation of a `std::uint32_t`. -/
def u32Bytes (n : Nat) : List Byte :=
  [Fin.ofNat (n % 256), Fin.ofNat (n / 256 % 256), Fin.ofNat (n / 65536 % 256),
   Fin.ofNat (n / 16777216 % 256)]

/-- Value of a byte read as `std::int8_t`. -/
def int8 (n : Nat) : Int := if n < 128 then (n : Int) else (n : Int) - 256

/-- The function `ReadContent(file, structure)`, that is
`file.read(reinterpret_cast<char*>(&structure), sizeof(structure))`.
`mem` is the object representation of `structure` before the call; the result is
the returned flag, the representation after the call and the stream. -/
def ReadContent (s : IStream) (mem : List Byte) : Bool × List Byte × IStream :=
  if s.fail then (false, mem, s)
  else
    let got := (s.data.drop s.pos).take mem.length
    if got.length = mem.length then (true, got, { s with pos := s.pos + mem.length })
    else (false, got ++ mem.drop got.length, { s with pos := s.pos + got.length, fail := true })

/-- The call `file.seekg(off, std::ios_base::cur)`. -/
def seekgCur (s : IStream) (off : Int) : IStream :=
  if s.fail then s
  else if 0 ≤ (s.pos : Int) + off then { s with pos := ((s.pos : Int) + off).toNat }
  else { s with fail := true }

/-- The call `file.seekg(p)`. -/
def seekgAbs (s : IStream) (p : Nat) : IStream :=
  if s.fail then s else { s with pos := p }

/-- The call `file.tellg()` converted to `std::size_t`. -/
def tellg (s : IStream) : Nat :=
  if s.fail then 2 ^ 64 - 1 else s.pos

/-- The call `file.clear()`. -/
def clear (s : IStream) : IStream := { s with fail := false }

/-! ## `Swap32` and `Compare` -/

/-- Byte reversal of a 32-bit value (`__builtin_bswap32`). -/
def bswap32 (x : Nat) : Nat :=
  (x % 256) * 16777216 + (x / 256 % 256) * 65536 + (x / 65536 % 256) * 256
    + (x / 16777216 % 256)

/-- The function `int Swap32(const uint32_t dword)`: the reversed value, returned as `int`. -/
def Swap32 (dword : Nat) : Int :=
  if bswap32 dword < 2147483648 then (bswap32 dword : Int) else (bswap32 dword : Int) - 4294967296

/-- Conversion of an `int` to `std::uint32_t` on assignment. -/
def toU32 (i : Int) : Nat := (i % 4294967296).toNat

/-- The function `Compare(char_string, string)`, `strncmp` over `string.length()`
characters: used only with the four-character tags, none of which holds a NUL. -/
def Compare (char_string : List Byte) (string : List Byte) : Bool :=
  decide (char_string.take string.length = string)

def sigBKHD : List Byte := [0x42, 0x4B, 0x48, 0x44]

def sigDIDX : List Byte := [0x44, 0x49, 0x44, 0x58]

def sigSTID : List Byte := [0x53, 0x54, 0x49, 0x44]

def sigDATA : List Byte := [0x44, 0x41, 0x54, 0x41]

def sigHIRC : List Byte := [0x48, 0x49, 0x52, 0x43]

/-! ## The structures of `BnkExtractor.h` -/

structure Index where
  id : Nat
  offset : Nat
  size : Nat
deriving DecidableEq, Repr

structure Section where
  sign : List Byte
  size : Nat
deriving DecidableEq, Repr

structure BankHeader where
  version : Nat
  id : Nat
deriving DecidableEq, Repr

/-- The header `struct Object`; `type` is the `std::int8_t` value of `ObjectType`. -/
structure Object where
  type : Int
  size : Nat
  id : Nat
deriving DecidableEq, Repr

structure EventObject where
  action_count : Nat
  action_ids : List Nat
deriving DecidableEq, Repr

structure EventActionObject where
  scope : Int
  action_type : Int
  game_object_id : Nat
  parameter_count : Nat
  parameters_types : List Int
  parameters : List Int
deriving DecidableEq, Repr

/-- The value `ObjectType::EventAction`. -/
def ObjectType.EventAction : Int := 3

/-- The value `ObjectType::Event`. -/
def ObjectType.Event : Int := 4

def Index.toMem (x : Index) : List Byte := u32Bytes x.id ++ u32Bytes x.offset ++ u32Bytes x.size

def Index.ofMem (mem : List Byte) : Index :=
  { id := field mem 0 4, offset := field mem 4 4, size := field mem 8 4 }

def Section.toMem (x : Section) : List Byte := (x.sign ++ zeros 4).take 4 ++ u32Bytes x.size

def Section.ofMem (mem : List Byte) : Section :=
  { sign := mem.take 4, size := field mem 4 4 }

def BankHeader.toMem (x : BankHeader) : List Byte := u32Bytes x.version ++ u32Bytes x.id

def BankHeader.ofMem (mem : List Byte) : BankHeader :=
  { version := field mem 0 4, id := field mem 4 4 }

/-- Padding between `type` and `size` of `struct Object` under natural alignment. -/
def naturalPad : Nat := 3

/-- The value of `sizeof(Object)` when `pad` bytes separate `type` from `size`. -/
def sizeofObject (pad : Nat) : Nat := 1 + pad + 4 + 4

def Object.ofMem (pad : Nat) (mem : List Byte) : Object :=
  { type := int8 (field mem 0 1), size := field mem (1 + pad) 4, id := field mem (1 + pad + 4) 4 }

/-- Assignment `m[k] = v` on a `std::map<std::uint32_t, T>`, kept as an association
list with one entry per key. -/
def mapAssign {α : Type} : List (Nat × α) → Nat → α → List (Nat × α)
  | [], k, v => [(k, v)]
  | (k', v') :: rest, k, v =>
    if k' = k then (k, v) :: rest else (k', v') :: mapAssign rest k v

/-- Lookup of key `k` in a `std::map<std::uint32_t, T>`. -/
def mapFind {α : Type} : List (Nat × α) → Nat → Option α
  | [], _ => none
  | (k', v') :: rest, k => if k' = k then some v' else mapFind rest k

/-! ## The local variables of `ExtractBnkFile` -/

/-- The local variables of `ExtractBnkFile` that live across loop iterations.
`dispatched` is a ghost log, not a C++ variable: it records, for every chunk header
read successfully, `section_pos` and the header with its effective size; nothing
else depends on it. -/
structure Locals where
  data_offset : Nat
  files : List Index
  content_section : Section
  content_index : Index
  bank_header : BankHeader
  objects : List Object
  event_objects : List (Nat × EventObject)
  event_action_objects : List (Nat × EventActionObject)
  dispatched : List (Nat × Section)
deriving DecidableEq, Repr

/-- The initial values of the local variables (lines 41-48). -/
def Locals.init : Locals :=
  { data_offset := 0, files := [], content_section := ⟨zeros 4, 0⟩, content_index := ⟨0, 0, 0⟩,
    bank_header := ⟨0, 0⟩, objects := [], event_objects := [], event_action_objects := [],
    dispatched := [] }

/-! ## The `DIDX` branch (lines 64-70) -/

/-- Fuel that covers every terminating run of the `DIDX` loop: the 32-bit counter
`i` advances by 12, so a run that ends does so within `2^32 / 12 + 1` tests. -/
def didxFuel : Nat := 357913942

/-- The loop `for (auto i = 0U; i < content_section.size; i += sizeof(content_index))`;
`i` is a 32-bit unsigned counter.  The result is `none` when the fuel runs out. -/
def didxLoop : Nat → Nat → Nat → IStream → Index → List Index →
    Option (IStream × Index × List Index)
  | 0, _, _, _, _, _ => none
  | fuel + 1, i, size, s, content_index, files =>
    if i < size then
      let r := ReadContent s content_index.toMem
      let content_index' := Index.ofMem r.2.1
      didxLoop fuel ((i + 12) % 4294967296) size r.2.2 content_index' (files ++ [content_index'])
    else some (s, content_index, files)

/-! ## The `HIRC` branch (lines 77-137) -/

/-- The loop of lines 97-101: `n` reads of a `std::uint32_t action_id`, each pushed. -/
def actionIdLoop : Nat → IStream → List Nat → IStream × List Nat
  | 0, s, ids => (s, ids)
  | n + 1, s, ids =>
    let r := ReadContent s (zeros 4)
    actionIdLoop n r.2.2 (ids ++ [leNat r.2.1])

/-- The `Event` branch, lines 86-101: the decoded event and the stream after it. -/
def readEvent (version : Nat) (s : IStream) : EventObject × IStream :=
  let rc :=
    if version ≥ 134 then
      let r := ReadContent s (zeros 1)
      (leNat r.2.1, r.2.2)
    else
      let r := ReadContent s (zeros 4)
      (leNat r.2.1, r.2.2)
  let ri := actionIdLoop rc.1 rc.2 []
  ({ action_count := rc.1, action_ids := ri.2 }, ri.1)

/-- The loops of lines 116-120 and 122-126: `n` reads of a one-byte signed value,
each pushed. -/
def int8Loop : Nat → IStream → List Int → IStream × List Int
  | 0, s, xs => (s, xs)
  | n + 1, s, xs =>
    let r := ReadContent s (zeros 1)
    int8Loop n r.2.2 (xs ++ [int8 (leNat r.2.1)])

/-- The residual skip of line 129, `object.size - 13 - event_action.parameter_count * 2`,
computed in 32-bit unsigned arithmetic. -/
def residualSkip (size parameter_count : Nat) : Nat :=
  (((size : Int) - 13 - (parameter_count : Int) * 2) % 4294967296).toNat

/-- The `EventAction` branch, lines 106-129. -/
def readEventAction (size : Nat) (s : IStream) : EventActionObject × IStream :=
  let r1 := ReadContent s (zeros 1)
  let r2 := ReadContent r1.2.2 (zeros 1)
  let r3 := ReadContent r2.2.2 (zeros 4)
  let s4 := seekgCur r3.2.2 1
  let r5 := ReadContent s4 (zeros 1)
  let parameter_count := leNat r5.2.1
  let r6 := int8Loop parameter_count r5.2.2 []
  let r7 := int8Loop parameter_count r6.1 []
  let s8 := seekgCur r7.1 1
  let s9 := seekgCur s8 (residualSkip size parameter_count)
  ({ scope := int8 (leNat r1.2.1), action_type := int8 (leNat r2.2.1),
     game_object_id := leNat r3.2.1, parameter_count := parameter_count,
     parameters_types := r6.2, parameters := r7.2 }, s9)

/-- One iteration of the object loop, lines 82-135. -/
def hircObject (pad : Nat) (lv : Locals) (s : IStream) : Locals × IStream :=
  let r := ReadContent s (zeros (sizeofObject pad))
  let object := Object.ofMem pad r.2.1
  let ls : Locals × IStream :=
    if object.type = ObjectType.Event then
      let e := readEvent lv.bank_header.version r.2.2
      ({ lv with event_objects := mapAssign lv.event_objects object.id e.1 }, e.2)
    else if object.type = ObjectType.EventAction then
      let e := readEventAction object.size r.2.2
      ({ lv with event_action_objects := mapAssign lv.event_action_objects object.id e.1 }, e.2)
    else (lv, r.2.2)
  ({ ls.1 with objects := ls.1.objects ++ [object] }, seekgCur ls.2 ((object.size : Int) - 4))

/-- The loop `for (auto i = 0U; i < object_count; ++i)` of line 81. -/
def hircLoop (pad : Nat) : Nat → Locals → IStream → Locals × IStream
  | 0, lv, s => (lv, s)
  | n + 1, lv, s =>
    let r := hircObject pad lv s
    hircLoop pad n r.1 r.2

/-- The `HIRC` branch, lines 78-136. -/
def decodeHIRC (pad : Nat) (lv : Locals) (s : IStream) : Locals × IStream :=
  let r := ReadContent s (zeros 4)
  hircLoop pad (leNat r.2.1) lv r.2.2

/-! ## The chunk loop (lines 50-141) -/

/-- The body of the `while` loop, lines 51-140, entered after the header was read
into `content_section`.  The result is `none` when the `DIDX` loop does not end. -/
def chunkBody (pad : Nat) (swapByteOrder : Bool) (lv : Locals) (s : IStream) :
    Option (Locals × IStream) :=
  let section_pos := tellg s
  let size :=
    if swapByteOrder then toU32 (Swap32 lv.content_section.size) else lv.content_section.size
  let sign := lv.content_section.sign
  let lv : Locals :=
    { lv with content_section := ⟨sign, size⟩,
              dispatched := lv.dispatched ++ [(section_pos, ⟨sign, size⟩)] }
  let r : Option (Locals × IStream) :=
    if Compare sign sigBKHD then
      let r := ReadContent s lv.bank_header.toMem
      some ({ lv with bank_header := BankHeader.ofMem r.2.1 }, seekgCur r.2.2 ((size : Int) - 8))
    else if Compare sign sigDIDX then
      (didxLoop didxFuel 0 size s lv.content_index lv.files).map
        fun r => ({ lv with content_index := r.2.1, files := r.2.2 }, r.1)
    else if Compare sign sigSTID then some (lv, s)
    else if Compare sign sigDATA then some ({ lv with data_offset := tellg s }, s)
    else if Compare sign sigHIRC then some (decodeHIRC pad lv s)
    else some (lv, s)
  r.map fun r => (r.1, seekgAbs r.2 (section_pos + size))

/-- The loop `while (ReadContent(bnk_file, content_section))`; every iteration that
reads a header moves the get position forward, so `data.length + 1` units of fuel
are enough (see `decodePass`). -/
def chunkLoop (pad : Nat) (swapByteOrder : Bool) : Nat → Locals → IStream →
    Option (Locals × IStream)
  | 0, _, _ => none
  | fuel + 1, lv, s =>
    let r := ReadContent s lv.content_section.toMem
    let lv' := { lv with content_section := Section.ofMem r.2.1 }
    if r.1 then
      match chunkBody pad swapByteOrder lv' r.2.2 with
      | none => none
      | some r' => chunkLoop pad swapByteOrder fuel r'.1 r'.2
    else some (lv', r.2.2)

/-- The decode pass, lines 41-144: the loop over the chunks of the opened file,
followed by `bnk_file.clear()`. -/
def decodePass (pad : Nat) (swapByteOrder : Bool) (bnk : List Byte) : Option (Locals × IStream) :=
  (chunkLoop pad swapByteOrder (bnk.length + 1) Locals.init ⟨bnk, 0, false⟩).map
    fun r => (r.1, clear r.2)

/-! ## The extraction pass (lines 193-224) -/

/-- What the run depends on outside the input file: whether `objects.txt` and each
payload file can be opened for writing. -/
structure Env where
  reportOpens : Bool
  wemOpens : String → Bool

/-- The file name `<id>.wem` of line 204, relative to the output directory. -/
def wemName (id : Nat) : String := toString id ++ ".wem"

/-- The loop of lines 202-222.  The result is the stream, the entries of `files`
as the loop leaves them, and the payload files written, in order. -/
def extractLoop (swapByteOrder : Bool) (env : Env) (data_offset : Nat) :
    List Index → IStream → List Index → List (String × List Byte) →
    IStream × List Index × List (String × List Byte)
  | [], s, done, out => (s, done, out)
  | e :: rest, s, done, out =>
    let size := if swapByteOrder then toU32 (Swap32 e.size) else e.size
    let offset := if swapByteOrder then toU32 (Swap32 e.offset) else e.offset
    let e' : Index := { id := e.id, offset := offset, size := size }
    if env.wemOpens (wemName e.id) then
      let r := ReadContent (seekgAbs s (data_offset + offset)) (zeros size)
      extractLoop swapByteOrder env data_offset rest r.2.2 (done ++ [e'])
        (out ++ [(wemName e.id, r.2.1)])
    else extractLoop swapByteOrder env data_offset rest s (done ++ [e']) out

/-- What a run of `ExtractBnkFile` leaves behind: the local variables at return,
whether the object report was written, and the payload files written, in order. -/
structure Outcome where
  locals : Locals
  reportWritten : Bool
  wems : List (String × List Byte)

/-- The function `ExtractBnkFile`.  `bnk` is `none` when the input file cannot be
opened.  The result is `none` when the run does not terminate.  The outcome records
whether the object report is written; its text is given by `objectReport` on the
local variables. -/
def ExtractBnkFile (pad : Nat) (bnk : Option (List Byte)) (swapByteOrder dumpObjects : Bool)
    (env : Env) : Option Outcome :=
  match bnk with
  | none => some { locals := Locals.init, reportWritten := false, wems := [] }
  | some data =>
    match decodePass pad swapByteOrder data with
    | none => none
    | some (lv, s) =>
      if dumpObjects && !env.reportOpens then
        some { locals := lv, reportWritten := false, wems := [] }
      else if lv.data_offset = 0 ∨ lv.files = [] then
        some { locals := lv, reportWritten := dumpObjects, wems := [] }
      else
        let r := extractLoop swapByteOrder env lv.data_offset lv.files s [] []
        some { locals := { lv with files := r.2.1 }, reportWritten := dumpObjects, wems := r.2.2 }

/-! ## Byte layouts of the records, used to state the properties -/

/-- The bytes of a sequence of `std::uint32_t` values stored one after the other. -/
def idsBytes : List Nat → List Byte
  | [] => []
  | x :: xs => u32Bytes x ++ idsBytes xs

/-- The bytes of `struct Object` in memory: the type byte, the padding bytes, `size`
and `id`. -/
def objectBytes (type : Byte) (padBytes : List Byte) (size id : Nat) : List Byte :=
  type :: padBytes ++ u32Bytes size ++ u32Bytes id

/-- The on-wire action-count field of an `Event`: one byte from bank version 134 on,
four bytes before. -/
def actionCountBytes (version count : Nat) : List Byte :=
  if version ≥ 134 then [Fin.ofNat count] else u32Bytes count

/-- The bytes of an `EventAction` record from `scope` to the end of the two parameter
arrays. -/
def eventActionBytes (scope actionType : Byte) (gameObjectId : Nat) (reserved : Byte)
    (types params : List Byte) : List Byte :=
  [scope, actionType] ++ u32Bytes gameObjectId ++ [reserved, Fin.ofNat types.length]
    ++ types ++ params

/-! ## Invariants of the decoded model -/

/-- The length invariant of the two object maps: every event has as many action ids
as its `action_count`, and every event action has as many parameter types and as many
parameters as its `parameter_count`. -/
def ModelInv (lv : Locals) : Prop :=
  (∀ kv ∈ lv.event_objects, kv.2.action_ids.length = kv.2.action_count)
  ∧ (∀ kv ∈ lv.event_action_objects,
      kv.2.parameters_types.length = kv.2.parameter_count
      ∧ kv.2.parameters.length = kv.2.parameter_count)

/-- Whenever `data_offset` is not 0, a chunk with the `DATA` signature was dispatched. -/
def DataSeen (lv : Locals) : Prop :=
  lv.data_offset ≠ 0 → ∃ d ∈ lv.dispatched, Compare d.2.sign sigDATA = true

/-- The bytes of a sequence of index entries stored one after the other. -/
def indexBytes : List Index → List Byte
  | [] => []
  | e :: es => e.toMem ++ indexBytes es

/-- All three fields of an index entry fit 32 bits. -/
def Index.fits (e : Index) : Prop :=
  e.id < 4294967296 ∧ e.offset < 4294967296 ∧ e.size < 4294967296

instance (e : Index) : Decidable e.fits := by
  unfold Index.fits; infer_instance

/-- The length the dispatcher uses for a chunk whose size field holds `raw`. -/
def effectiveLength (swapByteOrder : Bool) (raw : Nat) : Nat :=
  if swapByteOrder then bswap32 raw else raw

/-! ## Concrete inputs -/

/-- A file whose first chunk is a `HIRC` chunk of declared length 6 holding an object
count of 0 and two more bytes, followed by an empty chunk of unknown signature. -/
def c1File : List Byte :=
  sigHIRC ++ u32Bytes 6 ++ u32Bytes 0 ++ [0xAA, 0xBB] ++ [0x41, 0x42, 0x43, 0x44] ++ u32Bytes 0

/-- A file holding one `HIRC` chunk with two objects laid out as `struct Object` is under
natural alignment: an `Event` (type 4, size 8, id 1) with a four-byte action count of 0,
then a `SoundEffectOrVoice` (type 2, size 4, id 2). -/
def c3File : List Byte :=
  sigHIRC ++ u32Bytes 32 ++ u32Bytes 2
    ++ ([4, 0, 0, 0] ++ u32Bytes 8 ++ u32Bytes 1) ++ u32Bytes 0
    ++ ([2, 0, 0, 0] ++ u32Bytes 4 ++ u32Bytes 2)

/-- The same two objects with nine-byte headers, as a packed `struct Object` would be. -/
def c3FilePacked : List Byte :=
  sigHIRC ++ u32Bytes 26 ++ u32Bytes 2
    ++ ([4] ++ u32Bytes 8 ++ u32Bytes 1) ++ u32Bytes 0
    ++ ([2] ++ u32Bytes 4 ++ u32Bytes 2)

/-- An `Event` record with one action id, its count stored in one byte. -/
def c4Data134 : List Byte :=
  objectBytes 4 [0, 0, 0] 9 7 ++ ([1] ++ u32Bytes 305419896 ++ [0xEE])

/-- An `Event` record with one action id, its count stored in four bytes. -/
def c4Data133 : List Byte :=
  objectBytes 4 [0, 0, 0] 12 7 ++ (u32Bytes 1 ++ u32Bytes 305419896 ++ [0xEE])

/-- A file holding one `HIRC` chunk with one `EventAction` object (type 3, size 12,
id 5) whose record holds scope 2, action type 4, game object id 9, a reserved byte and
a parameter count of 0. -/
def c9File : List Byte :=
  sigHIRC ++ u32Bytes 24 ++ u32Bytes 1
    ++ ([3, 0, 0, 0] ++ u32Bytes 12 ++ u32Bytes 5)
    ++ eventActionBytes 2 4 9 0 [] []

/-- A file holding an `Event` with two action ids and an `EventAction` with two
parameters. -/
def c5File : List Byte :=
  sigHIRC ++ u32Bytes 53 ++ u32Bytes 2
    ++ ([4, 0, 0, 0] ++ u32Bytes 4 ++ u32Bytes 1) ++ u32Bytes 2 ++ u32Bytes 10 ++ u32Bytes 20
    ++ ([3, 0, 0, 0] ++ u32Bytes 17 ++ u32Bytes 2)
    ++ eventActionBytes 2 4 9 0 [0x0E, 0x10] [1, 0xFF] ++ [0]

/-- A file holding a `DIDX` chunk of declared length 1 followed by twelve more bytes. -/
def c7File : List Byte :=
  sigDIDX ++ u32Bytes 1 ++ (u32Bytes 7 ++ u32Bytes 0 ++ u32Bytes 16)

/-- A file holding a `DIDX` chunk of declared length 24 with two entries of equal id. -/
def c7File2 : List Byte :=
  sigDIDX ++ u32Bytes 24 ++ indexBytes [⟨7, 0, 16⟩, ⟨7, 16, 4⟩]

/-- A file holding an index of one entry and no `DATA` chunk. -/
def c8File : List Byte :=
  sigDIDX ++ u32Bytes 12 ++ indexBytes [⟨7, 0, 16⟩]

/-! ## Containers described chunk by chunk

The definitions of this section follow the format as the specification describes it:
a container is a sequence of chunks, each a four-byte signature, a 32-bit length and a
payload of that length.  They are used to state properties of the decoder on
well-formed containers. -/

/-- A chunk of a well-formed container: a bank header, an index table, a data chunk,
or a chunk that carries no decoded content (`STID` or an unknown signature). -/
inductive Chunk where
  | bkhd (version id : Nat) (extra : List Byte)
  | didx (entries : List Index)
  | data (payload : List Byte)
  | other (sign : List Byte) (payload : List Byte)

/-- A 32-bit field as stored: little-endian, or in reversed byte order when `rev`. -/
def u32Field (rev : Bool) (x : Nat) : List Byte :=
  if rev then (u32Bytes x).reverse else u32Bytes x

/-- The stored bytes of an index table. -/
def indexFieldBytes (rev : Bool) : List Index → List Byte
  | [] => []
  | e :: es => u32Field rev e.id ++ u32Field rev e.offset ++ u32Field rev e.size
      ++ indexFieldBytes rev es

def Chunk.sign : Chunk → List Byte
  | .bkhd _ _ _ => sigBKHD
  | .didx _ => sigDIDX
  | .data _ => sigDATA
  | .other sign _ => sign

/-- The payload of a chunk; only the index fields depend on the byte order. -/
def Chunk.payload (rev : Bool) : Chunk → List Byte
  | .bkhd version id extra => u32Bytes version ++ u32Bytes id ++ extra
  | .didx entries => indexFieldBytes rev entries
  | .data payload => payload
  | .other _ payload => payload

def Chunk.payloadLength : Chunk → Nat
  | .bkhd _ _ extra => 8 + extra.length
  | .didx entries => 12 * entries.length
  | .data payload => payload.length
  | .other _ payload => payload.length

/-- The bytes of a chunk: signature, length field, payload. -/
def Chunk.bytes (rev : Bool) (c : Chunk) : List Byte :=
  c.sign ++ u32Field rev c.payloadLength ++ c.payload rev

/-- The bytes of a container. -/
def containerBytes (rev : Bool) : List Chunk → List Byte
  | [] => []
  | c :: cs => c.bytes rev ++ containerBytes rev cs

/-- A chunk is well formed when its length and its 32-bit fields fit 32 bits and, for a
chunk without decoded content, its signature has four bytes and is none of `BKHD`,
`DIDX`, `DATA`, `HIRC`. -/
def Chunk.WF : Chunk → Prop
  | .bkhd version id extra =>
      version < 4294967296 ∧ id < 4294967296 ∧ 8 + extra.length < 4294967296
  | .didx entries => 12 * entries.length < 4294967296 ∧ ∀ e ∈ entries, e.fits
  | .data payload => payload.length < 4294967296
  | .other sign payload =>
      payload.length < 4294967296 ∧ sign.length = 4 ∧ sign ≠ sigBKHD ∧ sign ≠ sigDIDX
        ∧ sign ≠ sigDATA ∧ sign ≠ sigHIRC

instance (c : Chunk) : Decidable c.WF := by
  cases c <;> (simp only [Chunk.WF]; infer_instance)

def Chunk.entries : Chunk → List Index
  | .didx entries => entries
  | _ => []

/-- The index entries of a container, in on-disk order. -/
def filesOf : List Chunk → List Index
  | [] => []
  | c :: cs => c.entries ++ filesOf cs

/-- The index entry as the decode pass sees it: with the switch on, the fields of a
byte-reversed container are kept as read (reversed) until extraction. -/
def storedIndex (rev : Bool) (e : Index) : Index :=
  if rev then ⟨bswap32 e.id, bswap32 e.offset, bswap32 e.size⟩ else e

/-- The start offset and the payload of the last `DATA` chunk of a container that
starts at offset `p`. -/
def lastDataAt : List Chunk → Nat → Option (Nat × List Byte)
  | [], _ => none
  | c :: cs, p =>
    match lastDataAt cs (p + (8 + c.payloadLength)) with
    | some r => some r
    | none =>
      match c with
      | .data payload => some (p + 8, payload)
      | _ => none

/-- The bank header after the chunks `cs`, starting from `b`. -/
def lastBank : List Chunk → BankHeader → BankHeader
  | [], b => b
  | .bkhd version id _ :: cs, _ => lastBank cs ⟨version, id⟩
  | _ :: cs, b => lastBank cs b

/-! ## What a well-formed container decodes to -/

/-- The decoded content of `lv'` is that of `lv` with the given index sequence, data
offset and bank header. -/
def Locals.updated (lv lv' : Locals) (files : List Index) (off : Nat) (bh : BankHeader) : Prop :=
  lv'.files = files ∧ lv'.data_offset = off ∧ lv'.bank_header = bh ∧ lv'.objects = lv.objects
  ∧ lv'.event_objects = lv.event_objects ∧ lv'.event_action_objects = lv.event_action_objects

/-- The data offset after the chunk `c` whose payload starts at offset `p`. -/
def Chunk.dataOffset (c : Chunk) (p old : Nat) : Nat :=
  match c with
  | .data _ => p
  | _ => old

/-- The data offset after the chunks `cs` of a container that starts at offset `p`. -/
def dataOffsetOf (cs : List Chunk) (p old : Nat) : Nat :=
  match lastDataAt cs p with
  | some r => r.1
  | none => old

/-- The payloads a container describes: for every index entry, in on-disk order, its id
and the bytes of its range in the payload of the last `DATA` chunk. -/
def payloadsOf (cs : List Chunk) : List (Nat × List Byte) :=
  match lastDataAt cs 0 with
  | none => []
  | some r => (filesOf cs).map (fun e => (e.id, (r.2.drop e.offset).take e.size))

/-- A container made of one `DIDX` chunk and one `DATA` chunk, in either order, stored
in native byte order. -/
def didxDataContainer (dataFirst : Bool) (entries : List Index) (payload : List Byte) :
    List Byte :=
  if dataFirst then containerBytes false [.data payload, .didx entries]
  else containerBytes false [.didx entries, .data payload]

/-- The offset of the first byte after the header of the `DATA` chunk of
`didxDataContainer`. -/
def dataStart (dataFirst : Bool) (entries : List Index) : Nat :=
  if dataFirst then 8 else 8 + 12 * entries.length + 8

/-- The number of bytes of a container. -/
def containerSize : List Chunk → Nat
  | [] => 0
  | c :: cs => 8 + c.payloadLength + containerSize cs

/-! ## More concrete inputs -/

/-- Sixteen known bytes. -/
def c2Payload : List Byte :=
  [0xDE, 0xAD, 0xBE, 0xEF, 1, 2, 3, 4, 5, 6, 7, 8, 9, 10, 11, 12]

/-- A native-order container with a bank header, one index entry `{7, 0, 16}` and sixteen
data bytes. -/
def c10Chunks : List Chunk :=
  [.bkhd 134 1 [], .didx [⟨7, 0, 16⟩], .data c2Payload]

/-- A `HIRC` chunk in the format the specification describes, with nine-byte object
headers: an `Event` (type 4, size 9, id 1) with a one-byte action count 1 and the action
id 5, then a `SoundEffectOrVoice` (type 2, size 4, id 2). -/
def c6Hirc : List Byte :=
  sigHIRC ++ u32Bytes 27 ++ u32Bytes 2
    ++ ([4] ++ u32Bytes 9 ++ u32Bytes 1) ++ [1] ++ u32Bytes 5
    ++ ([2] ++ u32Bytes 4 ++ u32Bytes 2)

/-- The chunks before the insertion point: a bank header of version 134 and `c6Hirc`. -/
def c6Head : List Byte := Chunk.bytes false (.bkhd 134 1 []) ++ c6Hirc

/-- The chunks after the insertion point: an index with the entry `{7, 0, 4}` and four
data bytes. -/
def c6Tail : List Byte := containerBytes false [.didx [⟨7, 0, 4⟩], .data [1, 2, 3, 4]]

/-- A chunk of unknown signature `XXXX` with 300 payload bytes. -/
def c6Unknown : Chunk := .other [0x58, 0x58, 0x58, 0x58] (List.replicate 300 9)

/-! ## Concrete inputs for the extraction pass and for termination -/

/-- A file holding only the header of a `DIDX` chunk with declared length `2^32 - 3`. -/
def c15File : List Byte := sigDIDX ++ u32Bytes 4294967293

/-- A container whose index entry `{7, 0, 16}` asks for sixteen bytes of a `DATA` chunk
that holds four. -/
def c11File : List Byte :=
  sigDIDX ++ u32Bytes 12 ++ indexBytes [⟨7, 0, 16⟩] ++ sigDATA ++ u32Bytes 4 ++ [1, 2, 3, 4]

/-- A container with two index entries, `{1, 0, 100}` whose range runs past the end of
the source and `{2, 0, 4}` whose range is the four data bytes. -/
def c12File : List Byte :=
  sigDIDX ++ u32Bytes 24 ++ indexBytes [⟨1, 0, 100⟩, ⟨2, 0, 4⟩] ++ sigDATA ++ u32Bytes 4
    ++ [1, 2, 3, 4]

/-- A file that ends right after a `HIRC` chunk's object count of 5. -/
def c13File : List Byte := sigHIRC ++ u32Bytes 4 ++ u32Bytes 5

/-- A file holding one `HIRC` chunk with one object whose header has nine bytes, as the
format describes it (type 2, size 4, id 2), followed by three more bytes. -/
def c17File : List Byte :=
  sigHIRC ++ u32Bytes 16 ++ u32Bytes 1 ++ ([2] ++ u32Bytes 4 ++ u32Bytes 2) ++ [0xAA, 0xBB, 0xCC]

/-- The data offset that a log of dispatched chunks accounts for: the `section_pos` of
the last chunk with the `DATA` signature, 0 when there is none. -/
def lastDataPos (log : List (Nat × Section)) : Nat :=
  log.foldl (fun acc d => if Compare d.2.sign sigDATA then d.1 else acc) 0

/-- The log of dispatched chunks agrees with the source `data` and with `data_offset`:
every logged `section_pos` is at least 8 and has the logged signature eight bytes
before it, and `data_offset` is the `section_pos` of the last `DATA` chunk logged. -/
def LogInv (data : List Byte) (lv : Locals) : Prop :=
  (∀ d ∈ lv.dispatched, 8 ≤ d.1 ∧ (data.drop (d.1 - 8)).take 4 = d.2.sign)
  ∧ lv.data_offset = lastDataPos lv.dispatched

/-- A file with two `DATA` chunks, of two bytes and of no byte. -/
def c18File : List Byte :=
  sigDATA ++ u32Bytes 2 ++ [1, 2] ++ sigDATA ++ u32Bytes 0

/-! ## The object report (lines 150-191) -/

/-- The value of `static_cast<int>(x)` for a `std::uint32_t` `x`. -/
def toInt32 (x : Nat) : Int :=
  if x % 4294967296 < 2147483648 then ((x % 4294967296 : Nat) : Int)
  else ((x % 4294967296 : Nat) : Int) - 4294967296

/-- The loop of lines 180-183: the two lines printed for each `j < parameter_count`,
from `parameters_types[j]` and `parameters[j]`.  The result is `none` when an index is
out of bounds. -/
def reportParameters (e : EventActionObject) : Nat → Nat → Option (List String)
  | 0, _ => some []
  | n + 1, j =>
    match e.parameters_types[j]?, e.parameters[j]? with
    | some t, some p =>
      (reportParameters e n (j + 1)).map
        fun rest => ("\t\tParameter Type: " ++ toString t) :: ("\t\tParameter: " ++ toString p)
          :: rest
    | _, _ => none

/-- The lines printed for one object, lines 162-187.  `event_objects[id]` and
`event_action_objects[id]` yield a value-initialised entry when the key is absent. -/
def reportObject (lv : Locals) (o : Object) : Option (List String) :=
  if o.type = ObjectType.Event then
    let e := (mapFind lv.event_objects o.id).getD ⟨0, []⟩
    some (["Object ID: " ++ toString o.id, "\tType: Event",
        "\tNumber of Actions: " ++ toString e.action_count]
      ++ e.action_ids.map (fun a => "\tAction ID: " ++ toString a))
  else if o.type = ObjectType.EventAction then
    let e := (mapFind lv.event_action_objects o.id).getD ⟨0, 0, 0, 0, [], []⟩
    (reportParameters e e.parameter_count 0).map
      fun ps => ["Object ID: " ++ toString o.id, "\tType: EventAction",
          "\tAction Scope: " ++ toString e.scope,
          "\tAction Type: " ++ toString e.action_type,
          "\tGame Object ID: " ++ toString (toInt32 e.game_object_id),
          "\tNumber of Parameters: " ++ toString (toInt32 e.parameter_count)] ++ ps
  else
    some ["Object ID: " ++ toString o.id, "\tType: " ++ toString o.type]

/-- The loop of line 161 over the object list: the lines of `objects.txt`, or `none`
when an indexed access is out of bounds. -/
def reportObjects (lv : Locals) : List Object → Option (List String)
  | [] => some []
  | o :: os =>
    match reportObject lv o, reportObjects lv os with
    | some a, some b => some (a ++ b)
    | _, _ => none

/-- The text of the object report for a decoded model. -/
def objectReport (lv : Locals) : Option (List String) := reportObjects lv lv.objects

/-! ## Statements about the object maps -/

/-- The object header that the iteration entered at `s` reads. -/
def headerRead (pad : Nat) (s : IStream) : Object :=
  Object.ofMem pad (ReadContent s (zeros (sizeofObject pad))).2.1

/-- The stream after the header read of the iteration entered at `s`. -/
def afterHeader (pad : Nat) (s : IStream) : IStream :=
  (ReadContent s (zeros (sizeofObject pad))).2.2

/-- Each of the two object maps has one entry per key. -/
def KeysUnique (lv : Locals) : Prop :=
  (lv.event_objects.map Prod.fst).Nodup ∧ (lv.event_action_objects.map Prod.fst).Nodup

/-- Every `Event` and every `EventAction` of the object list has an entry under its id
in the map of its kind. -/
def ObjInv (lv : Locals) : Prop :=
  ∀ o ∈ lv.objects,
    (o.type = ObjectType.Event → (mapFind lv.event_objects o.id).isSome = true)
    ∧ (o.type = ObjectType.EventAction → (mapFind lv.event_action_objects o.id).isSome = true)

/-- A file holding one `HIRC` chunk with three objects of id 1, each of declared size 4,
the size with which line 134 leaves the stream at the end of the record: an `Event`
with the action id 10, an `Event` with the action ids 20 and 30, and an `EventAction`. -/
def c16File : List Byte :=
  sigHIRC ++ u32Bytes 68 ++ u32Bytes 3
    ++ ([4, 0, 0, 0] ++ u32Bytes 4 ++ u32Bytes 1) ++ u32Bytes 1 ++ u32Bytes 10
    ++ ([4, 0, 0, 0] ++ u32Bytes 4 ++ u32Bytes 1) ++ u32Bytes 2 ++ u32Bytes 20 ++ u32Bytes 30
    ++ ([3, 0, 0, 0] ++ u32Bytes 4 ++ u32Bytes 1) ++ eventActionBytes 2 4 9 0 [] []

/-- The 8-byte file `DIDX` with declared length `2^32 - 1`: it holds no `DATA` chunk and
no index entry. -/
def c8Endless : List Byte := sigDIDX ++ u32Bytes 4294967295

/-- A file holding one `HIRC` chunk with two `Event` objects of id 1, each with its
declared size as the format defines it (the bytes after the size field: id, action
count, action ids), laid out as `struct Object` is under natural alignment: the first
with the action id 10 (size 12), the second with the action ids 20 and 30 (size 16). -/
def c16Events : List Byte :=
  sigHIRC ++ u32Bytes 48 ++ u32Bytes 2
    ++ ([4, 0, 0, 0] ++ u32Bytes 12 ++ u32Bytes 1) ++ u32Bytes 1 ++ u32Bytes 10
    ++ ([4, 0, 0, 0] ++ u32Bytes 16 ++ u32Bytes 1) ++ u32Bytes 2 ++ u32Bytes 20 ++ u32Bytes 30

/-- The same two `Event` objects with nine-byte headers, as the format lays them out. -/
def c16EventsPacked : List Byte :=
  sigHIRC ++ u32Bytes 42 ++ u32Bytes 2
    ++ ([4] ++ u32Bytes 12 ++ u32Bytes 1) ++ u32Bytes 1 ++ u32Bytes 10
    ++ ([4] ++ u32Bytes 16 ++ u32Bytes 1) ++ u32Bytes 2 ++ u32Bytes 20 ++ u32Bytes 30

/-- A file holding one `HIRC` chunk with two `EventAction` objects of id 1 without
parameters, each of declared size 13 (id, scope, action type, game object id, two
reserved bytes and the parameter count), laid out as `struct Object` is under natural
alignment: the first with scope 2, action type 4 and game object id 9, the second with
scope 3, action type 5 and game object id 8. -/
def c16Actions : List Byte :=
  sigHIRC ++ u32Bytes 46 ++ u32Bytes 2
    ++ ([3, 0, 0, 0] ++ u32Bytes 13 ++ u32Bytes 1) ++ eventActionBytes 2 4 9 0 [] [] ++ [0]
    ++ ([3, 0, 0, 0] ++ u32Bytes 13 ++ u32Bytes 1) ++ eventActionBytes 3 5 8 0 [] [] ++ [0]

/-! # Theorems -/

/-! ## Basic facts about the stream primitives -/

theorem length_zeros (n : Nat) : (zeros n).length = n := by simp [zeros]

theorem length_u32Bytes (n : Nat) : (u32Bytes n).length = 4 := rfl

theorem length_Section_toMem (x : Section) : x.toMem.length = 8 := by
  simp [Section.toMem, length_zeros, length_u32Bytes]

theorem length_Index_toMem (x : Index) : x.toMem.length = 12 := by
  simp [Index.toMem, length_u32Bytes]

theorem length_BankHeader_toMem (x : BankHeader) : x.toMem.length = 8 := by
  simp [BankHeader.toMem, length_u32Bytes]

theorem ReadContent_data (s : IStream) (mem : List Byte) : (ReadContent s mem).2.2.data = s.data := by
  unfold ReadContent
  by_cases hf : s.fail = true
  · simp [hf]
  · by_cases hl : mem.length ≤ s.data.length - s.pos
    · simp [hf, hl]
    · simp [hf, hl]

theorem ReadContent_pos_of_true (s : IStream) (mem : List Byte) (h : (ReadContent s mem).1 = true) :
    (ReadContent s mem).2.2.pos = s.pos + mem.length ∧ (ReadContent s mem).2.2.fail = false
      ∧ s.fail = false := by
  unfold ReadContent at h ⊢
  by_cases hf : s.fail = true
  · simp [hf] at h
  · by_cases hl : mem.length ≤ s.data.length - s.pos
    · simp [hf, hl]
    · simp [hf, hl] at h

theorem ReadContent_fail_of_false (s : IStream) (mem : List Byte) (h : (ReadContent s mem).1 = false) :
    (ReadContent s mem).2.2.fail = true := by
  unfold ReadContent at h ⊢
  by_cases hf : s.fail = true
  · simp [hf]
  · by_cases hl : mem.length ≤ s.data.length - s.pos
    · simp [hf, hl] at h
    · simp [hf, hl]

theorem seekgAbs_fail (s : IStream) (p : Nat) : (seekgAbs s p).fail = s.fail := by
  unfold seekgAbs; split <;> simp_all

theorem seekgAbs_pos (s : IStream) (p : Nat) (h : s.fail = false) : (seekgAbs s p).pos = p := by
  simp [seekgAbs, h]

theorem seekgAbs_data (s : IStream) (p : Nat) : (seekgAbs s p).data = s.data := by
  unfold seekgAbs; split <;> rfl

theorem bswap32_lt (x : Nat) : bswap32 x < 4294967296 := by
  unfold bswap32; omega

theorem toU32_Swap32 (x : Nat) : toU32 (Swap32 x) = bswap32 x := by
  have h := bswap32_lt x
  unfold toU32 Swap32
  split <;> omega

/-! ## Reading bytes that are present -/

theorem drop_advance {l : List Byte} {p : Nat} {bs rest : List Byte} (hd : l.drop p = bs ++ rest) :
    l.drop (p + bs.length) = rest := by
  have h := congrArg (List.drop bs.length) hd
  rw [List.drop_drop] at h
  simpa [Nat.add_comm] using h

theorem ReadContent_ok (s : IStream) (mem bs rest : List Byte) (hf : s.fail = false)
    (hd : s.data.drop s.pos = bs ++ rest) (hl : mem.length = bs.length) :
    ReadContent s mem = (true, bs, ⟨s.data, s.pos + bs.length, false⟩) := by
  unfold ReadContent
  simp [hf, hd, hl]

theorem leNat_u32Bytes (n : Nat) (h : n < 4294967296) : leNat (u32Bytes n) = n := by
  simp only [u32Bytes, leNat, Fin.ofNat, Fin.val_mk]
  omega

theorem leNat_single (b : Byte) : leNat [b] = b.val := by simp [leNat]

theorem length_idsBytes (ids : List Nat) : (idsBytes ids).length = 4 * ids.length := by
  induction ids with
  | nil => rfl
  | cons x xs ih => simp [idsBytes, length_u32Bytes, ih]; omega

theorem length_objectBytes (t : Byte) (padBytes : List Byte) (size id : Nat) :
    (objectBytes t padBytes size id).length = sizeofObject padBytes.length := by
  simp [objectBytes, sizeofObject, length_u32Bytes]; omega

theorem Object_ofMem_objectBytes (t : Byte) (padBytes : List Byte) (size id : Nat)
    (hs : size < 4294967296) (hi : id < 4294967296) :
    Object.ofMem padBytes.length (objectBytes t padBytes size id) = ⟨int8 t.val, size, id⟩ := by
  have h1 : (objectBytes t padBytes size id).drop (1 + padBytes.length)
      = u32Bytes size ++ u32Bytes id := by
    have : objectBytes t padBytes size id = (t :: padBytes) ++ (u32Bytes size ++ u32Bytes id) := by
      simp [objectBytes]
    rw [this, List.drop_left']
    simp; omega
  have h2 : (objectBytes t padBytes size id).drop (1 + padBytes.length + 4) = u32Bytes id := by
    rw [← List.drop_drop, h1]
    rfl
  simp only [Object.ofMem, field, h1, h2, List.drop_zero]
  have e1 : List.take 4 (u32Bytes size ++ u32Bytes id) = u32Bytes size := rfl
  have e2 : List.take 4 (u32Bytes id) = u32Bytes id := rfl
  have e3 : List.take 1 (objectBytes t padBytes size id) = [t] := by simp [objectBytes]
  rw [e1, e2, e3, leNat_u32Bytes _ hs, leNat_u32Bytes _ hi, leNat_single]

theorem int8Loop_ok : ∀ (bs : List Byte) (s : IStream) (xs : List Int) (rest : List Byte),
    s.fail = false → s.data.drop s.pos = bs ++ rest →
    int8Loop bs.length s xs
      = (⟨s.data, s.pos + bs.length, false⟩, xs ++ bs.map (fun b => int8 b.val)) := by
  intro bs
  induction bs with
  | nil =>
    intro s xs rest hf _
    cases s; simp_all [int8Loop]
  | cons b bs ih =>
    intro s xs rest hf hd
    have hr : ReadContent s (zeros 1) = (true, [b], ⟨s.data, s.pos + 1, false⟩) :=
      ReadContent_ok s (zeros 1) [b] (bs ++ rest) hf (by simpa using hd) (by simp [zeros])
    simp only [List.length_cons, int8Loop, hr]
    have hd' : (s.data).drop (s.pos + 1) = bs ++ rest :=
      @drop_advance s.data s.pos [b] (bs ++ rest) (by simpa using hd)
    rw [ih ⟨s.data, s.pos + 1, false⟩ _ rest rfl hd']
    simp [leNat]
    omega

theorem actionIdLoop_ok : ∀ (ids : List Nat) (s : IStream) (acc : List Nat) (rest : List Byte),
    (∀ x ∈ ids, x < 4294967296) → s.fail = false → s.data.drop s.pos = idsBytes ids ++ rest →
    actionIdLoop ids.length s acc = (⟨s.data, s.pos + 4 * ids.length, false⟩, acc ++ ids) := by
  intro ids
  induction ids with
  | nil =>
    intro s acc rest _ hf _
    cases s; simp_all [actionIdLoop]
  | cons x xs ih =>
    intro s acc rest hx hf hd
    have hd1 : s.data.drop s.pos = u32Bytes x ++ (idsBytes xs ++ rest) := by
      simpa [idsBytes] using hd
    have hr : ReadContent s (zeros 4) = (true, u32Bytes x, ⟨s.data, s.pos + 4, false⟩) :=
      ReadContent_ok s (zeros 4) (u32Bytes x) (idsBytes xs ++ rest) hf hd1
        (by simp [zeros, length_u32Bytes])
    simp only [List.length_cons, actionIdLoop, hr]
    have hd' : s.data.drop (s.pos + 4) = idsBytes xs ++ rest := drop_advance hd1
    rw [ih ⟨s.data, s.pos + 4, false⟩ _ rest
      (fun y hy => hx y (List.mem_cons_of_mem _ hy)) rfl hd']
    rw [leNat_u32Bytes x (hx x (List.mem_cons_self _ _))]
    simp [length_u32Bytes]
    omega

theorem readEvent_ok (version count : Nat) (ids : List Nat) (s : IStream) (rest : List Byte)
    (hf : s.fail = false)
    (hcount : count < (if version ≥ 134 then 256 else 4294967296))
    (hlen : ids.length = count) (hids : ∀ x ∈ ids, x < 4294967296)
    (hd : s.data.drop s.pos = actionCountBytes version count ++ idsBytes ids ++ rest) :
    readEvent version s
      = (⟨count, ids⟩,
         ⟨s.data, s.pos + (if version ≥ 134 then 1 else 4) + 4 * count, false⟩) := by
  unfold readEvent
  by_cases hv : version ≥ 134
  · simp only [hv, if_true] at hcount ⊢
    simp only [actionCountBytes, hv, if_true, List.append_assoc] at hd
    have hr : ReadContent s (zeros 1) = (true, [Fin.ofNat count], ⟨s.data, s.pos + 1, false⟩) :=
      ReadContent_ok s (zeros 1) [Fin.ofNat count] (idsBytes ids ++ rest) hf hd (by simp [zeros])
    have hval : leNat [(Fin.ofNat count : Byte)] = count := by
      simp only [leNat, Fin.ofNat, Fin.val_mk]; omega
    simp only [hr, hval]
    have hd' : s.data.drop (s.pos + 1) = idsBytes ids ++ rest :=
      @drop_advance s.data s.pos [Fin.ofNat count] (idsBytes ids ++ rest) hd
    have := actionIdLoop_ok ids ⟨s.data, s.pos + 1, false⟩ [] rest hids rfl hd'
    rw [hlen] at this
    simp [this]
  · simp only [hv, if_false] at hcount ⊢
    simp only [actionCountBytes, hv, if_false, List.append_assoc] at hd
    have hr : ReadContent s (zeros 4) = (true, u32Bytes count, ⟨s.data, s.pos + 4, false⟩) :=
      ReadContent_ok s (zeros 4) (u32Bytes count) (idsBytes ids ++ rest) hf hd
        (by simp [zeros, length_u32Bytes])
    simp only [hr, leNat_u32Bytes count hcount]
    have hd' : s.data.drop (s.pos + 4) = idsBytes ids ++ rest := drop_advance hd
    have := actionIdLoop_ok ids ⟨s.data, s.pos + 4, false⟩ [] rest hids rfl hd'
    rw [hlen] at this
    simp [this]

theorem seekgCur_nat (s : IStream) (n : Nat) (hf : s.fail = false) :
    seekgCur s (n : Int) = ⟨s.data, s.pos + n, false⟩ := by
  unfold seekgCur
  have h : (0 : Int) ≤ (s.pos : Int) + (n : Int) := by omega
  have h2 : ((s.pos : Int) + (n : Int)).toNat = s.pos + n := by omega
  simp [hf, h, h2]

theorem readEventAction_ok (size : Nat) (s : IStream) (scope actionType reserved : Byte)
    (gameObjectId : Nat) (types params rest : List Byte)
    (hf : s.fail = false) (hg : gameObjectId < 4294967296) (hpc : types.length < 256)
    (hpar : params.length = types.length)
    (hd : s.data.drop s.pos
        = eventActionBytes scope actionType gameObjectId reserved types params ++ rest) :
    readEventAction size s
      = ({ scope := int8 scope.val, action_type := int8 actionType.val,
           game_object_id := gameObjectId, parameter_count := types.length,
           parameters_types := types.map (fun b => int8 b.val),
           parameters := params.map (fun b => int8 b.val) },
         ⟨s.data, s.pos + 9 + 2 * types.length + residualSkip size types.length, false⟩) := by
  have hd1 : s.data.drop s.pos = [scope] ++ ([actionType] ++ (u32Bytes gameObjectId
      ++ ([reserved] ++ ([Fin.ofNat types.length] ++ (types ++ (params ++ rest)))))) := by
    simpa [eventActionBytes] using hd
  have r1 : ReadContent s (zeros 1) = (true, [scope], ⟨s.data, s.pos + 1, false⟩) :=
    ReadContent_ok s (zeros 1) [scope] _ hf hd1 (by simp [zeros])
  have hd2 := drop_advance hd1
  have r2 : ReadContent ⟨s.data, s.pos + 1, false⟩ (zeros 1)
      = (true, [actionType], ⟨s.data, s.pos + 1 + 1, false⟩) :=
    ReadContent_ok ⟨s.data, s.pos + 1, false⟩ (zeros 1) [actionType] _ rfl hd2 (by simp [zeros])
  have hd3 : s.data.drop (s.pos + 1 + 1) = _ := drop_advance hd2
  have r3 : ReadContent ⟨s.data, s.pos + 1 + 1, false⟩ (zeros 4)
      = (true, u32Bytes gameObjectId, ⟨s.data, s.pos + 1 + 1 + 4, false⟩) :=
    ReadContent_ok ⟨s.data, s.pos + 1 + 1, false⟩ (zeros 4) (u32Bytes gameObjectId) _ rfl hd3
      (by simp [zeros, length_u32Bytes])
  have hd4 : s.data.drop (s.pos + 1 + 1 + 4) = _ := drop_advance hd3
  have s4 : seekgCur ⟨s.data, s.pos + 1 + 1 + 4, false⟩ 1 = ⟨s.data, s.pos + 1 + 1 + 4 + 1, false⟩ :=
    seekgCur_nat ⟨s.data, s.pos + 1 + 1 + 4, false⟩ 1 rfl
  have hd5 : s.data.drop (s.pos + 1 + 1 + 4 + 1) = _ := drop_advance hd4
  have r5 : ReadContent ⟨s.data, s.pos + 1 + 1 + 4 + 1, false⟩ (zeros 1)
      = (true, [Fin.ofNat types.length], ⟨s.data, s.pos + 1 + 1 + 4 + 1 + 1, false⟩) :=
    ReadContent_ok ⟨s.data, s.pos + 1 + 1 + 4 + 1, false⟩ (zeros 1) [Fin.ofNat types.length] _ rfl
      hd5 (by simp [zeros])
  have hd6 : s.data.drop (s.pos + 1 + 1 + 4 + 1 + 1) = _ := drop_advance hd5
  have hval : leNat [(Fin.ofNat types.length : Byte)] = types.length := by
    simp only [leNat, Fin.ofNat, Fin.val_mk]; omega
  have r6 := int8Loop_ok types ⟨s.data, s.pos + 1 + 1 + 4 + 1 + 1, false⟩ [] _ rfl hd6
  have hd7 : s.data.drop (s.pos + 1 + 1 + 4 + 1 + 1 + types.length) = _ := drop_advance hd6
  have r7 := int8Loop_ok params ⟨s.data, s.pos + 1 + 1 + 4 + 1 + 1 + types.length, false⟩ [] _
    rfl hd7
  rw [hpar] at r7
  have s8 : seekgCur ⟨s.data, s.pos + 1 + 1 + 4 + 1 + 1 + types.length + types.length, false⟩ 1
      = ⟨s.data, s.pos + 1 + 1 + 4 + 1 + 1 + types.length + types.length + 1, false⟩ :=
    seekgCur_nat ⟨s.data, s.pos + 1 + 1 + 4 + 1 + 1 + types.length + types.length, false⟩ 1 rfl
  have s9 := seekgCur_nat
    ⟨s.data, s.pos + 1 + 1 + 4 + 1 + 1 + types.length + types.length + 1, false⟩
    (residualSkip size types.length) rfl
  unfold readEventAction
  simp only [r1, r2, r3, s4, r5, hval, r6, r7, s8, s9, leNat_single, leNat_u32Bytes _ hg,
    List.nil_append]
  simp only [Prod.mk.injEq, IStream.mk.injEq, and_true, true_and]
  omega

/-! ## Lengths of the decoded sequences -/

theorem ModelInv_congr {lv lv' : Locals} (h1 : lv'.event_objects = lv.event_objects)
    (h2 : lv'.event_action_objects = lv.event_action_objects) (h : ModelInv lv) : ModelInv lv' := by
  unfold ModelInv at h ⊢
  rw [h1, h2]; exact h

theorem actionIdLoop_length : ∀ (n : Nat) (s : IStream) (ids : List Nat),
    (actionIdLoop n s ids).2.length = ids.length + n := by
  intro n
  induction n with
  | zero => intro s ids; rfl
  | succ n ih =>
    intro s ids
    simp only [actionIdLoop, ih, List.length_append, List.length_singleton]
    omega

theorem int8Loop_length : ∀ (n : Nat) (s : IStream) (xs : List Int),
    (int8Loop n s xs).2.length = xs.length + n := by
  intro n
  induction n with
  | zero => intro s xs; rfl
  | succ n ih =>
    intro s xs
    simp only [int8Loop, ih, List.length_append, List.length_singleton]
    omega

theorem readEvent_length (version : Nat) (s : IStream) :
    (readEvent version s).1.action_ids.length = (readEvent version s).1.action_count := by
  simp [readEvent, actionIdLoop_length]

theorem readEventAction_length (size : Nat) (s : IStream) :
    (readEventAction size s).1.parameters_types.length = (readEventAction size s).1.parameter_count
    ∧ (readEventAction size s).1.parameters.length = (readEventAction size s).1.parameter_count := by
  simp [readEventAction, int8Loop_length]

theorem mapAssign_forall {α : Type} (P : α → Prop) : ∀ (m : List (Nat × α)) (k : Nat) (v : α),
    (∀ kv ∈ m, P kv.2) → P v → ∀ kv ∈ mapAssign m k v, P kv.2 := by
  intro m
  induction m with
  | nil =>
    intro k v _ hv kv hkv
    simp only [mapAssign, List.mem_singleton] at hkv
    subst hkv; exact hv
  | cons e rest ih =>
    intro k v hm hv kv hkv
    obtain ⟨k', v'⟩ := e
    simp only [mapAssign] at hkv
    split at hkv
    · rcases List.mem_cons.mp hkv with h | h
      · subst h; exact hv
      · exact hm kv (List.mem_cons_of_mem _ h)
    · rcases List.mem_cons.mp hkv with h | h
      · subst h; exact hm (k', v') (List.mem_cons_self _ _)
      · exact ih k v (fun x hx => hm x (List.mem_cons_of_mem _ hx)) hv kv h

theorem hircObject_inv (pad : Nat) (lv : Locals) (s : IStream) (h : ModelInv lv) :
    ModelInv (hircObject pad lv s).1 := by
  unfold hircObject
  dsimp only
  split
  · exact ⟨mapAssign_forall (fun e : EventObject => e.action_ids.length = e.action_count) _ _ _
      h.1 (readEvent_length _ _), h.2⟩
  · split
    · exact ⟨h.1, mapAssign_forall
        (fun e : EventActionObject => e.parameters_types.length = e.parameter_count
          ∧ e.parameters.length = e.parameter_count) _ _ _ h.2 (readEventAction_length _ _)⟩
    · exact h

theorem hircLoop_inv (pad : Nat) : ∀ (n : Nat) (lv : Locals) (s : IStream),
    ModelInv lv → ModelInv (hircLoop pad n lv s).1 := by
  intro n
  induction n with
  | zero => intro lv s h; exact h
  | succ n ih =>
    intro lv s h
    simp only [hircLoop]
    exact ih _ _ (hircObject_inv pad lv s h)

theorem chunkBody_inv (pad : Nat) (swap : Bool) (lv : Locals) (s : IStream)
    (r : Locals × IStream) (h : ModelInv lv) (hr : chunkBody pad swap lv s = some r) :
    ModelInv r.1 := by
  unfold chunkBody at hr
  simp only [Option.map_eq_some'] at hr
  obtain ⟨r', hr', rfl⟩ := hr
  dsimp only
  split at hr'
  · cases hr'; exact h
  · split at hr'
    · simp only [Option.map_eq_some'] at hr'
      obtain ⟨d, _, rfl⟩ := hr'
      exact h
    · split at hr'
      · cases hr'; exact h
      · split at hr'
        · cases hr'; exact h
        · split at hr'
          · cases hr'
            exact hircLoop_inv pad _ _ _ h
          · cases hr'; exact h

theorem chunkLoop_inv (pad : Nat) (swap : Bool) : ∀ (fuel : Nat) (lv : Locals) (s : IStream)
    (r : Locals × IStream), ModelInv lv → chunkLoop pad swap fuel lv s = some r → ModelInv r.1 := by
  intro fuel
  induction fuel with
  | zero => intro lv s r _ hr; simp [chunkLoop] at hr
  | succ n ih =>
    intro lv s r h hr
    unfold chunkLoop at hr
    dsimp only at hr
    split at hr
    · split at hr
      · cases hr
      · rename_i r' hb
        have h' : ModelInv { lv with
            content_section := Section.ofMem (ReadContent s lv.content_section.toMem).2.1 } :=
          ModelInv_congr rfl rfl h
        exact ih _ _ r (chunkBody_inv pad swap _ _ r' h' hb) hr
    · cases hr; exact ModelInv_congr rfl rfl h

/-! ## What the hierarchy decoder leaves alone -/

theorem hircObject_frame (pad : Nat) (lv : Locals) (s : IStream) :
    (hircObject pad lv s).1.data_offset = lv.data_offset
    ∧ (hircObject pad lv s).1.dispatched = lv.dispatched
    ∧ (hircObject pad lv s).1.files = lv.files
    ∧ (hircObject pad lv s).1.bank_header = lv.bank_header
    ∧ (hircObject pad lv s).2.data = s.data := by
  have hsk : ∀ (t : IStream) (off : Int), (seekgCur t off).data = t.data := by
    intro t off; unfold seekgCur; split
    · rfl
    · split <;> rfl
  have hi8 : ∀ (n : Nat) (t : IStream) (xs : List Int), (int8Loop n t xs).1.data = t.data := by
    intro n
    induction n with
    | zero => intro t xs; rfl
    | succ n ih => intro t xs; simp only [int8Loop, ih, ReadContent_data]
  have hid : ∀ (n : Nat) (t : IStream) (xs : List Nat), (actionIdLoop n t xs).1.data = t.data := by
    intro n
    induction n with
    | zero => intro t xs; rfl
    | succ n ih => intro t xs; simp only [actionIdLoop, ih, ReadContent_data]
  have hev : ∀ (v : Nat) (t : IStream), (readEvent v t).2.data = t.data := by
    intro v t
    unfold readEvent
    dsimp only
    split <;> simp only [hid, ReadContent_data]
  have hea : ∀ (n : Nat) (t : IStream), (readEventAction n t).2.data = t.data := by
    intro n t
    simp only [readEventAction, hsk, hi8, ReadContent_data]
  unfold hircObject
  dsimp only
  split
  · simp only [hsk, hev, ReadContent_data, and_self]
  · split
    · simp only [hsk, hea, ReadContent_data, and_self]
    · simp only [hsk, ReadContent_data, and_self]

theorem hircLoop_frame (pad : Nat) : ∀ (n : Nat) (lv : Locals) (s : IStream),
    (hircLoop pad n lv s).1.data_offset = lv.data_offset
    ∧ (hircLoop pad n lv s).1.dispatched = lv.dispatched
    ∧ (hircLoop pad n lv s).1.files = lv.files
    ∧ (hircLoop pad n lv s).1.bank_header = lv.bank_header
    ∧ (hircLoop pad n lv s).2.data = s.data := by
  intro n
  induction n with
  | zero => intro lv s; exact ⟨rfl, rfl, rfl, rfl, rfl⟩
  | succ n ih =>
    intro lv s
    obtain ⟨a1, a2, a3, a4, a5⟩ := hircObject_frame pad lv s
    obtain ⟨b1, b2, b3, b4, b5⟩ := ih (hircObject pad lv s).1 (hircObject pad lv s).2
    simp only [hircLoop]
    exact ⟨b1.trans a1, b2.trans a2, b3.trans a3, b4.trans a4, b5.trans a5⟩

theorem chunkBody_dataSeen (pad : Nat) (swap : Bool) (lv : Locals) (s : IStream)
    (r : Locals × IStream) (h : DataSeen lv) (hr : chunkBody pad swap lv s = some r) :
    DataSeen r.1 := by
  have hold : ∀ (lv' : Locals) (x : Nat × Section), lv'.data_offset = lv.data_offset →
      lv'.dispatched = lv.dispatched ++ [x] → DataSeen lv' := by
    intro lv' x h1 h2 hne
    rw [h1] at hne
    obtain ⟨d, hd, hc⟩ := h hne
    exact ⟨d, by rw [h2]; exact List.mem_append_left _ hd, hc⟩
  unfold chunkBody at hr
  simp only [Option.map_eq_some'] at hr
  obtain ⟨r', hr', rfl⟩ := hr
  dsimp only
  split at hr'
  · cases hr'; exact hold _ _ rfl rfl
  · split at hr'
    · simp only [Option.map_eq_some'] at hr'
      obtain ⟨d, _, rfl⟩ := hr'
      exact hold _ _ rfl rfl
    · split at hr'
      · cases hr'; exact hold _ _ rfl rfl
      · split at hr'
        · rename_i hdata
          cases hr'
          intro _
          exact ⟨_, List.mem_append_right _ (List.mem_singleton_self _), hdata⟩
        · split at hr'
          · cases hr'
            obtain ⟨a1, a2, _, _, _⟩ := hircLoop_frame pad
              (leNat (ReadContent s (zeros 4)).2.1)
              { lv with
                content_section := ⟨lv.content_section.sign,
                  if swap then toU32 (Swap32 lv.content_section.size) else lv.content_section.size⟩,
                dispatched := lv.dispatched ++ [(tellg s, ⟨lv.content_section.sign,
                  if swap then toU32 (Swap32 lv.content_section.size)
                  else lv.content_section.size⟩)] }
              (ReadContent s (zeros 4)).2.2
            exact hold _ _ a1 a2
          · cases hr'; exact hold _ _ rfl rfl

theorem chunkLoop_dataSeen (pad : Nat) (swap : Bool) : ∀ (fuel : Nat) (lv : Locals) (s : IStream)
    (r : Locals × IStream), DataSeen lv → chunkLoop pad swap fuel lv s = some r → DataSeen r.1 := by
  intro fuel
  induction fuel with
  | zero => intro lv s r _ hr; simp [chunkLoop] at hr
  | succ n ih =>
    intro lv s r h hr
    unfold chunkLoop at hr
    dsimp only at hr
    split at hr
    · split at hr
      · cases hr
      · rename_i r' hb
        have h' : DataSeen { lv with
            content_section := Section.ofMem (ReadContent s lv.content_section.toMem).2.1 } := h
        exact ih _ _ r (chunkBody_dataSeen pad swap _ _ r' h' hb) hr
    · cases hr; exact h

/-! ## The `DIDX` loop ends when the declared length is at most `2^32 - 4` -/

theorem didxLoop_some : ∀ (fuel i size : Nat) (s : IStream) (ci : Index) (files : List Index),
    size ≤ 4294967292 → i % 12 = 0 → (size - i + 11) / 12 < fuel →
    ∃ r, didxLoop fuel i size s ci files = some r
      ∧ r.2.2.length = files.length + (size - i + 11) / 12 ∧ r.1.data = s.data := by
  intro fuel
  induction fuel with
  | zero => intro i size s ci files _ _ h; omega
  | succ n ih =>
    intro i size s ci files hs hi hf
    unfold didxLoop
    by_cases hlt : i < size
    · simp only [hlt, if_true]
      have hw : (i + 12) % 4294967296 = i + 12 := by omega
      rw [hw]
      obtain ⟨r, hr, hlen, hdata⟩ := ih (i + 12) size (ReadContent s ci.toMem).2.2
        (Index.ofMem (ReadContent s ci.toMem).2.1)
        (files ++ [Index.ofMem (ReadContent s ci.toMem).2.1]) hs (by omega) (by omega)
      refine ⟨r, hr, ?_, ?_⟩
      · rw [hlen]; simp only [List.length_append, List.length_singleton]; omega
      · rw [hdata, ReadContent_data]
    · simp only [hlt, if_false]
      refine ⟨_, rfl, ?_, rfl⟩
      have : (size - i + 11) / 12 = 0 := by omega
      simp [this]

theorem length_indexBytes (es : List Index) : (indexBytes es).length = 12 * es.length := by
  induction es with
  | nil => rfl
  | cons e es ih => simp [indexBytes, length_Index_toMem, ih]; omega

theorem Index_ofMem_toMem (e : Index) (h : e.fits) : Index.ofMem e.toMem = e := by
  obtain ⟨h1, h2, h3⟩ := h
  have e1 : field e.toMem 0 4 = leNat (u32Bytes e.id) := rfl
  have e2 : field e.toMem 4 4 = leNat (u32Bytes e.offset) := rfl
  have e3 : field e.toMem 8 4 = leNat (u32Bytes e.size) := rfl
  simp only [Index.ofMem, e1, e2, e3, leNat_u32Bytes _ h1, leNat_u32Bytes _ h2,
    leNat_u32Bytes _ h3]

theorem didxLoop_entries : ∀ (entries : List Index) (fuel i size : Nat) (s : IStream)
    (ci : Index) (files : List Index) (rest : List Byte),
    size ≤ 4294967292 → i % 12 = 0 → (size - i + 11) / 12 = entries.length →
    entries.length < fuel → (∀ e ∈ entries, e.fits) → s.fail = false →
    s.data.drop s.pos = indexBytes entries ++ rest →
    ∃ ci', didxLoop fuel i size s ci files
      = some (⟨s.data, s.pos + 12 * entries.length, false⟩, ci', files ++ entries) := by
  intro entries
  induction entries with
  | nil =>
    intro fuel i size s ci files rest _ _ hn hfuel _ hf _
    obtain ⟨n, rfl⟩ : ∃ n, fuel = n + 1 := ⟨fuel - 1, by simp at hfuel; omega⟩
    have hge : ¬ i < size := by simp at hn; omega
    refine ⟨ci, ?_⟩
    cases s
    simp_all [didxLoop]
  | cons e es ih =>
    intro fuel i size s ci files rest hs hi hn hfuel hfit hf hd
    obtain ⟨n, rfl⟩ : ∃ n, fuel = n + 1 := ⟨fuel - 1, by simp at hfuel; omega⟩
    have hlt : i < size := by simp at hn; omega
    have hw : (i + 12) % 4294967296 = i + 12 := by omega
    have hd1 : s.data.drop s.pos = e.toMem ++ (indexBytes es ++ rest) := by
      simpa [indexBytes] using hd
    have hr : ReadContent s ci.toMem = (true, e.toMem, ⟨s.data, s.pos + 12, false⟩) := by
      have := ReadContent_ok s ci.toMem e.toMem _ hf hd1
        (by rw [length_Index_toMem, length_Index_toMem])
      rwa [length_Index_toMem] at this
    have hd' : s.data.drop (s.pos + 12) = indexBytes es ++ rest := by
      have := drop_advance hd1
      rwa [length_Index_toMem] at this
    unfold didxLoop
    simp only [hlt, if_true, hr, hw, Index_ofMem_toMem e (hfit e (List.mem_cons_self _ _))]
    obtain ⟨ci', h⟩ := ih n (i + 12) size ⟨s.data, s.pos + 12, false⟩ e (files ++ [e]) rest hs
      (by omega) (by simp at hn; omega) (by simp at hfuel; omega)
      (fun x hx => hfit x (List.mem_cons_of_mem _ hx)) rfl hd'
    refine ⟨ci', ?_⟩
    rw [h]
    simp only [List.length_cons, List.append_assoc, List.singleton_append, Option.some.injEq,
      Prod.mk.injEq, IStream.mk.injEq, and_true, true_and]
    omega

/-! ## The fuel of the two fuelled loops is enough

A run of the `DIDX` loop that ends does so within `didxFuel` tests, and a run that does
not end within `didxFuel` tests never ends; the chunk loop on a file of `n` bytes ends
within `n + 1` header reads unless a `DIDX` loop inside it does not end.  So the results
of `didxLoop didxFuel` and of `chunkLoop (bnk.length + 1)` do not depend on the fuel. -/

theorem didxLoop_mono : ∀ (fuel k i size : Nat) (s : IStream) (ci : Index) (files : List Index)
    (r : IStream × Index × List Index), didxLoop fuel i size s ci files = some r →
    didxLoop (fuel + k) i size s ci files = some r := by
  intro fuel
  induction fuel with
  | zero => intro k i size s ci files r h; simp [didxLoop] at h
  | succ n ih =>
    intro k i size s ci files r h
    have e : n + 1 + k = (n + k) + 1 := by omega
    rw [e]
    unfold didxLoop at h ⊢
    split
    · rename_i hlt
      simp only [hlt, if_true] at h
      exact ih k _ _ _ _ _ r h
    · rename_i hlt
      simp only [hlt, if_false] at h
      exact h

theorem didxLoop_never (size : Nat) (hs : 4294967292 < size) : ∀ (fuel i : Nat) (s : IStream)
    (ci : Index) (files : List Index), i % 4 = 0 → i < 4294967296 →
    didxLoop fuel i size s ci files = none := by
  intro fuel
  induction fuel with
  | zero => intro i s ci files _ _; rfl
  | succ n ih =>
    intro i s ci files h4 hlt
    unfold didxLoop
    have : i < size := by omega
    simp only [this, if_true]
    exact ih _ _ _ _ (by omega) (Nat.mod_lt _ (by decide))

theorem didxLoop_fuel_enough (k size : Nat) (s : IStream) (ci : Index) (files : List Index) :
    didxLoop (didxFuel + k) 0 size s ci files = didxLoop didxFuel 0 size s ci files := by
  by_cases hs : size ≤ 4294967292
  · obtain ⟨r, hr, _, _⟩ := didxLoop_some didxFuel 0 size s ci files hs (by decide)
      (by unfold didxFuel; omega)
    rw [hr, didxLoop_mono didxFuel k 0 size s ci files r hr]
  · rw [didxLoop_never size (by omega) _ 0 s ci files (by decide) (by decide),
      didxLoop_never size (by omega) _ 0 s ci files (by decide) (by decide)]

theorem didxLoop_data : ∀ (fuel i size : Nat) (s : IStream) (ci : Index) (files : List Index)
    (r : IStream × Index × List Index), didxLoop fuel i size s ci files = some r →
    r.1.data = s.data ∧ (s.fail = true → r.1.fail = true) ∧ s.pos ≤ r.1.pos := by
  intro fuel
  induction fuel with
  | zero => intro i size s ci files r h; simp [didxLoop] at h
  | succ n ih =>
    intro i size s ci files r h
    unfold didxLoop at h
    split at h
    · obtain ⟨h1, h2, h3⟩ := ih _ _ _ _ _ r h
      refine ⟨h1.trans (ReadContent_data _ _), ?_, ?_⟩
      · intro hf
        apply h2
        simp [ReadContent, hf]
      · refine Nat.le_trans ?_ h3
        unfold ReadContent
        split
        · exact Nat.le_refl _
        · dsimp only; split <;> simp
    · cases h; exact ⟨rfl, fun h => h, Nat.le_refl _⟩

theorem chunkBody_data (pad : Nat) (swap : Bool) (lv : Locals) (s : IStream)
    (r : Locals × IStream) (hr : chunkBody pad swap lv s = some r) :
    r.2.data = s.data ∧ (r.2.fail = true ∨ tellg s ≤ r.2.pos) := by
  have hsk : ∀ (t : IStream) (off : Int), (seekgCur t off).data = t.data := by
    intro t off; unfold seekgCur; split
    · rfl
    · split <;> rfl
  have habs : ∀ (t : IStream) (p : Nat), tellg s ≤ p →
      ((seekgAbs t p).fail = true ∨ tellg s ≤ (seekgAbs t p).pos) := by
    intro t p hp
    unfold seekgAbs
    cases hf : t.fail
    · right; simpa using hp
    · left; simpa using hf
  unfold chunkBody at hr
  simp only [Option.map_eq_some'] at hr
  obtain ⟨r', hr', rfl⟩ := hr
  refine ⟨?_, habs _ _ (Nat.le_add_right _ _)⟩
  rw [seekgAbs_data]
  split at hr'
  · cases hr'; simp only [hsk, ReadContent_data]
  · split at hr'
    · simp only [Option.map_eq_some'] at hr'
      obtain ⟨d, hd, rfl⟩ := hr'
      exact (didxLoop_data _ _ _ _ _ _ d hd).1
    · split at hr'
      · cases hr'; rfl
      · split at hr'
        · cases hr'; rfl
        · split at hr'
          · cases hr'
            simp only [decodeHIRC, (hircLoop_frame pad _ _ _).2.2.2.2, ReadContent_data]
          · cases hr'; rfl

theorem ReadContent_false_of_short (s : IStream) (mem : List Byte) (hm : 0 < mem.length)
    (h : s.fail = true ∨ s.data.length < s.pos + mem.length) : (ReadContent s mem).1 = false := by
  unfold ReadContent
  by_cases hf : s.fail = true
  · simp [hf]
  · have hl : ¬ mem.length ≤ s.data.length - s.pos := by
      rcases h with h | h
      · exact absurd h hf
      · omega
    simp [hf, hl]

theorem ReadContent_length_of_true (s : IStream) (mem : List Byte) (hm : 0 < mem.length)
    (h : (ReadContent s mem).1 = true) : s.pos + mem.length ≤ s.data.length := by
  by_contra hc
  rw [ReadContent_false_of_short s mem hm (Or.inr (by omega))] at h
  cases h

theorem chunkLoop_fuel_aux (pad : Nat) (swap : Bool) : ∀ (fuel k : Nat) (lv : Locals)
    (s : IStream), (s.fail = true ∨ s.data.length < s.pos + 8 * (fuel + 1)) →
    chunkLoop pad swap (fuel + 1 + k) lv s = chunkLoop pad swap (fuel + 1) lv s := by
  intro fuel
  induction fuel with
  | zero =>
    intro k lv s h
    have hr := ReadContent_false_of_short s lv.content_section.toMem
      (by rw [length_Section_toMem]; decide) (by rw [length_Section_toMem]; simpa using h)
    have e : 0 + 1 + k = k + 1 := by omega
    rw [e]
    conv_lhs => unfold chunkLoop
    conv_rhs => unfold chunkLoop
    simp only [hr, Bool.false_eq_true, if_false]
  | succ n ih =>
    intro k lv s h
    have e : n + 1 + 1 + k = (n + 1 + k) + 1 := by omega
    rw [e]
    conv_lhs => unfold chunkLoop
    conv_rhs => unfold chunkLoop
    dsimp only
    cases hrd : (ReadContent s lv.content_section.toMem).1
    · simp only [Bool.false_eq_true, if_false]
    · simp only [if_true]
      cases hb : chunkBody pad swap
          { lv with content_section := Section.ofMem (ReadContent s lv.content_section.toMem).2.1 }
          (ReadContent s lv.content_section.toMem).2.2 with
      | none => rfl
      | some r =>
        dsimp only
        obtain ⟨hpos, hfl, hsf⟩ := ReadContent_pos_of_true s _ hrd
        have hlen := ReadContent_length_of_true s _ (by rw [length_Section_toMem]; decide) hrd
        rw [length_Section_toMem] at hpos hlen
        obtain ⟨hdata, hprog⟩ := chunkBody_data pad swap _ _ r hb
        rw [ReadContent_data] at hdata
        apply ih
        rcases hprog with hp | hp
        · left; exact hp
        · right
          have ht : tellg (ReadContent s lv.content_section.toMem).2.2 = s.pos + 8 := by
            simp [tellg, hfl, hpos]
          rw [ht] at hp
          rw [hdata]
          rcases h with h | h
          · rw [hsf] at h; cases h
          · omega

/-- The decode pass does not depend on the fuel of the chunk loop: any larger amount
gives the same result as the `bnk.length + 1` units that `decodePass` uses. -/
theorem decodePass_fuel_enough (pad : Nat) (swap : Bool) (bnk : List Byte) (k : Nat) :
    chunkLoop pad swap (bnk.length + 1 + k) Locals.init ⟨bnk, 0, false⟩
      = chunkLoop pad swap (bnk.length + 1) Locals.init ⟨bnk, 0, false⟩ := by
  apply chunkLoop_fuel_aux
  right
  simp only
  omega

/-! ## The claims about single steps of the decoder -/

/-- C1: in an iteration of the chunk loop whose header read succeeds, `section_pos` is
the offset just after the 8 header bytes; the body returns (for every signature, a
`DIDX` chunk needing an effective length of at most `2^32 - 4`); and when the body
ends with the stream not failed, the next iteration of the loop, which starts by
reading a header, runs at offset `section_pos + L`, where `L` is the size field,
byte-reversed when the switch is on. -/
theorem C1_dispatcher_repositions (pad : Nat) (swap : Bool) (fuel : Nat) (lv : Locals) (s : IStream)
    (hread : (ReadContent s lv.content_section.toMem).1 = true) :
    tellg (ReadContent s lv.content_section.toMem).2.2 = s.pos + 8
    ∧ ((Compare (Section.ofMem (ReadContent s lv.content_section.toMem).2.1).sign sigDIDX = false
          ∨ effectiveLength swap (Section.ofMem (ReadContent s lv.content_section.toMem).2.1).size
              ≤ 4294967292) →
        ∃ r, chunkBody pad swap
          { lv with content_section := Section.ofMem (ReadContent s lv.content_section.toMem).2.1 }
          (ReadContent s lv.content_section.toMem).2.2 = some r)
    ∧ ∀ r, chunkBody pad swap
          { lv with content_section := Section.ofMem (ReadContent s lv.content_section.toMem).2.1 }
          (ReadContent s lv.content_section.toMem).2.2 = some r →
        r.2.fail = false →
        r.2.pos = s.pos + 8
            + effectiveLength swap (Section.ofMem (ReadContent s lv.content_section.toMem).2.1).size
          ∧ chunkLoop pad swap (fuel + 1) lv s = chunkLoop pad swap fuel r.1 r.2 := by
  obtain ⟨hpos, hfail, _⟩ := ReadContent_pos_of_true s _ hread
  rw [length_Section_toMem] at hpos
  have htell : tellg (ReadContent s lv.content_section.toMem).2.2 = s.pos + 8 := by
    simp [tellg, hfail, hpos]
  have hL : (if swap then toU32 (Swap32 (Section.ofMem (ReadContent s lv.content_section.toMem).2.1).size)
      else (Section.ofMem (ReadContent s lv.content_section.toMem).2.1).size)
      = effectiveLength swap (Section.ofMem (ReadContent s lv.content_section.toMem).2.1).size := by
    unfold effectiveLength; split
    · rw [toU32_Swap32]
    · rfl
  refine ⟨htell, ?_, ?_⟩
  · intro hcond
    unfold chunkBody
    simp only [hL]
    by_cases h1 : Compare (Section.ofMem (ReadContent s lv.content_section.toMem).2.1).sign sigBKHD = true
    · simp [h1]
    · by_cases h2 : Compare (Section.ofMem (ReadContent s lv.content_section.toMem).2.1).sign sigDIDX = true
      · have hle : effectiveLength swap (Section.ofMem (ReadContent s lv.content_section.toMem).2.1).size
            ≤ 4294967292 := by
          rcases hcond with h | h
          · rw [h2] at h; cases h
          · exact h
        obtain ⟨r, hr, _, _⟩ := didxLoop_some didxFuel 0 _ (ReadContent s lv.content_section.toMem).2.2
          lv.content_index lv.files hle (by decide) (by unfold didxFuel; omega)
        simp [h1, h2, hr]
      · by_cases h3 : Compare (Section.ofMem (ReadContent s lv.content_section.toMem).2.1).sign sigSTID = true
        · simp [h1, h2, h3]
        · by_cases h4 : Compare (Section.ofMem (ReadContent s lv.content_section.toMem).2.1).sign sigDATA = true
          · simp [h1, h2, h3, h4]
          · by_cases h5 : Compare (Section.ofMem (ReadContent s lv.content_section.toMem).2.1).sign sigHIRC = true
            · simp [h1, h2, h3, h4, h5]
            · simp [h1, h2, h3, h4, h5]
  · intro r hr hok
    constructor
    · unfold chunkBody at hr
      simp only [hL, htell, Option.map_eq_some'] at hr
      obtain ⟨r', _, hr'⟩ := hr
      subst hr'
      simp only [seekgAbs_fail] at hok
      simp only [seekgAbs_pos _ _ hok]
    · conv_lhs => unfold chunkLoop
      simp only [hread, if_true, hr]

/-- C1 on `c1File`: the `HIRC` decoder consumes 4 of the 6 declared bytes and the next
header is read at offset `8 + 6`. -/
theorem C1_dispatcher_repositions_witness :
    (ReadContent ⟨c1File, 0, false⟩ Locals.init.content_section.toMem).1 = true
    ∧ ∃ r, chunkBody naturalPad false
          { Locals.init with
            content_section :=
              Section.ofMem (ReadContent ⟨c1File, 0, false⟩ Locals.init.content_section.toMem).2.1 }
          (ReadContent ⟨c1File, 0, false⟩ Locals.init.content_section.toMem).2.2 = some r
        ∧ r.2.fail = false ∧ r.2.pos = 0 + 8 + 6 :=
  ⟨by decide, _, rfl, by decide,
    ((C1_dispatcher_repositions naturalPad false 3 Locals.init ⟨c1File, 0, false⟩ (by decide)).2.2 _
      rfl (by decide)).1⟩

/-- C3 (defect): on `c3File` the first object header is read at offset 12, so its size
field ends at offset 20 and its declared size 8 puts the next header at offset 28; the
object iteration leaves the stream at offset 32, and the second object is decoded from
the wrong bytes.  The same happens with a packed header on `c3FilePacked`: the size
field ends at offset 17, the next header is due at offset 25, the stream is left at
offset 29. -/
theorem C3_event_record_overskipped :
    (hircObject naturalPad Locals.init ⟨c3File, 12, false⟩).2 = ⟨c3File, 32, false⟩
    ∧ (hircObject naturalPad Locals.init ⟨c3File, 12, false⟩).1.objects = [⟨4, 8, 1⟩]
    ∧ (12 + (1 + naturalPad + 4)) + 8 = 28
    ∧ (decodePass naturalPad false c3File).map (fun r => r.1.objects)
        = some [⟨4, 8, 1⟩, ⟨4, 2, 0⟩]
    ∧ (hircObject 0 Locals.init ⟨c3FilePacked, 12, false⟩).2 = ⟨c3FilePacked, 29, false⟩
    ∧ (hircObject 0 Locals.init ⟨c3FilePacked, 12, false⟩).1.objects = [⟨4, 8, 1⟩]
    ∧ (12 + (1 + 0 + 4)) + 8 = 25
    ∧ (decodePass 0 false c3FilePacked).map (fun r => r.1.objects)
        = some [⟨4, 8, 1⟩, ⟨0, 2, 0⟩] := by
  decide

/-- C4: when an object header of type `Event` is followed by an action-count field and
then by the little-endian ids `ids`, the `Event` branch, entered just after the header
with the version of the bank header, reads the count from 1 byte if that version is at
least 134 and from 4 bytes otherwise, takes as action ids exactly the `count` values
that follow the field, and the object iteration stores that event under the object id. -/
theorem C4_event_action_count_width (lv : Locals) (s : IStream) (padBytes : List Byte)
    (size id count : Nat) (ids : List Nat) (rest : List Byte)
    (hf : s.fail = false) (hsize : size < 4294967296) (hid : id < 4294967296)
    (hcount : count < (if lv.bank_header.version ≥ 134 then 256 else 4294967296))
    (hlen : ids.length = count) (hids : ∀ x ∈ ids, x < 4294967296)
    (hd : s.data.drop s.pos = objectBytes 4 padBytes size id
            ++ (actionCountBytes lv.bank_header.version count ++ idsBytes ids ++ rest)) :
    (ReadContent s (zeros (sizeofObject padBytes.length))).2.2
        = ⟨s.data, s.pos + sizeofObject padBytes.length, false⟩
    ∧ readEvent lv.bank_header.version ⟨s.data, s.pos + sizeofObject padBytes.length, false⟩
        = (⟨count, ids⟩,
           ⟨s.data, s.pos + sizeofObject padBytes.length
              + (if lv.bank_header.version ≥ 134 then 1 else 4) + 4 * count, false⟩)
    ∧ (hircObject padBytes.length lv s).1.event_objects
        = mapAssign lv.event_objects id ⟨count, ids⟩ := by
  have hr : ReadContent s (zeros (sizeofObject padBytes.length))
      = (true, objectBytes 4 padBytes size id,
         ⟨s.data, s.pos + sizeofObject padBytes.length, false⟩) := by
    have := ReadContent_ok s (zeros (sizeofObject padBytes.length)) _ _ hf hd
      (by rw [length_zeros, length_objectBytes])
    rwa [length_objectBytes] at this
  have hd' : s.data.drop (s.pos + sizeofObject padBytes.length)
      = actionCountBytes lv.bank_header.version count ++ idsBytes ids ++ rest := by
    have := drop_advance hd
    rwa [length_objectBytes] at this
  have he := readEvent_ok lv.bank_header.version count ids
    ⟨s.data, s.pos + sizeofObject padBytes.length, false⟩ rest rfl hcount hlen hids hd'
  refine ⟨by rw [hr], he, ?_⟩
  have h4 : int8 ((4 : Byte).val) = ObjectType.Event := by decide
  unfold hircObject
  simp only [hr, Object_ofMem_objectBytes 4 padBytes size id hsize hid, he, h4, if_true]

/-- C4 on two fixtures: at version 134 the first action id starts 1 byte after the object
header, at version 133 it starts 4 bytes after it. -/
theorem C4_event_action_count_width_witness :
    (readEvent 134 ⟨c4Data134, 12, false⟩ = (⟨1, [305419896]⟩, ⟨c4Data134, 12 + 1 + 4 * 1, false⟩)
      ∧ c4Data134.drop (12 + 1) = u32Bytes 305419896 ++ [0xEE])
    ∧ (readEvent 133 ⟨c4Data133, 12, false⟩ = (⟨1, [305419896]⟩, ⟨c4Data133, 12 + 4 + 4 * 1, false⟩)
      ∧ c4Data133.drop (12 + 4) = u32Bytes 305419896 ++ [0xEE]) :=
  ⟨⟨(C4_event_action_count_width { Locals.init with bank_header := ⟨134, 1⟩ } ⟨c4Data134, 0, false⟩
        [0, 0, 0] 9 7 1 [305419896] [0xEE] rfl (by decide) (by decide) (by decide) rfl
        (by decide) rfl).2.1, rfl⟩,
    ⟨(C4_event_action_count_width { Locals.init with bank_header := ⟨133, 1⟩ } ⟨c4Data133, 0, false⟩
        [0, 0, 0] 12 7 1 [305419896] [0xEE] rfl (by decide) (by decide) (by decide) rfl
        (by decide) rfl).2.1, rfl⟩⟩

/-- C9 (counterexample): on `c9File` the `EventAction` branch is entered at offset 24
with `object.size = 12 < 13 + 2 * 0`; the cursor stands at offset 33 before line 129,
and the branch leaves it at `33 + (2^32 - 1)` with the stream not failed: the skip is
the wrapped value, it is neither clamped to zero nor is the record failed. -/
theorem C9_residual_skip_counterexample :
    12 < 13 + 2 * 0
    ∧ (readEventAction 12 ⟨c9File, 24, false⟩).2 = ⟨c9File, 33 + 4294967295, false⟩
    ∧ (hircObject naturalPad Locals.init ⟨c9File, 12, false⟩).2
        = ⟨c9File, 33 + 4294967295 + 8, false⟩ := by
  decide

/-- C9 (amended): for every `EventAction` record whose fields are present in the source
and whose `object.size` is below `13 + 2 * parameter_count`, the branch moves the
cursor, which stands `9 + 2 * parameter_count` bytes after the object header before
line 129, forward by the wrapped 32-bit value `2^32 + size - 13 - 2 * parameter_count`,
and the stream is not failed. -/
theorem C9_residual_skip_wraps (size : Nat) (s : IStream) (scope actionType reserved : Byte)
    (gameObjectId : Nat) (types params rest : List Byte)
    (hf : s.fail = false) (hg : gameObjectId < 4294967296) (hpc : types.length < 256)
    (hpar : params.length = types.length)
    (hd : s.data.drop s.pos
        = eventActionBytes scope actionType gameObjectId reserved types params ++ rest)
    (hlt : size < 13 + 2 * types.length) :
    (readEventAction size s).1.parameter_count = types.length
    ∧ residualSkip size types.length = 4294967296 + size - 13 - 2 * types.length
    ∧ (readEventAction size s).2
        = ⟨s.data, (s.pos + 9 + 2 * types.length)
            + (4294967296 + size - 13 - 2 * types.length), false⟩ := by
  have hres : residualSkip size types.length = 4294967296 + size - 13 - 2 * types.length := by
    unfold residualSkip; omega
  rw [readEventAction_ok size s scope actionType reserved gameObjectId types params rest
    hf hg hpc hpar hd, hres]
  exact ⟨rfl, rfl, rfl⟩

/-- C9 (amended) on `c9File`: size 12 and no parameters. -/
theorem C9_residual_skip_wraps_witness :
    (readEventAction 12 ⟨c9File, 24, false⟩).1.parameter_count = 0
    ∧ residualSkip 12 0 = 4294967296 + 12 - 13 - 2 * 0
    ∧ (readEventAction 12 ⟨c9File, 24, false⟩).2
        = ⟨c9File, (24 + 9 + 2 * 0) + (4294967296 + 12 - 13 - 2 * 0), false⟩ :=
  C9_residual_skip_wraps 12 ⟨c9File, 24, false⟩ 2 4 0 9 [] [] [] rfl (by decide) (by decide) rfl
    (by decide) (by decide)

/-- C5: the length invariant of the event map and of the event-action map holds for
the initial local variables, is kept by every iteration of the object loop, by every
iteration of the chunk loop and by any number of them, and so holds for the model the
decode pass returns, on every input. -/
theorem C5_model_length_invariant (pad : Nat) (swap : Bool) :
    ModelInv Locals.init
    ∧ (∀ lv s, ModelInv lv → ModelInv (hircObject pad lv s).1)
    ∧ (∀ lv s r, ModelInv lv → chunkBody pad swap lv s = some r → ModelInv r.1)
    ∧ (∀ fuel lv s r, ModelInv lv → chunkLoop pad swap fuel lv s = some r → ModelInv r.1)
    ∧ (∀ bnk r, decodePass pad swap bnk = some r → ModelInv r.1) := by
  have h0 : ModelInv Locals.init := by
    constructor <;> intro kv hkv <;> simp [Locals.init] at hkv
  refine ⟨h0, hircObject_inv pad, fun lv s r => chunkBody_inv pad swap lv s r,
    chunkLoop_inv pad swap, ?_⟩
  intro bnk r hr
  unfold decodePass at hr
  simp only [Option.map_eq_some'] at hr
  obtain ⟨r', hr', rfl⟩ := hr
  exact chunkLoop_inv pad swap _ _ _ r' h0 hr'

/-- C5 on `c5File`, whose decode leaves one entry in each of the two object maps. -/
theorem C5_model_length_invariant_witness :
    ∃ r, decodePass naturalPad false c5File = some r
      ∧ r.1.event_objects = [(1, ⟨2, [10, 20]⟩)]
      ∧ r.1.event_action_objects = [(2, ⟨2, 4, 9, 2, [14, 16], [1, -1]⟩)]
      ∧ ModelInv r.1 :=
  ⟨_, rfl, by decide, by decide,
    (C5_model_length_invariant naturalPad false).2.2.2.2 c5File _ rfl⟩

theorem Compare_of_other {sign a b : List Byte} (ha : Compare sign a = true)
    (hlen : b.length = a.length) (hab : a ≠ b) : Compare sign b = false := by
  simp only [Compare, decide_eq_true_eq, decide_eq_false_iff_not] at ha ⊢
  rw [hlen, ha]
  exact hab

theorem chunkBody_didx (pad : Nat) (swap : Bool) (lv : Locals) (s : IStream)
    (hsig : Compare lv.content_section.sign sigDIDX = true) :
    chunkBody pad swap lv s
      = (didxLoop didxFuel 0 (effectiveLength swap lv.content_section.size) s lv.content_index
          lv.files).map
        (fun r => ({ lv with
            content_section := ⟨lv.content_section.sign,
              effectiveLength swap lv.content_section.size⟩,
            dispatched := lv.dispatched ++ [(tellg s, ⟨lv.content_section.sign,
              effectiveLength swap lv.content_section.size⟩)],
            content_index := r.2.1, files := r.2.2 },
          seekgAbs r.1 (tellg s + effectiveLength swap lv.content_section.size))) := by
  have h1 : Compare lv.content_section.sign sigBKHD = false :=
    Compare_of_other hsig rfl (by decide)
  have hL : (if swap then toU32 (Swap32 lv.content_section.size) else lv.content_section.size)
      = effectiveLength swap lv.content_section.size := by
    unfold effectiveLength; split
    · rw [toU32_Swap32]
    · rfl
  unfold chunkBody
  simp only [hL, h1, hsig, if_true, Bool.false_eq_true, if_false, Option.map_map]
  rfl

/-- C7 (counterexample): a `DIDX` chunk of declared length 1 makes the index decoder
append one entry, not `1 / 12 = 0` entries. -/
theorem C7_index_count_counterexample :
    (decodePass naturalPad false c7File).map (fun r => r.1.files) = some [⟨7, 0, 16⟩]
    ∧ ([⟨7, 0, 16⟩] : List Index).length ≠ 1 / 12 := by
  decide

/-- C7 (amended): for a `DIDX` chunk with effective declared length `L ≤ 2^32 - 4` the
index decoder returns and appends exactly `⌈L / 12⌉` entries to the index sequence,
which is `L / 12` when `L` is a multiple of 12; and when the bytes after the chunk
header hold `⌈L / 12⌉` entries of three little-endian 32-bit fields each, the entries
appended are exactly those, in on-disk order, repeated ids included. -/
theorem C7_index_table_size (pad : Nat) (swap : Bool) (lv : Locals) (s : IStream)
    (hsig : Compare lv.content_section.sign sigDIDX = true)
    (hL : effectiveLength swap lv.content_section.size ≤ 4294967292) :
    ∃ r, chunkBody pad swap lv s = some r
      ∧ r.1.files.length
          = lv.files.length + (effectiveLength swap lv.content_section.size + 11) / 12
      ∧ (effectiveLength swap lv.content_section.size % 12 = 0 →
          r.1.files.length = lv.files.length + effectiveLength swap lv.content_section.size / 12)
      ∧ ∀ (entries : List Index) (rest : List Byte), s.fail = false →
          s.data.drop s.pos = indexBytes entries ++ rest →
          entries.length = (effectiveLength swap lv.content_section.size + 11) / 12 →
          (∀ e ∈ entries, e.fits) → r.1.files = lv.files ++ entries := by
  obtain ⟨d, hd, hlen, _⟩ := didxLoop_some didxFuel 0 _ s lv.content_index lv.files hL
    (by decide) (by unfold didxFuel; omega)
  rw [chunkBody_didx pad swap lv s hsig, hd]
  refine ⟨_, rfl, ?_, ?_, ?_⟩
  · simpa using hlen
  · intro hmod
    simp only [Option.map_some'] at *
    rw [hlen]; simp only [Nat.sub_zero]; omega
  · intro entries rest hf hdata hn hfit
    obtain ⟨ci', h⟩ := didxLoop_entries entries didxFuel 0 _ s lv.content_index lv.files rest hL
      (by decide) (by simpa using hn.symm) (by rw [hn]; unfold didxFuel; omega) hfit hf hdata
    rw [h] at hd
    cases hd
    rfl

/-- C7 (amended) on `c7File2`: a length of 24 gives the two stored entries, equal ids
included. -/
theorem C7_index_table_size_witness :
    ∃ r, chunkBody naturalPad false { Locals.init with content_section := ⟨sigDIDX, 24⟩ }
          ⟨c7File2, 8, false⟩ = some r
      ∧ r.1.files = [⟨7, 0, 16⟩, ⟨7, 16, 4⟩] ∧ r.1.files.length = 24 / 12 := by
  obtain ⟨r, hr, _, hmod, hent⟩ := C7_index_table_size naturalPad false
    { Locals.init with content_section := ⟨sigDIDX, 24⟩ } ⟨c7File2, 8, false⟩ (by decide)
    (by decide)
  exact ⟨r, hr, hent [⟨7, 0, 16⟩, ⟨7, 16, 4⟩] [] rfl (by decide) (by decide) (by decide),
    by simpa [Locals.init] using hmod (by decide)⟩

/-- When the decode pass has returned the model `lv` and either no chunk with the
`DATA` signature was dispatched or the index sequence is empty, the run returns, writes
no payload file, and leaves the decoded model as it is. -/
theorem nothing_to_extract_of_decoded (pad : Nat) (bnk : List Byte) (swap dump : Bool) (env : Env)
    (lv : Locals) (s : IStream) (hdec : decodePass pad swap bnk = some (lv, s))
    (hnone : (∀ d ∈ lv.dispatched, Compare d.2.sign sigDATA = false) ∨ lv.files = []) :
    ExtractBnkFile pad (some bnk) swap dump env
      = some { locals := lv, reportWritten := dump && env.reportOpens, wems := [] } := by
  have hseen : DataSeen lv := by
    unfold decodePass at hdec
    simp only [Option.map_eq_some'] at hdec
    obtain ⟨r', hr', hrr⟩ := hdec
    have := chunkLoop_dataSeen pad swap _ _ _ r' (fun h => absurd rfl h) hr'
    cases hrr
    exact this
  have hcond : lv.data_offset = 0 ∨ lv.files = [] := by
    rcases hnone with h | h
    · left
      by_contra hne
      obtain ⟨d, hd, hc⟩ := hseen hne
      rw [h d hd] at hc
      cases hc
    · right; exact h
  unfold ExtractBnkFile
  simp only [hdec]
  by_cases hrep : (dump && !env.reportOpens) = true
  · simp only [hrep, if_true]
    cases dump <;> cases hro : env.reportOpens <;> simp_all
  · simp only [hrep, if_false, hcond, if_true]
    cases dump <;> cases hro : env.reportOpens <;> simp_all

/-- On `c8File`: an index of one entry, no `DATA` chunk, no payload file. -/
theorem nothing_to_extract_of_decoded_c8File :
    ∃ lv s, decodePass naturalPad false c8File = some (lv, s)
      ∧ lv.files = [⟨7, 0, 16⟩]
      ∧ (∀ d ∈ lv.dispatched, Compare d.2.sign sigDATA = false)
      ∧ ExtractBnkFile naturalPad (some c8File) false false ⟨true, fun _ => true⟩
          = some { locals := lv, reportWritten := false, wems := [] } :=
  ⟨_, _, rfl, by decide, by decide,
    nothing_to_extract_of_decoded naturalPad c8File false false ⟨true, fun _ => true⟩ _ _ rfl
      (Or.inl (by decide))⟩

/-! ## Byte reversal and the stored fields -/

theorem length_u32Field (rev : Bool) (x : Nat) : (u32Field rev x).length = 4 := by
  unfold u32Field; split <;> simp [length_u32Bytes]

theorem bytes_split (x : Nat) (h : x < 4294967296) :
    x % 256 + 256 * (x / 256 % 256) + 65536 * (x / 65536 % 256)
      + 16777216 * (x / 16777216 % 256) = x := by
  omega

theorem bytes_join (b0 b1 b2 b3 : Nat) (h0 : b0 < 256) (h1 : b1 < 256) (h2 : b2 < 256)
    (h3 : b3 < 256) :
    (b0 + 256 * b1 + 65536 * b2 + 16777216 * b3) % 256 = b0
    ∧ (b0 + 256 * b1 + 65536 * b2 + 16777216 * b3) / 256 % 256 = b1
    ∧ (b0 + 256 * b1 + 65536 * b2 + 16777216 * b3) / 65536 % 256 = b2
    ∧ (b0 + 256 * b1 + 65536 * b2 + 16777216 * b3) / 16777216 % 256 = b3 :=
  ⟨by omega, by omega, by omega, by omega⟩

theorem bswap32_bytes (x : Nat) :
    bswap32 x = x / 16777216 % 256 + 256 * (x / 65536 % 256) + 65536 * (x / 256 % 256)
      + 16777216 * (x % 256) := by
  unfold bswap32; omega

theorem bswap32_parts (x : Nat) :
    bswap32 x % 256 = x / 16777216 % 256 ∧ bswap32 x / 256 % 256 = x / 65536 % 256
    ∧ bswap32 x / 65536 % 256 = x / 256 % 256 ∧ bswap32 x / 16777216 % 256 = x % 256 := by
  have hj := bytes_join (x / 16777216 % 256) (x / 65536 % 256) (x / 256 % 256) (x % 256)
    (Nat.mod_lt _ (by decide)) (Nat.mod_lt _ (by decide)) (Nat.mod_lt _ (by decide))
    (Nat.mod_lt _ (by decide))
  rw [← bswap32_bytes x] at hj
  exact hj

theorem bswap32_bswap32 (x : Nat) (h : x < 4294967296) : bswap32 (bswap32 x) = x := by
  obtain ⟨j0, j1, j2, j3⟩ := bswap32_parts x
  rw [bswap32_bytes (bswap32 x), j0, j1, j2, j3]
  have := bytes_split x h
  omega

theorem u32Field_eq (rev : Bool) (x : Nat) :
    u32Field rev x = u32Bytes (if rev then bswap32 x else x) := by
  unfold u32Field
  cases rev
  · rfl
  · obtain ⟨j0, j1, j2, j3⟩ := bswap32_parts x
    simp only [if_true, u32Bytes, List.reverse_cons, List.reverse_nil, List.nil_append,
      List.cons_append, j0, j1, j2, j3]

theorem leNat_u32Field (rev : Bool) (x : Nat) (h : x < 4294967296) :
    leNat (u32Field rev x) = if rev then bswap32 x else x := by
  rw [u32Field_eq]
  cases rev
  · exact leNat_u32Bytes x h
  · exact leNat_u32Bytes _ (bswap32_lt x)

theorem effectiveLength_stored (rev : Bool) (x : Nat) (h : x < 4294967296) :
    effectiveLength rev (if rev then bswap32 x else x) = x := by
  unfold effectiveLength
  cases rev
  · rfl
  · simp only [if_true]; exact bswap32_bswap32 x h

theorem indexFieldBytes_eq (rev : Bool) : ∀ (es : List Index), (∀ e ∈ es, e.fits) →
    indexFieldBytes rev es = indexBytes (es.map (storedIndex rev)) := by
  intro es
  induction es with
  | nil => intro _; rfl
  | cons e es ih =>
    intro h
    obtain ⟨h1, h2, h3⟩ := h e (List.mem_cons_self _ _)
    rw [indexFieldBytes, ih (fun x hx => h x (List.mem_cons_of_mem _ hx)), List.map_cons,
      indexBytes, Index.toMem, u32Field_eq rev, u32Field_eq rev, u32Field_eq rev]
    cases rev <;> simp [storedIndex]

theorem storedIndex_fits (rev : Bool) (e : Index) : (storedIndex rev e).fits ∨ rev = false := by
  cases rev
  · right; rfl
  · left; exact ⟨bswap32_lt _, bswap32_lt _, bswap32_lt _⟩

theorem length_payload (rev : Bool) (c : Chunk) (h : c.WF) :
    (c.payload rev).length = c.payloadLength := by
  cases c with
  | bkhd v i extra => simp [Chunk.payload, Chunk.payloadLength, length_u32Bytes]; omega
  | didx es =>
    simp only [Chunk.payload, Chunk.payloadLength]
    rw [indexFieldBytes_eq rev es h.2, length_indexBytes, List.length_map]
  | data p => rfl
  | other sg p => rfl

/-! ## The decode pass on a well-formed container -/

theorem Chunk.sign_length (c : Chunk) (h : c.WF) : c.sign.length = 4 := by
  cases c with
  | bkhd v i e => rfl
  | didx es => rfl
  | data p => rfl
  | other sg p => exact h.2.1

theorem Chunk.payloadLength_lt (c : Chunk) (h : c.WF) : c.payloadLength < 4294967296 := by
  cases c with
  | bkhd v i e => exact h.2.2
  | didx es => exact h.1
  | data p => exact h
  | other sg p => exact h.1

theorem Section_ofMem_header (sign f : List Byte) (hs : sign.length = 4) (hf : f.length = 4) :
    Section.ofMem (sign ++ f) = ⟨sign, leNat f⟩ := by
  have h1 : (sign ++ f).take 4 = sign := by rw [← hs]; exact List.take_left' rfl
  have h2 : (sign ++ f).drop 4 = f := by rw [← hs]; exact List.drop_left' rfl
  have h3 : f.take 4 = f := List.take_of_length_le (by omega)
  simp only [Section.ofMem, field, h1, h2, h3]

theorem effLength_eq (swap : Bool) (raw : Nat) :
    (if swap then toU32 (Swap32 raw) else raw) = effectiveLength swap raw := by
  unfold effectiveLength; split
  · rw [toU32_Swap32]
  · rfl

theorem Compare_self_length (sign a : List Byte) (hs : sign.length = 4) (ha : a.length = 4)
    (hne : sign ≠ a) : Compare sign a = false := by
  simp only [Compare, decide_eq_false_iff_not, ha]
  rw [List.take_of_length_le (by omega)]
  exact hne

theorem chunkBody_chunk (pad : Nat) (rev : Bool) (lv : Locals) (s : IStream) (c : Chunk)
    (rest : List Byte) (raw : Nat) (hwf : c.WF) (hsec : lv.content_section = ⟨c.sign, raw⟩)
    (heff : effectiveLength rev raw = c.payloadLength) (hf : s.fail = false)
    (hd : s.data.drop s.pos = c.payload rev ++ rest) :
    ∃ lv', chunkBody pad rev lv s = some (lv', ⟨s.data, s.pos + c.payloadLength, false⟩)
      ∧ lv.updated lv' (lv.files ++ c.entries.map (storedIndex rev))
          (c.dataOffset s.pos lv.data_offset) (lastBank [c] lv.bank_header) := by
  have htell : tellg s = s.pos := by simp [tellg, hf]
  cases c with
  | bkhd v i extra =>
    simp only [Chunk.payload, List.append_assoc] at hd
    have hd1 : s.data.drop s.pos = (u32Bytes v ++ u32Bytes i) ++ (extra ++ rest) := by
      simpa using hd
    have hr : ReadContent s lv.bank_header.toMem
        = (true, u32Bytes v ++ u32Bytes i, ⟨s.data, s.pos + 8, false⟩) :=
      ReadContent_ok s lv.bank_header.toMem (u32Bytes v ++ u32Bytes i) _ hf hd1
        (by rw [length_BankHeader_toMem]; rfl)
    have hb : BankHeader.ofMem (u32Bytes v ++ u32Bytes i) = ⟨v, i⟩ := by
      have e1 : field (u32Bytes v ++ u32Bytes i) 0 4 = leNat (u32Bytes v) := rfl
      have e2 : field (u32Bytes v ++ u32Bytes i) 4 4 = leNat (u32Bytes i) := rfl
      simp only [BankHeader.ofMem, e1, e2, leNat_u32Bytes _ hwf.1, leNat_u32Bytes _ hwf.2.1]
    have hsk : seekgCur ⟨s.data, s.pos + 8, false⟩ (((8 + extra.length : Nat) : Int) - 8)
        = ⟨s.data, s.pos + 8 + extra.length, false⟩ := by
      have : (((8 + extra.length : Nat) : Int) - 8) = ((extra.length : Nat) : Int) := by
        push_cast; omega
      rw [this]
      exact seekgCur_nat ⟨s.data, s.pos + 8, false⟩ extra.length rfl
    simp only [Chunk.payloadLength] at heff ⊢
    unfold chunkBody
    simp only [hsec, Chunk.sign, effLength_eq, heff, htell, hr, hb, hsk]
    have hc : Compare sigBKHD sigBKHD = true := by decide
    simp only [hc, if_true, Option.map_some', seekgAbs, Bool.false_eq_true, if_false,
      Nat.add_assoc]
    exact ⟨_, rfl, by simp [Chunk.entries], rfl, rfl, rfl, rfl, rfl⟩
  | didx es =>
    simp only [Chunk.payload] at hd
    rw [indexFieldBytes_eq rev es hwf.2] at hd
    simp only [Chunk.payloadLength] at heff ⊢
    have hfit : ∀ e ∈ es.map (storedIndex rev), e.fits := by
      intro e he
      obtain ⟨e0, he0, rfl⟩ := List.mem_map.mp he
      rcases storedIndex_fits rev e0 with h | h
      · exact h
      · subst h; exact hwf.2 e0 he0
    have hlt := hwf.1
    obtain ⟨ci', hloop⟩ := didxLoop_entries (es.map (storedIndex rev)) didxFuel 0
      (12 * es.length) s lv.content_index lv.files rest (by omega) (by decide)
      (by rw [List.length_map]; omega) (by rw [List.length_map]; unfold didxFuel; omega)
      hfit hf hd
    have hsig : Compare lv.content_section.sign sigDIDX = true := by
      rw [hsec]; exact (by decide : Compare sigDIDX sigDIDX = true)
    rw [chunkBody_didx pad rev lv s hsig, hsec]
    simp only [heff, hloop, htell, List.length_map, Option.map_some', seekgAbs,
      Bool.false_eq_true, if_false]
    exact ⟨_, rfl, rfl, rfl, rfl, rfl, rfl, rfl⟩
  | data payload =>
    simp only [Chunk.payloadLength] at heff ⊢
    unfold chunkBody
    simp only [hsec, Chunk.sign, effLength_eq, heff, htell]
    have h1 : Compare sigDATA sigBKHD = false := by decide
    have h2 : Compare sigDATA sigDIDX = false := by decide
    have h3 : Compare sigDATA sigSTID = false := by decide
    have h4 : Compare sigDATA sigDATA = true := by decide
    simp only [h1, h2, h3, h4, if_true, Bool.false_eq_true, if_false, Option.map_some', seekgAbs,
      hf]
    exact ⟨_, rfl, by simp [Chunk.entries], rfl, rfl, rfl, rfl, rfl⟩
  | other sg payload =>
    simp only [Chunk.payloadLength] at heff ⊢
    obtain ⟨_, hl, n1, n2, n3, n4⟩ := hwf
    have h1 : Compare sg sigBKHD = false := Compare_self_length sg _ hl rfl n1
    have h2 : Compare sg sigDIDX = false := Compare_self_length sg _ hl rfl n2
    have h4 : Compare sg sigDATA = false := Compare_self_length sg _ hl rfl n3
    have h5 : Compare sg sigHIRC = false := Compare_self_length sg _ hl rfl n4
    unfold chunkBody
    simp only [hsec, Chunk.sign, effLength_eq, heff, htell, h1, h2, h4, h5, Bool.false_eq_true,
      if_false]
    have hres : (if Compare sg sigSTID = true then
          some ({ lv with
            content_section := ⟨sg, payload.length⟩,
            dispatched := lv.dispatched ++ [(s.pos, ⟨sg, payload.length⟩)] }, s)
        else some ({ lv with
            content_section := ⟨sg, payload.length⟩,
            dispatched := lv.dispatched ++ [(s.pos, ⟨sg, payload.length⟩)] }, s))
        = some (({ lv with
            content_section := ⟨sg, payload.length⟩,
            dispatched := lv.dispatched ++ [(s.pos, ⟨sg, payload.length⟩)] } : Locals), s) := by
      split <;> rfl
    rw [hres]
    simp only [Option.map_some', seekgAbs, hf, Bool.false_eq_true, if_false]
    exact ⟨_, rfl, by simp [Chunk.entries], rfl, rfl, rfl, rfl, rfl⟩

theorem ReadContent_eof (s : IStream) (mem : List Byte) (hf : s.fail = false)
    (hd : s.data.drop s.pos = []) (hm : 0 < mem.length) :
    ReadContent s mem = (false, mem, ⟨s.data, s.pos, true⟩) := by
  unfold ReadContent
  have : ¬ (0 = mem.length) := by omega
  simp [hf, hd, this]

theorem Locals.updated_trans {lv lv1 lv2 : Locals} {f1 f2 : List Index} {o1 o2 : Nat}
    {b1 b2 : BankHeader} (h1 : lv.updated lv1 f1 o1 b1) (h2 : lv1.updated lv2 f2 o2 b2) :
    lv.updated lv2 f2 o2 b2 := by
  obtain ⟨_, _, _, a4, a5, a6⟩ := h1
  obtain ⟨c1, c2, c3, c4, c5, c6⟩ := h2
  exact ⟨c1, c2, c3, c4.trans a4, c5.trans a5, c6.trans a6⟩

theorem chunkLoop_step (pad : Nat) (rev : Bool) (fuel : Nat) (lv : Locals) (s : IStream)
    (c : Chunk) (rest : List Byte) (hwf : c.WF) (hf : s.fail = false)
    (hd : s.data.drop s.pos = c.bytes rev ++ rest) :
    ∃ lv', chunkLoop pad rev (fuel + 1) lv s
        = chunkLoop pad rev fuel lv' ⟨s.data, s.pos + (8 + c.payloadLength), false⟩
      ∧ lv.updated lv' (lv.files ++ c.entries.map (storedIndex rev))
          (c.dataOffset (s.pos + 8) lv.data_offset) (lastBank [c] lv.bank_header) := by
  have hsl := c.sign_length hwf
  have hlt := c.payloadLength_lt hwf
  have hd1 : s.data.drop s.pos
      = (c.sign ++ u32Field rev c.payloadLength) ++ (c.payload rev ++ rest) := by
    simpa [Chunk.bytes] using hd
  have hr : ReadContent s lv.content_section.toMem
      = (true, c.sign ++ u32Field rev c.payloadLength, ⟨s.data, s.pos + 8, false⟩) := by
    have := ReadContent_ok s lv.content_section.toMem _ _ hf hd1
      (by rw [length_Section_toMem, List.length_append, hsl, length_u32Field])
    rwa [List.length_append, hsl, length_u32Field] at this
  have hd2 : s.data.drop (s.pos + 8) = c.payload rev ++ rest := by
    have := drop_advance hd1
    rwa [List.length_append, hsl, length_u32Field] at this
  have hsec : Section.ofMem (c.sign ++ u32Field rev c.payloadLength)
      = ⟨c.sign, if rev then bswap32 c.payloadLength else c.payloadLength⟩ := by
    rw [Section_ofMem_header _ _ hsl (length_u32Field _ _), leNat_u32Field _ _ hlt]
  obtain ⟨lv', hb, hu⟩ := chunkBody_chunk pad rev
    { lv with content_section := ⟨c.sign, if rev then bswap32 c.payloadLength else c.payloadLength⟩ }
    ⟨s.data, s.pos + 8, false⟩ c rest _ hwf rfl (effectiveLength_stored rev _ hlt) rfl hd2
  refine ⟨lv', ?_, hu⟩
  conv_lhs => unfold chunkLoop
  simp only [hr, hsec, if_true, hb, Nat.add_assoc]

theorem dataOffsetOf_cons (c : Chunk) (cs : List Chunk) (p old : Nat) :
    dataOffsetOf (c :: cs) p old
      = dataOffsetOf cs (p + (8 + c.payloadLength)) (c.dataOffset (p + 8) old) := by
  unfold dataOffsetOf
  simp only [lastDataAt]
  cases h : lastDataAt cs (p + (8 + c.payloadLength)) with
  | some r => rfl
  | none => cases c <;> rfl

theorem lastBank_cons (c : Chunk) (cs : List Chunk) (b : BankHeader) :
    lastBank (c :: cs) b = lastBank cs (lastBank [c] b) := by
  cases c <;> rfl

theorem chunkLoop_container (pad : Nat) (rev : Bool) : ∀ (cs : List Chunk) (fuel : Nat)
    (lv : Locals) (s : IStream), (∀ c ∈ cs, c.WF) → s.fail = false →
    s.data.drop s.pos = containerBytes rev cs → cs.length < fuel →
    ∃ lv' s', chunkLoop pad rev fuel lv s = some (lv', s') ∧ s'.data = s.data
      ∧ lv.updated lv' (lv.files ++ (filesOf cs).map (storedIndex rev))
          (dataOffsetOf cs s.pos lv.data_offset) (lastBank cs lv.bank_header) := by
  intro cs
  induction cs with
  | nil =>
    intro fuel lv s _ hf hd hfuel
    obtain ⟨n, rfl⟩ : ∃ n, fuel = n + 1 := ⟨fuel - 1, by simp at hfuel; omega⟩
    have hr := ReadContent_eof s lv.content_section.toMem hf hd
      (by rw [length_Section_toMem]; decide)
    unfold chunkLoop
    simp only [hr, Bool.false_eq_true, if_false]
    exact ⟨_, _, rfl, rfl, by simp [filesOf], rfl, rfl, rfl, rfl, rfl⟩
  | cons c cs ih =>
    intro fuel lv s hwf hf hd hfuel
    obtain ⟨n, rfl⟩ : ∃ n, fuel = n + 1 := ⟨fuel - 1, by simp at hfuel; omega⟩
    obtain ⟨lv1, hstep, hu1⟩ := chunkLoop_step pad rev n lv s c (containerBytes rev cs)
      (hwf c (List.mem_cons_self _ _)) hf hd
    have hd' : s.data.drop (s.pos + (8 + c.payloadLength)) = containerBytes rev cs := by
      have := drop_advance hd
      rwa [Chunk.bytes, List.length_append, List.length_append,
        c.sign_length (hwf c (List.mem_cons_self _ _)), length_u32Field,
        length_payload rev c (hwf c (List.mem_cons_self _ _))] at this
    obtain ⟨lv2, s2, hloop, hdata, hu2⟩ := ih n lv1 ⟨s.data, s.pos + (8 + c.payloadLength), false⟩
      (fun x hx => hwf x (List.mem_cons_of_mem _ hx)) rfl hd' (by simp at hfuel; omega)
    refine ⟨lv2, s2, by rw [hstep, hloop], hdata, ?_⟩
    have := Locals.updated_trans hu1 hu2
    obtain ⟨f1, o1, b1, _⟩ := hu1
    rw [f1, o1, b1] at this
    rw [dataOffsetOf_cons, lastBank_cons]
    simpa [filesOf, List.append_assoc] using this

/-! ## The extraction pass when every range lies inside the source -/

theorem extractLoop_ok (swap : Bool) (env : Env) (off : Nat) : ∀ (fs : List Index) (s : IStream)
    (done : List Index) (out : List (String × List Byte)), s.fail = false →
    (∀ e ∈ fs, env.wemOpens (wemName e.id) = true) →
    (∀ e ∈ fs, off + effectiveLength swap e.offset + effectiveLength swap e.size ≤ s.data.length) →
    (extractLoop swap env off fs s done out).2.2
      = out ++ fs.map (fun e => (wemName e.id,
          (s.data.drop (off + effectiveLength swap e.offset)).take (effectiveLength swap e.size))) := by
  intro fs
  induction fs with
  | nil => intro s done out _ _ _; simp [extractLoop]
  | cons e es ih =>
    intro s done out hf hopen hrange
    have ho := hopen e (List.mem_cons_self _ _)
    have hr := hrange e (List.mem_cons_self _ _)
    have hseek : seekgAbs s (off + effectiveLength swap e.offset)
        = ⟨s.data, off + effectiveLength swap e.offset, false⟩ := by
      simp [seekgAbs, hf]
    have hlen : ((s.data.drop (off + effectiveLength swap e.offset)).take
        (effectiveLength swap e.size)).length = effectiveLength swap e.size := by
      rw [List.length_take, List.length_drop]; omega
    have hread : ReadContent ⟨s.data, off + effectiveLength swap e.offset, false⟩
        (zeros (effectiveLength swap e.size))
        = (true, (s.data.drop (off + effectiveLength swap e.offset)).take
            (effectiveLength swap e.size),
           ⟨s.data, off + effectiveLength swap e.offset + effectiveLength swap e.size, false⟩) := by
      have := ReadContent_ok ⟨s.data, off + effectiveLength swap e.offset, false⟩
        (zeros (effectiveLength swap e.size))
        ((s.data.drop (off + effectiveLength swap e.offset)).take (effectiveLength swap e.size))
        ((s.data.drop (off + effectiveLength swap e.offset)).drop (effectiveLength swap e.size))
        rfl (List.take_append_drop _ _).symm (by rw [length_zeros, hlen])
      rwa [hlen] at this
    unfold extractLoop
    simp only [effLength_eq, ho, if_true, hseek, hread]
    rw [ih ⟨s.data, off + effectiveLength swap e.offset + effectiveLength swap e.size, false⟩ _ _
      rfl (fun x hx => hopen x (List.mem_cons_of_mem _ hx))
      (fun x hx => hrange x (List.mem_cons_of_mem _ hx))]
    simp

theorem length_containerBytes_ge (rev : Bool) (cs : List Chunk) :
    cs.length ≤ (containerBytes rev cs).length := by
  induction cs with
  | nil => simp [containerBytes]
  | cons c cs ih =>
    simp only [containerBytes, Chunk.bytes, List.length_append, List.length_cons, length_u32Field]
    omega

theorem length_Chunk_bytes (rev : Bool) (c : Chunk) (h : c.WF) :
    (c.bytes rev).length = 8 + c.payloadLength := by
  rw [Chunk.bytes, List.length_append, List.length_append, c.sign_length h, length_u32Field,
    length_payload rev c h]

theorem lastDataAt_bytes (rev : Bool) : ∀ (cs : List Chunk) (p : Nat) (pre : List Byte)
    (r : Nat × List Byte), (∀ c ∈ cs, c.WF) → pre.length = p → lastDataAt cs p = some r →
    ∃ B, (pre ++ containerBytes rev cs).drop r.1 = r.2 ++ B ∧ p + 8 ≤ r.1
      ∧ r.1 + r.2.length ≤ (pre ++ containerBytes rev cs).length := by
  intro cs
  induction cs with
  | nil => intro p pre r _ _ h; simp [lastDataAt] at h
  | cons c cs ih =>
    intro p pre r hwf hp h
    have hc := hwf c (List.mem_cons_self _ _)
    have hlen := length_Chunk_bytes rev c hc
    simp only [lastDataAt] at h
    cases hl : lastDataAt cs (p + (8 + c.payloadLength)) with
    | some r' =>
      rw [hl] at h
      simp only [Option.some.injEq] at h
      subst h
      obtain ⟨B, h1, h2, h3⟩ := ih (p + (8 + c.payloadLength)) (pre ++ c.bytes rev) r'
        (fun x hx => hwf x (List.mem_cons_of_mem _ hx))
        (by rw [List.length_append, hp, hlen]) hl
      refine ⟨B, ?_, by omega, ?_⟩
      · simpa [containerBytes, List.append_assoc] using h1
      · simpa [containerBytes, List.append_assoc] using h3
    | none =>
      rw [hl] at h
      cases c with
      | data payload =>
        cases h
        refine ⟨containerBytes rev cs, ?_, by simp, ?_⟩
        · have e : pre ++ containerBytes rev (Chunk.data payload :: cs)
              = (pre ++ (sigDATA ++ u32Field rev payload.length))
                ++ (payload ++ containerBytes rev cs) := by
            simp [containerBytes, Chunk.bytes, Chunk.sign, Chunk.payload, Chunk.payloadLength]
          rw [e]
          apply List.drop_left'
          simp [hp, length_u32Field, sigDATA]
        · simp [containerBytes, Chunk.bytes, Chunk.sign, Chunk.payload, Chunk.payloadLength,
            hp, length_u32Field, sigDATA]
          omega
      | bkhd v i e => simp at h
      | didx es => simp at h
      | other sg pl => simp at h

theorem filesOf_fits : ∀ (cs : List Chunk), (∀ c ∈ cs, c.WF) → ∀ e ∈ filesOf cs, e.fits := by
  intro cs
  induction cs with
  | nil => intro _ e he; simp [filesOf] at he
  | cons c cs ih =>
    intro hwf e he
    simp only [filesOf, List.mem_append] at he
    rcases he with h | h
    · cases c with
      | didx es => exact (hwf _ (List.mem_cons_self _ _)).2 e h
      | bkhd v i x => simp [Chunk.entries] at h
      | data pl => simp [Chunk.entries] at h
      | other sg pl => simp [Chunk.entries] at h
    · exact ih (fun x hx => hwf x (List.mem_cons_of_mem _ hx)) e h

theorem take_drop_payload {l payload B : List Byte} {q off size : Nat}
    (hq : l.drop q = payload ++ B) (h : off + size ≤ payload.length) :
    (l.drop (q + off)).take size = (payload.drop off).take size := by
  rw [← List.drop_drop, hq, List.drop_append_of_le_length (by omega),
    List.take_append_of_le_length (by rw [List.length_drop]; omega)]

theorem effectiveLength_storedIndex (rev : Bool) (e : Index) (h : e.fits) :
    effectiveLength rev (storedIndex rev e).offset = e.offset
    ∧ effectiveLength rev (storedIndex rev e).size = e.size := by
  obtain ⟨_, h2, h3⟩ := h
  cases rev
  · exact ⟨rfl, rfl⟩
  · exact ⟨bswap32_bswap32 _ h2, bswap32_bswap32 _ h3⟩

/-- Decode and extraction of a well-formed container, stored natively (`rev = false`,
switch off) or byte-reversed (`rev = true`, switch on), when the report and the payload
files can be opened and every index range lies inside the last `DATA` payload: the run
returns and writes one file per described payload, named after the id as read. -/
theorem ExtractBnkFile_container (pad : Nat) (rev dump : Bool) (env : Env) (cs : List Chunk)
    (hwf : ∀ c ∈ cs, c.WF) (hrep : dump = true → env.reportOpens = true)
    (hopen : ∀ e ∈ filesOf cs, env.wemOpens (wemName (storedIndex rev e).id) = true)
    (hrange : ∀ r, lastDataAt cs 0 = some r → ∀ e ∈ filesOf cs, e.offset + e.size ≤ r.2.length) :
    ∃ o, ExtractBnkFile pad (some (containerBytes rev cs)) rev dump env = some o
      ∧ o.wems = (payloadsOf cs).map
          (fun p => (wemName (if rev then bswap32 p.1 else p.1), p.2))
      ∧ o.locals.data_offset = dataOffsetOf cs 0 0 := by
  obtain ⟨lv, s, hloop, hdata, hfiles, hoff, _⟩ := chunkLoop_container pad rev cs
    ((containerBytes rev cs).length + 1) Locals.init ⟨containerBytes rev cs, 0, false⟩ hwf rfl rfl
    (by have := length_containerBytes_ge rev cs; omega)
  have hdec : decodePass pad rev (containerBytes rev cs) = some (lv, clear s) := by
    unfold decodePass; rw [hloop]; rfl
  have hrep' : (dump && !env.reportOpens) = false := by
    cases dump
    · rfl
    · simp [hrep rfl]
  have hfiles' : lv.files = (filesOf cs).map (storedIndex rev) := by
    simpa [Locals.init] using hfiles
  unfold ExtractBnkFile
  simp only [hdec, hrep', Bool.false_eq_true, if_false]
  cases hl : lastDataAt cs 0 with
  | none =>
    have h0 : lv.data_offset = 0 := by
      rw [hoff]; simp [dataOffsetOf, hl, Locals.init]
    have h1 : dataOffsetOf cs 0 0 = 0 := by simp [dataOffsetOf, hl]
    simp [h0, h1, payloadsOf, hl]
  | some r =>
    have hoff' : lv.data_offset = r.1 := by rw [hoff]; simp [dataOffsetOf, hl]
    have hoff2 : dataOffsetOf cs 0 0 = r.1 := by simp [dataOffsetOf, hl]
    obtain ⟨B, hB, hge, hle⟩ := lastDataAt_bytes rev cs 0 [] r hwf rfl hl
    simp only [List.nil_append] at hB hle
    by_cases hc : lv.data_offset = 0 ∨ lv.files = []
    · rcases hc with h | h
      · omega
      · have : filesOf cs = [] := by
          rw [hfiles'] at h; simpa using h
        simp [h, payloadsOf, hl, this, hoff2, hoff']
    · simp only [hc, if_false]
      refine ⟨_, rfl, ?_, by rw [hoff2]; exact hoff'⟩
      have hsd : (clear s).data = containerBytes rev cs := hdata
      rw [extractLoop_ok rev env lv.data_offset lv.files (clear s) [] [] rfl
        (by
          intro e he
          rw [hfiles'] at he
          obtain ⟨e0, he0, rfl⟩ := List.mem_map.mp he
          exact hopen e0 he0)
        (by
          intro e he
          rw [hfiles'] at he
          obtain ⟨e0, he0, rfl⟩ := List.mem_map.mp he
          obtain ⟨h1, h2⟩ := effectiveLength_storedIndex rev e0 (filesOf_fits cs hwf e0 he0)
          have := hrange r hl e0 he0
          rw [h1, h2, hsd, hoff']
          omega)]
      simp only [List.nil_append, hfiles', payloadsOf, hl, List.map_map]
      apply List.map_congr_left
      intro e he
      obtain ⟨h1, h2⟩ := effectiveLength_storedIndex rev e (filesOf_fits cs hwf e he)
      simp only [Function.comp, h1, h2, hsd, hoff',
        take_drop_payload hB (hrange r hl e he)]
      cases rev <;> rfl

/-- C2: for a container made of a `DIDX` chunk and a `DATA` chunk (in either order,
byte-order switch off) whose index ranges all lie inside the `DATA` payload, and with
the report and every payload file openable, the run returns and writes, for each index
entry in on-disk order, one file named `<id>.wem` holding exactly the source bytes at
`[data_start + offset, data_start + offset + size)`; `data_start` is the recorded data
offset, just after the `DATA` header, where the payload begins. -/
theorem C2_extraction_round_trip (pad : Nat) (dataFirst dump : Bool) (env : Env)
    (entries : List Index) (payload : List Byte)
    (hfit : ∀ e ∈ entries, e.fits) (hn : 12 * entries.length < 4294967296)
    (hp : payload.length < 4294967296)
    (hin : ∀ e ∈ entries, e.offset + e.size ≤ payload.length)
    (hrep : dump = true → env.reportOpens = true)
    (hopen : ∀ e ∈ entries, env.wemOpens (wemName e.id) = true) :
    ∃ o, ExtractBnkFile pad (some (didxDataContainer dataFirst entries payload)) false dump env
          = some o
      ∧ o.wems = entries.map (fun e => (wemName e.id,
          ((didxDataContainer dataFirst entries payload).drop
            (dataStart dataFirst entries + e.offset)).take e.size))
      ∧ o.locals.data_offset = dataStart dataFirst entries
      ∧ ((didxDataContainer dataFirst entries payload).drop (dataStart dataFirst entries)).take
          payload.length = payload := by
  have key : ∀ cs : List Chunk, (cs = [.data payload, .didx entries]
        ∨ cs = [.didx entries, .data payload]) →
      ∀ q, lastDataAt cs 0 = some (q, payload) →
      ∃ o, ExtractBnkFile pad (some (containerBytes false cs)) false dump env = some o
        ∧ o.wems = entries.map (fun e => (wemName e.id,
            ((containerBytes false cs).drop (q + e.offset)).take e.size))
        ∧ o.locals.data_offset = q
        ∧ ((containerBytes false cs).drop q).take payload.length = payload := by
    intro cs hcs q hq
    have hwf : ∀ c ∈ cs, c.WF := by
      intro c hc
      rcases hcs with h | h <;> subst h <;> simp only [List.mem_cons, List.mem_singleton,
        List.not_mem_nil, or_false] at hc <;> rcases hc with h | h <;> subst h
      · exact hp
      · exact ⟨hn, hfit⟩
      · exact ⟨hn, hfit⟩
      · exact hp
    have hfo : filesOf cs = entries := by
      rcases hcs with h | h <;> subst h <;> simp [filesOf, Chunk.entries]
    obtain ⟨o, ho, hw, hoff⟩ := ExtractBnkFile_container pad false dump env cs hwf hrep
      (by rw [hfo]; exact hopen)
      (by
        intro r hr e he
        rw [hq] at hr; cases hr
        rw [hfo] at he
        exact hin e he)
    obtain ⟨B, hB, _, _⟩ := lastDataAt_bytes false cs 0 [] (q, payload) hwf rfl hq
    simp only [List.nil_append] at hB
    refine ⟨o, ho, ?_, ?_, ?_⟩
    · rw [hw]
      simp only [payloadsOf, hq, hfo, List.map_map]
      apply List.map_congr_left
      intro e he
      simp only [Function.comp, Bool.false_eq_true, if_false,
        take_drop_payload hB (hin e he)]
    · rw [hoff]; simp [dataOffsetOf, hq]
    · rw [hB]; simp
  unfold didxDataContainer dataStart
  cases dataFirst
  · simp only [Bool.false_eq_true, if_false]
    exact key _ (Or.inr rfl) _ (by
      simp [lastDataAt, Chunk.payloadLength])
  · simp only [if_true]
    exact key _ (Or.inl rfl) _ (by
      simp [lastDataAt, Chunk.payloadLength])

/-- C2 on the entry `{7, 0, 16}` and sixteen known bytes: the file `7.wem` holds exactly
those bytes. -/
theorem C2_extraction_round_trip_witness :
    ∃ o, ExtractBnkFile naturalPad (some (didxDataContainer false [⟨7, 0, 16⟩] c2Payload)) false
          false ⟨true, fun _ => true⟩ = some o
      ∧ o.wems = [("7.wem", c2Payload)] := by
  obtain ⟨o, ho, hw, _⟩ := C2_extraction_round_trip naturalPad false false ⟨true, fun _ => true⟩
    [⟨7, 0, 16⟩] c2Payload (by decide) (by decide) (by decide) (by decide) (by decide)
    (fun _ _ => rfl)
  exact ⟨o, ho, by rw [hw]; decide⟩

/-- C10 (counterexample): the byte-reversed container decoded with the switch on yields
the file `117440512.wem`, the native container decoded with the switch off yields
`7.wem`: the contents agree, the names do not. -/
theorem C10_byte_order_counterexample :
    (ExtractBnkFile naturalPad (some (containerBytes false c10Chunks)) false false
        ⟨true, fun _ => true⟩).map (fun o => o.wems) = some [("7.wem", c2Payload)]
    ∧ (ExtractBnkFile naturalPad (some (containerBytes true c10Chunks)) true false
        ⟨true, fun _ => true⟩).map (fun o => o.wems) = some [("117440512.wem", c2Payload)] := by
  decide

/-- C10 (amended): for a well-formed native-order container (chunks `BKHD`, `DIDX`,
`DATA`, also chunks without decoded content) whose index ranges lie inside the last
`DATA` payload, and its copy with every chunk-length field and every index-entry field
byte-reversed: decode and extraction of the copy with the switch on and of the original
with the switch off both return and write the same payload contents in the same order;
the original names each file after the entry id, the copy after the byte-reversed id. -/
theorem C10_byte_order_equivalence (pad : Nat) (dump : Bool) (env : Env) (cs : List Chunk)
    (hwf : ∀ c ∈ cs, c.WF) (hrep : dump = true → env.reportOpens = true)
    (hopen : ∀ e ∈ filesOf cs, env.wemOpens (wemName e.id) = true
      ∧ env.wemOpens (wemName (bswap32 e.id)) = true)
    (hrange : ∀ r, lastDataAt cs 0 = some r → ∀ e ∈ filesOf cs, e.offset + e.size ≤ r.2.length) :
    ∃ o o', ExtractBnkFile pad (some (containerBytes false cs)) false dump env = some o
      ∧ ExtractBnkFile pad (some (containerBytes true cs)) true dump env = some o'
      ∧ o.wems = (payloadsOf cs).map (fun p => (wemName p.1, p.2))
      ∧ o'.wems = (payloadsOf cs).map (fun p => (wemName (bswap32 p.1), p.2))
      ∧ o'.wems.map Prod.snd = o.wems.map Prod.snd := by
  obtain ⟨o, ho, hw, _⟩ := ExtractBnkFile_container pad false dump env cs hwf hrep
    (fun e he => (hopen e he).1) hrange
  obtain ⟨o', ho', hw', _⟩ := ExtractBnkFile_container pad true dump env cs hwf hrep
    (fun e he => (hopen e he).2) hrange
  refine ⟨o, o', ho, ho', by simpa using hw, by simpa using hw', ?_⟩
  rw [hw, hw']
  simp [List.map_map, Function.comp]

/-- C10 (amended) on `c10Chunks`: equal contents, names `wemName 7` and
`wemName (bswap32 7)`. -/
theorem C10_byte_order_equivalence_witness :
    ∃ o o', ExtractBnkFile naturalPad (some (containerBytes false c10Chunks)) false false
          ⟨true, fun _ => true⟩ = some o
      ∧ ExtractBnkFile naturalPad (some (containerBytes true c10Chunks)) true false
          ⟨true, fun _ => true⟩ = some o'
      ∧ o.wems = [(wemName 7, c2Payload)]
      ∧ o'.wems = [(wemName (bswap32 7), c2Payload)] := by
  obtain ⟨o, o', ho, ho', hw, hw', _⟩ := C10_byte_order_equivalence naturalPad false
    ⟨true, fun _ => true⟩ c10Chunks (by decide) (by decide) (fun _ _ => ⟨rfl, rfl⟩)
    (by
      intro r hr e he
      have h1 : lastDataAt c10Chunks 0 = some (44, c2Payload) := by decide
      have h2 : filesOf c10Chunks = [⟨7, 0, 16⟩] := by decide
      rw [h1] at hr
      cases hr
      rw [h2, List.mem_singleton] at he
      subst he
      decide)
  exact ⟨o, o', ho, ho', by rw [hw]; decide, by rw [hw']; decide⟩

/-! ## Inserting a chunk without decoded content into a container without `HIRC` chunk -/

theorem lastDataAt_shift : ∀ (cs : List Chunk) (p d : Nat),
    lastDataAt cs (p + d) = (lastDataAt cs p).map (fun r => (r.1 + d, r.2)) := by
  intro cs
  induction cs with
  | nil => intro p d; rfl
  | cons c cs ih =>
    intro p d
    simp only [lastDataAt]
    have e : p + d + (8 + c.payloadLength) = p + (8 + c.payloadLength) + d := by omega
    rw [e, ih]
    cases lastDataAt cs (p + (8 + c.payloadLength)) with
    | some r => rfl
    | none =>
      cases c with
      | data pl => simp only [Option.map_none', Option.map_some']; congr 2; omega
      | bkhd v i x => rfl
      | didx es => rfl
      | other sg pl => rfl

theorem lastDataAt_cons (c : Chunk) (cs : List Chunk) (p : Nat) :
    lastDataAt (c :: cs) p
      = match lastDataAt cs (p + (8 + c.payloadLength)) with
        | some r => some r
        | none =>
          match c with
          | .data payload => some (p + 8, payload)
          | _ => none := rfl

theorem lastDataAt_append : ∀ (cs1 cs2 : List Chunk) (p : Nat),
    lastDataAt (cs1 ++ cs2) p
      = match lastDataAt cs2 (p + containerSize cs1) with
        | some r => some r
        | none => lastDataAt cs1 p := by
  intro cs1
  induction cs1 with
  | nil =>
    intro cs2 p
    simp only [List.nil_append, containerSize, Nat.add_zero, lastDataAt]
    cases lastDataAt cs2 p <;> rfl
  | cons c cs ih =>
    intro cs2 p
    have e : p + (8 + c.payloadLength) + containerSize cs
        = p + containerSize (c :: cs) := by simp only [containerSize]; omega
    rw [List.cons_append, lastDataAt_cons, ih, e, lastDataAt_cons]
    cases lastDataAt cs2 (p + containerSize (c :: cs)) <;> rfl

theorem filesOf_append (cs1 cs2 : List Chunk) :
    filesOf (cs1 ++ cs2) = filesOf cs1 ++ filesOf cs2 := by
  induction cs1 with
  | nil => rfl
  | cons c cs ih => simp [filesOf, ih]

theorem lastBank_append : ∀ (cs1 cs2 : List Chunk) (b : BankHeader),
    lastBank (cs1 ++ cs2) b = lastBank cs2 (lastBank cs1 b) := by
  intro cs1
  induction cs1 with
  | nil => intro cs2 b; rfl
  | cons c cs ih =>
    intro cs2 b
    rw [List.cons_append, lastBank_cons, ih, lastBank_cons c cs]

/-- The decode pass on a well-formed container without `HIRC` chunk, byte-order switch
off: it returns, with the index sequence, data offset and bank header the container
describes and with the object list and both object maps empty. -/
theorem decodePass_container (pad : Nat) (cs : List Chunk) (hwf : ∀ c ∈ cs, c.WF) :
    ∃ lv s, decodePass pad false (containerBytes false cs) = some (lv, s)
      ∧ lv.files = filesOf cs ∧ lv.data_offset = dataOffsetOf cs 0 0
      ∧ lv.bank_header = lastBank cs ⟨0, 0⟩ ∧ lv.objects = [] ∧ lv.event_objects = []
      ∧ lv.event_action_objects = [] := by
  obtain ⟨lv, s, hloop, _, h1, h2, h3, h4, h5, h6⟩ := chunkLoop_container pad false cs
    ((containerBytes false cs).length + 1) Locals.init ⟨containerBytes false cs, 0, false⟩ hwf rfl
    rfl (by have := length_containerBytes_ge false cs; omega)
  refine ⟨lv, clear s, by unfold decodePass; rw [hloop]; rfl, ?_, h2, h3, h4, h5, h6⟩
  rw [h1]
  have hid : storedIndex false = id := by funext e; rfl
  rw [hid, List.map_id]
  rfl

/-- Transparency of a chunk without decoded content (`STID` or unknown signature), for
containers without `HIRC` chunk: inserting the chunk between the chunks `cs1` and the
chunks `cs2` leaves the decoded bank header, index sequence, object list and object maps
unchanged, moves the data offset by the size of the inserted chunk exactly when the last
`DATA` chunk comes after it, and leaves the payloads the container describes unchanged. -/
theorem unknown_chunk_transparent (pad : Nat) (cs1 cs2 : List Chunk) (sign payload : List Byte)
    (hwf1 : ∀ c ∈ cs1, c.WF) (hwf2 : ∀ c ∈ cs2, c.WF) (hx : (Chunk.other sign payload).WF) :
    ∃ lv s lv' s', decodePass pad false (containerBytes false (cs1 ++ cs2)) = some (lv, s)
      ∧ decodePass pad false (containerBytes false (cs1 ++ Chunk.other sign payload :: cs2))
          = some (lv', s')
      ∧ lv'.bank_header = lv.bank_header ∧ lv'.files = lv.files ∧ lv'.objects = lv.objects
      ∧ lv'.event_objects = lv.event_objects
      ∧ lv'.event_action_objects = lv.event_action_objects
      ∧ lv'.data_offset = lv.data_offset
          + (if (lastDataAt cs2 0).isSome then 8 + payload.length else 0)
      ∧ payloadsOf (cs1 ++ Chunk.other sign payload :: cs2) = payloadsOf (cs1 ++ cs2) := by
  have hwfa : ∀ c ∈ cs1 ++ cs2, c.WF := by
    intro c hc
    rcases List.mem_append.mp hc with h | h
    · exact hwf1 c h
    · exact hwf2 c h
  have hwfb : ∀ c ∈ cs1 ++ Chunk.other sign payload :: cs2, c.WF := by
    intro c hc
    rcases List.mem_append.mp hc with h | h
    · exact hwf1 c h
    · rcases List.mem_cons.mp h with h | h
      · subst h; exact hx
      · exact hwf2 c h
  obtain ⟨lv, s, hd, a1, a2, a3, a4, a5, a6⟩ := decodePass_container pad _ hwfa
  obtain ⟨lv', s', hd', b1, b2, b3, b4, b5, b6⟩ := decodePass_container pad _ hwfb
  have hfiles : filesOf (cs1 ++ Chunk.other sign payload :: cs2) = filesOf (cs1 ++ cs2) := by
    simp [filesOf_append, filesOf, Chunk.entries]
  have hbank : lastBank (cs1 ++ Chunk.other sign payload :: cs2) ⟨0, 0⟩
      = lastBank (cs1 ++ cs2) ⟨0, 0⟩ := by
    simp [lastBank_append, lastBank]
  have hx2 : ∀ q, lastDataAt (Chunk.other sign payload :: cs2) q
      = (lastDataAt cs2 q).map (fun r => (r.1 + (8 + payload.length), r.2)) := by
    intro q
    simp only [lastDataAt, Chunk.payloadLength, lastDataAt_shift]
    cases lastDataAt cs2 q <;> rfl
  have hlast : lastDataAt (cs1 ++ Chunk.other sign payload :: cs2) 0
      = match lastDataAt cs2 (0 + containerSize cs1) with
        | some r => some (r.1 + (8 + payload.length), r.2)
        | none => lastDataAt cs1 0 := by
    rw [lastDataAt_append, hx2]
    cases lastDataAt cs2 (0 + containerSize cs1) <;> rfl
  have hsome : (lastDataAt cs2 (0 + containerSize cs1)).isSome = (lastDataAt cs2 0).isSome := by
    rw [lastDataAt_shift]; cases lastDataAt cs2 0 <;> rfl
  refine ⟨lv, s, lv', s', hd, hd', by rw [b3, a3, hbank], by rw [b1, a1, hfiles],
    by rw [b4, a4], by rw [b5, a5], by rw [b6, a6], ?_, ?_⟩
  · rw [b2, a2]
    unfold dataOffsetOf
    rw [hlast, lastDataAt_append, ← hsome]
    cases lastDataAt cs2 (0 + containerSize cs1) with
    | some r => simp
    | none => simp
  · unfold payloadsOf
    rw [hlast, lastDataAt_append, hfiles]
    cases lastDataAt cs2 (0 + containerSize cs1) <;> rfl

set_option maxRecDepth 100000 in
/-- C6 (defect): inserting the unknown chunk `c6Unknown` between the `HIRC` chunk and the
`DIDX` chunk changes the decoded object list, the decoded index sequence and the payload
files written: the hierarchy decoder reads past the end of its chunk, so what it decodes
depends on the bytes that follow the chunk.  The last two equations show the same for a
packed `struct Object` (`pad = 0`), where only the object list changes. -/
theorem C6_unknown_chunk_not_transparent :
    c6Unknown.WF
    ∧ (decodePass naturalPad false (c6Head ++ c6Tail)).map (fun r => (r.1.objects, r.1.files))
        = some ([⟨4, 256, 327936⟩, ⟨0, 0, 0⟩], [])
    ∧ (decodePass naturalPad false (c6Head ++ c6Unknown.bytes false ++ c6Tail)).map
          (fun r => (r.1.objects, r.1.files))
        = some ([⟨4, 256, 327936⟩, ⟨9, 151587081, 151587081⟩], [⟨7, 0, 4⟩])
    ∧ (ExtractBnkFile naturalPad (some (c6Head ++ c6Tail)) false false
          ⟨true, fun _ => true⟩).map (fun o => o.wems) = some []
    ∧ (ExtractBnkFile naturalPad (some (c6Head ++ c6Unknown.bytes false ++ c6Tail)) false false
          ⟨true, fun _ => true⟩).map (fun o => o.wems) = some [("7.wem", [1, 2, 3, 4])]
    ∧ (decodePass 0 false (c6Head ++ c6Tail)).map (fun r => r.1.objects)
        = some [⟨4, 9, 1⟩, ⟨2, 1140850688, 207111241⟩]
    ∧ (decodePass 0 false (c6Head ++ c6Unknown.bytes false ++ c6Tail)).map (fun r => r.1.objects)
        = some [⟨4, 9, 1⟩, ⟨2, 1476395008, 743987288⟩] := by
  decide

/-! ## The claims about the extraction pass, the report and termination -/

/-- C20: for every 32-bit value `x`, the value stored back into a `std::uint32_t` from
`Swap32(x)` has the bytes of `x` in reversed order; swapping twice gives `x` again; the
`int` that `Swap32` returns is negative exactly when the low byte of `x` has its top bit
set, and the stored value is still the reversed 32-bit value then. -/
theorem C20_Swap32_involution (x : Nat) (h : x < 4294967296) :
    u32Bytes (toU32 (Swap32 x)) = (u32Bytes x).reverse
    ∧ toU32 (Swap32 (toU32 (Swap32 x))) = x
    ∧ toU32 (Swap32 x) = bswap32 x
    ∧ (Swap32 x < 0 ↔ 128 ≤ x % 256) := by
  refine ⟨?_, ?_, toU32_Swap32 x, ?_⟩
  · rw [toU32_Swap32]
    have := u32Field_eq true x
    simp only [u32Field, if_true] at this
    exact this.symm
  · rw [toU32_Swap32, toU32_Swap32, bswap32_bswap32 x h]
  · have hb := bswap32_bytes x
    unfold Swap32
    split <;> omega

/-- C20 at `x = 0x00000080`, whose reversed form `0x80000000` has the top bit set. -/
theorem C20_Swap32_involution_witness :
    Swap32 128 = -2147483648
    ∧ u32Bytes (toU32 (Swap32 128)) = [0, 0, 0, 128]
    ∧ toU32 (Swap32 (toU32 (Swap32 128))) = 128 :=
  ⟨by decide, (C20_Swap32_involution 128 (by decide)).1, (C20_Swap32_involution 128 (by decide)).2.1⟩

/-- C14, counterexample: on the container of one index entry `{7, 0, 16}` and sixteen
data bytes, with the report switch on and `objects.txt` not openable, the run writes no
payload file; with the report switch off it writes `7.wem`. -/
theorem C14_report_failure_counterexample :
    (ExtractBnkFile naturalPad (some (didxDataContainer false [⟨7, 0, 16⟩] c2Payload)) false true
        ⟨false, fun _ => true⟩).map (fun o => (o.reportWritten, o.wems)) = some (false, [])
    ∧ (ExtractBnkFile naturalPad (some (didxDataContainer false [⟨7, 0, 16⟩] c2Payload)) false
        false ⟨false, fun _ => true⟩).map (fun o => (o.reportWritten, o.wems))
        = some (false, [("7.wem", c2Payload)]) := by
  decide

theorem chunkLoop_succ (pad : Nat) (swap : Bool) (fuel : Nat) (lv : Locals) (s : IStream) :
    chunkLoop pad swap (fuel + 1) lv s
      = if (ReadContent s lv.content_section.toMem).1 = true then
          (chunkBody pad swap
            { lv with content_section := Section.ofMem (ReadContent s lv.content_section.toMem).2.1 }
            (ReadContent s lv.content_section.toMem).2.2).bind
            (fun r => chunkLoop pad swap fuel r.1 r.2)
        else some ({ lv with
            content_section := Section.ofMem (ReadContent s lv.content_section.toMem).2.1 },
          (ReadContent s lv.content_section.toMem).2.2) := by
  conv_lhs => unfold chunkLoop
  dsimp only
  split
  · cases chunkBody pad swap
      { lv with content_section := Section.ofMem (ReadContent s lv.content_section.toMem).2.1 }
      (ReadContent s lv.content_section.toMem).2.2 <;> rfl
  · rfl

theorem ExtractBnkFile_of_decodePass_none (pad : Nat) (data : List Byte) (swap dump : Bool)
    (env : Env) (h : decodePass pad swap data = none) :
    ExtractBnkFile pad (some data) swap dump env = none := by
  unfold ExtractBnkFile
  simp only [h]

/-- C15 (defect): on `c15File` the `DIDX` loop, entered with `size = 2^32 - 3`, does not
end for any amount of fuel: its counter takes only multiples of 4 below `2^32`, all
below `size`.  So neither the chunk loop nor the run returns. -/
theorem C15_didx_loop_never_ends :
    (∀ fuel, didxLoop fuel 0 4294967293 ⟨c15File, 8, false⟩ ⟨0, 0, 0⟩ [] = none)
    ∧ (∀ fuel, chunkLoop naturalPad false (fuel + 1) Locals.init ⟨c15File, 0, false⟩ = none)
    ∧ decodePass naturalPad false c15File = none
    ∧ ∀ dump env, ExtractBnkFile naturalPad (some c15File) false dump env = none := by
  have h1 : ∀ fuel, didxLoop fuel 0 4294967293 ⟨c15File, 8, false⟩ ⟨0, 0, 0⟩ [] = none :=
    fun fuel => didxLoop_never 4294967293 (by decide) fuel 0 _ _ _ (by decide) (by decide)
  have hr : ReadContent ⟨c15File, 0, false⟩ Locals.init.content_section.toMem
      = (true, c15File, ⟨c15File, 8, false⟩) := by decide
  have hs : Section.ofMem c15File = ⟨sigDIDX, 4294967293⟩ := by decide
  have hb : chunkBody naturalPad false
      { Locals.init with content_section := ⟨sigDIDX, 4294967293⟩ } ⟨c15File, 8, false⟩
      = none := by
    have hsig : Compare ({ Locals.init with
        content_section := ⟨sigDIDX, 4294967293⟩ } : Locals).content_section.sign sigDIDX
        = true := by decide
    rw [chunkBody_didx naturalPad false _ _ hsig]
    simp only [effectiveLength, Bool.false_eq_true, if_false, Locals.init, h1, Option.map_none']
  have h2 : ∀ fuel, chunkLoop naturalPad false (fuel + 1) Locals.init ⟨c15File, 0, false⟩
      = none := by
    intro fuel
    rw [chunkLoop_succ, hr]
    simp only [if_true, hs, hb, Option.none_bind]
  have h3 : decodePass naturalPad false c15File = none := by
    unfold decodePass
    rw [h2]; rfl
  exact ⟨h1, h2, h3, fun dump env => ExtractBnkFile_of_decodePass_none _ _ _ _ _ h3⟩

theorem leNat_zeros (n : Nat) : leNat (zeros n) = 0 := by
  induction n with
  | zero => rfl
  | succ n ih =>
    have : zeros (n + 1) = (0 : Byte) :: zeros n := rfl
    rw [this, leNat, ih]; rfl

theorem field_zeros (n off len : Nat) : field (zeros n) off len = 0 := by
  unfold field zeros
  rw [List.drop_replicate, List.take_replicate]
  exact leNat_zeros _

theorem Object_ofMem_zeros (pad n : Nat) : Object.ofMem pad (zeros n) = ⟨0, 0, 0⟩ := by
  simp only [Object.ofMem, field_zeros]
  rfl

theorem ReadContent_of_fail (s : IStream) (mem : List Byte) (hf : s.fail = true) :
    ReadContent s mem = (false, mem, s) := by
  simp [ReadContent, hf]

theorem seekgCur_of_fail (s : IStream) (off : Int) (hf : s.fail = true) : seekgCur s off = s := by
  simp [seekgCur, hf]

theorem hircObject_of_fail (pad : Nat) (lv : Locals) (s : IStream) (hf : s.fail = true) :
    hircObject pad lv s = ({ lv with objects := lv.objects ++ [⟨0, 0, 0⟩] }, s) := by
  unfold hircObject
  simp only [ReadContent_of_fail s _ hf, Object_ofMem_zeros, seekgCur_of_fail s _ hf]
  have h1 : ¬ ((0 : Int) = ObjectType.Event) := by decide
  have h2 : ¬ ((0 : Int) = ObjectType.EventAction) := by decide
  simp only [h1, h2, if_false, seekgCur_of_fail s _ hf]

theorem hircLoop_of_fail (pad : Nat) : ∀ (n : Nat) (lv : Locals) (s : IStream), s.fail = true →
    hircLoop pad n lv s = ({ lv with objects := lv.objects ++ List.replicate n ⟨0, 0, 0⟩ }, s) := by
  intro n
  induction n with
  | zero => intro lv s _; simp [hircLoop]
  | succ n ih =>
    intro lv s hf
    simp only [hircLoop, hircObject_of_fail pad lv s hf, ih _ s hf, List.append_assoc,
      List.replicate_succ, List.singleton_append]

theorem hircLoop_objects_length (pad : Nat) : ∀ (n : Nat) (lv : Locals) (s : IStream),
    (hircLoop pad n lv s).1.objects.length = lv.objects.length + n := by
  intro n
  induction n with
  | zero => intro lv s; rfl
  | succ n ih =>
    intro lv s
    simp only [hircLoop, ih]
    have : (hircObject pad lv s).1.objects.length = lv.objects.length + 1 := by
      unfold hircObject
      dsimp only
      split
      · simp
      · split <;> simp
    omega

/-- C13 (counterexample): a `HIRC` chunk that declares five objects and is followed at
once by the end of the input yields five object headers, not an empty object list. -/
theorem C13_truncated_hirc_counterexample :
    (decodePass naturalPad false c13File).map (fun r => r.1.objects)
      = some (List.replicate 5 ⟨0, 0, 0⟩)
    ∧ List.replicate 5 (⟨0, 0, 0⟩ : Object) ≠ [] := by
  decide

/-- C13 (amended): the object loop always appends `object_count` headers, truncated
input or not.  Once a read has failed (the stream has `failbit` set), the rest of the
object loop reads nothing: it appends the header `{0, 0, 0}` for every remaining record,
inserts no map entry and leaves the stream as it is; and the chunk loop then ends at
its next header read. -/
theorem C13_truncation_keeps_object_loop (pad n : Nat) (lv : Locals) (s : IStream)
    (hf : s.fail = true) :
    hircLoop pad n lv s = ({ lv with objects := lv.objects ++ List.replicate n ⟨0, 0, 0⟩ }, s)
    ∧ (∀ (lv0 : Locals) (s0 : IStream) (m : Nat),
        (hircLoop pad m lv0 s0).1.objects.length = lv0.objects.length + m)
    ∧ ∀ (swap : Bool) (fuel : Nat), ∃ sec,
        chunkLoop pad swap (fuel + 1) lv s = some ({ lv with content_section := sec }, s) := by
  refine ⟨hircLoop_of_fail pad n lv s hf, fun lv0 s0 m => hircLoop_objects_length pad m lv0 s0, ?_⟩
  intro swap fuel
  rw [chunkLoop_succ, ReadContent_of_fail s _ hf]
  exact ⟨Section.ofMem lv.content_section.toMem, by simp⟩

/-- C13 (amended) on the stream that has just failed on `c13File`. -/
theorem C13_truncation_keeps_object_loop_witness :
    hircLoop naturalPad 5 Locals.init ⟨c13File, 12, true⟩
      = ({ Locals.init with objects := List.replicate 5 ⟨0, 0, 0⟩ }, ⟨c13File, 12, true⟩) :=
  (C13_truncation_keeps_object_loop naturalPad 5 Locals.init ⟨c13File, 12, true⟩ rfl).1

/-- C11 (counterexample): on `c11File` the entry `{7, 0, 16}` has its range
`[28, 44)` past the end of the 32-byte source; extraction writes a sixteen-byte
`7.wem` whose last twelve bytes are zeros that were not read from the source. -/
theorem C11_out_of_range_counterexample :
    c11File.length = 32 ∧ 32 < 28 + 0 + 16
    ∧ (ExtractBnkFile naturalPad (some c11File) false false ⟨true, fun _ => true⟩).map
        (fun o => (o.locals.data_offset, o.wems))
      = some (28, [("7.wem", [1, 2, 3, 4, 0, 0, 0, 0, 0, 0, 0, 0, 0, 0, 0, 0])]) := by
  decide

/-- C11 (amended): for an index entry of nonzero effective size whose range extends past
the end of the source and whose output file opens, the extraction loop makes no check:
it writes a payload of exactly `size` bytes, made of the source bytes from
`data_start + offset` to the end of the source (none when the stream has already failed)
followed by zero bytes, at least one of them, and goes on with the stream failed. -/
theorem C11_out_of_range_zero_filled (swap : Bool) (env : Env) (off : Nat) (e : Index)
    (rest : List Index) (s : IStream) (done : List Index) (out : List (String × List Byte))
    (hopen : env.wemOpens (wemName e.id) = true)
    (hsize : 0 < effectiveLength swap e.size)
    (hpast : s.data.length
      < off + effectiveLength swap e.offset + effectiveLength swap e.size) :
    ∃ got s', extractLoop swap env off (e :: rest) s done out
        = extractLoop swap env off rest s'
            (done ++ [⟨e.id, effectiveLength swap e.offset, effectiveLength swap e.size⟩])
            (out ++ [(wemName e.id, got ++ zeros (effectiveLength swap e.size - got.length))])
      ∧ got = (if s.fail then []
          else (s.data.drop (off + effectiveLength swap e.offset)).take
            (effectiveLength swap e.size))
      ∧ got.length < effectiveLength swap e.size
      ∧ (got ++ zeros (effectiveLength swap e.size - got.length)).length
          = effectiveLength swap e.size
      ∧ s'.fail = true := by
  conv => enter [1, got, 1, s', 1, 1]; unfold extractLoop
  simp only [effLength_eq, hopen, if_true]
  cases hf : s.fail
  · have hseek : seekgAbs s (off + effectiveLength swap e.offset)
        = ⟨s.data, off + effectiveLength swap e.offset, false⟩ := by simp [seekgAbs, hf]
    have hlen : ((s.data.drop (off + effectiveLength swap e.offset)).take
        (effectiveLength swap e.size)).length < effectiveLength swap e.size := by
      rw [List.length_take, List.length_drop]; omega
    have hread : ReadContent ⟨s.data, off + effectiveLength swap e.offset, false⟩
        (zeros (effectiveLength swap e.size))
        = (false, (s.data.drop (off + effectiveLength swap e.offset)).take
              (effectiveLength swap e.size)
            ++ zeros (effectiveLength swap e.size
              - ((s.data.drop (off + effectiveLength swap e.offset)).take
                  (effectiveLength swap e.size)).length),
           ⟨s.data, off + effectiveLength swap e.offset
              + ((s.data.drop (off + effectiveLength swap e.offset)).take
                  (effectiveLength swap e.size)).length, true⟩) := by
      unfold ReadContent
      have hne : ¬ (((s.data.drop (off + effectiveLength swap e.offset)).take
          (zeros (effectiveLength swap e.size)).length).length
          = (zeros (effectiveLength swap e.size)).length) := by
        rw [length_zeros]; omega
      simp only [Bool.false_eq_true, if_false, hne, length_zeros]
      simp only [zeros, List.drop_replicate]
      exact if_neg (Nat.ne_of_lt hlen)
    rw [hseek, hread]
    refine ⟨_, _, rfl, by simp, hlen, ?_, rfl⟩
    rw [List.length_append, length_zeros]; omega
  · have hseek : seekgAbs s (off + effectiveLength swap e.offset) = s := by simp [seekgAbs, hf]
    rw [hseek, ReadContent_of_fail s _ hf]
    exact ⟨[], s, by simp, by simp, by simpa using hsize, by simp [length_zeros], hf⟩

/-- C11 (amended) on the extraction of `c11File`: four source bytes, twelve zeros. -/
theorem C11_out_of_range_zero_filled_witness :
    ∃ got s', extractLoop false ⟨true, fun _ => true⟩ 28 [⟨7, 0, 16⟩] ⟨c11File, 32, false⟩ [] []
        = extractLoop false ⟨true, fun _ => true⟩ 28 [] s' ([] ++ [⟨7, 0, 16⟩])
            ([] ++ [(wemName 7, got ++ zeros (16 - got.length))])
      ∧ got = [1, 2, 3, 4] ∧ s'.fail = true := by
  obtain ⟨got, s', h1, h2, _, _, h5⟩ := C11_out_of_range_zero_filled false ⟨true, fun _ => true⟩
    28 ⟨7, 0, 16⟩ [] ⟨c11File, 32, false⟩ [] [] rfl (by decide) (by decide)
  exact ⟨got, s', h1, by rw [h2]; decide, h5⟩

/-- C12 (defect): on `c12File` the first entry's range runs past the end of the source
and the second entry's range is the four data bytes `01 02 03 04`; the run writes
`2.wem` with four zero bytes.  When instead the first entry's file cannot be opened,
`2.wem` holds the four data bytes. -/
theorem C12_failed_read_poisons_later_entries :
    (ExtractBnkFile naturalPad (some c12File) false false ⟨true, fun _ => true⟩).map
        (fun o => o.wems)
      = some [("1.wem", [1, 2, 3, 4] ++ zeros 96), ("2.wem", [0, 0, 0, 0])]
    ∧ (c12File.drop (40 + 0)).take 4 = [1, 2, 3, 4]
    ∧ (ExtractBnkFile naturalPad (some c12File) false false
          ⟨true, fun name => name != "1.wem"⟩).map (fun o => o.wems)
      = some [("2.wem", [1, 2, 3, 4])] := by
  decide

/-- C17 (defect): with the padding of natural alignment `sizeof(Object)` is 12, not
`1 + 4 + 4`.  On `c17File`, whose object header occupies the nine bytes at offsets
12..20, the header read consumes the twelve bytes at offsets 12..23 and takes `size`
from bytes 4-7 and `id` from bytes 8-11 of them, so the object `{2, 4, 2}` is decoded as
`{2, 512, 3434850816}`.  For any padding the read consumes `1 + pad + 4 + 4` bytes. -/
theorem C17_object_header_reads_twelve_bytes :
    sizeofObject naturalPad = 12
    ∧ (ReadContent ⟨c17File, 12, false⟩ (zeros (sizeofObject naturalPad))).2.2
        = ⟨c17File, 24, false⟩
    ∧ (ReadContent ⟨c17File, 12, false⟩ (zeros (sizeofObject naturalPad))).2.1
        = [2, 4, 0, 0, 0, 2, 0, 0, 0, 0xAA, 0xBB, 0xCC]
    ∧ (decodePass naturalPad false c17File).map (fun r => r.1.objects)
        = some [⟨2, 512, 3434850816⟩]
    ∧ (decodePass 0 false c17File).map (fun r => r.1.objects) = some [⟨2, 4, 2⟩]
    ∧ ∀ (pad : Nat) (s : IStream),
        (ReadContent s (zeros (sizeofObject pad))).1 = true →
        (ReadContent s (zeros (sizeofObject pad))).2.2.pos = s.pos + (1 + pad + 4 + 4) := by
  refine ⟨by decide, by decide, by decide, by decide, by decide, ?_⟩
  intro pad s h
  have := (ReadContent_pos_of_true s _ h).1
  rwa [length_zeros] at this

theorem lastDataPos_append (log : List (Nat × Section)) (d : Nat × Section) :
    lastDataPos (log ++ [d])
      = if Compare d.2.sign sigDATA then d.1 else lastDataPos log := by
  simp [lastDataPos, List.foldl_append]

theorem lastDataPos_eq_zero_of_none : ∀ (log : List (Nat × Section)),
    (∀ d ∈ log, Compare d.2.sign sigDATA = false) → lastDataPos log = 0 := by
  intro log
  induction log using List.reverseRecOn with
  | nil => intro _; rfl
  | append_singleton l d ih =>
    intro h
    rw [lastDataPos_append, h d (by simp)]
    simpa using ih (fun x hx => h x (List.mem_append_left _ hx))

theorem lastDataPos_last : ∀ (post pre : List (Nat × Section)) (d : Nat × Section),
    Compare d.2.sign sigDATA = true → (∀ x ∈ post, Compare x.2.sign sigDATA = false) →
    lastDataPos (pre ++ d :: post) = d.1 := by
  intro post
  induction post using List.reverseRecOn with
  | nil =>
    intro pre d hd _
    rw [lastDataPos_append, hd]; rfl
  | append_singleton l x ih =>
    intro pre d hd h
    have e : pre ++ d :: (l ++ [x]) = (pre ++ d :: l) ++ [x] := by simp
    rw [e, lastDataPos_append, h x (by simp)]
    simpa using ih pre d hd (fun y hy => h y (List.mem_append_left _ hy))

theorem chunkBody_log (pad : Nat) (swap : Bool) (lv : Locals) (s : IStream)
    (r : Locals × IStream) (hr : chunkBody pad swap lv s = some r) :
    r.1.dispatched = lv.dispatched
        ++ [(tellg s, ⟨lv.content_section.sign, effectiveLength swap lv.content_section.size⟩)]
    ∧ r.1.data_offset
        = if Compare lv.content_section.sign sigDATA then tellg s else lv.data_offset := by
  unfold chunkBody at hr
  simp only [Option.map_eq_some', effLength_eq] at hr
  obtain ⟨r', hr', rfl⟩ := hr
  dsimp only
  split at hr'
  · rename_i h1
    have hd : Compare lv.content_section.sign sigDATA = false :=
      Compare_of_other h1 rfl (by decide)
    cases hr'
    simp [hd]
  · split at hr'
    · rename_i h2
      have hd : Compare lv.content_section.sign sigDATA = false :=
        Compare_of_other h2 rfl (by decide)
      simp only [Option.map_eq_some'] at hr'
      obtain ⟨d, _, rfl⟩ := hr'
      simp [hd]
    · split at hr'
      · rename_i h3
        have hd : Compare lv.content_section.sign sigDATA = false :=
          Compare_of_other h3 rfl (by decide)
        cases hr'
        simp [hd]
      · split at hr'
        · rename_i h4
          cases hr'
          simp [h4]
        · rename_i h4
          split at hr'
          · cases hr'
            obtain ⟨a1, a2, _, _, _⟩ := hircLoop_frame pad
              (leNat (ReadContent s (zeros 4)).2.1)
              { lv with
                content_section := ⟨lv.content_section.sign,
                  effectiveLength swap lv.content_section.size⟩,
                dispatched := lv.dispatched ++ [(tellg s, ⟨lv.content_section.sign,
                  effectiveLength swap lv.content_section.size⟩)] }
              (ReadContent s (zeros 4)).2.2
            simp only [decodeHIRC, a1, a2]
            simp [h4]
          · cases hr'
            simp [h4]

theorem ReadContent_value_of_true (s : IStream) (mem : List Byte)
    (h : (ReadContent s mem).1 = true) :
    (ReadContent s mem).2.1 = (s.data.drop s.pos).take mem.length := by
  unfold ReadContent at h ⊢
  by_cases hf : s.fail = true
  · simp [hf] at h
  · by_cases hl : mem.length ≤ s.data.length - s.pos
    · simp [hf, hl]
    · simp [hf, hl] at h

theorem LogInv_congr {data : List Byte} {lv lv' : Locals}
    (h1 : lv'.dispatched = lv.dispatched) (h2 : lv'.data_offset = lv.data_offset)
    (h : LogInv data lv) : LogInv data lv' := by
  unfold LogInv at h ⊢
  rw [h1, h2]; exact h

theorem chunkLoop_logInv (pad : Nat) (swap : Bool) : ∀ (fuel : Nat) (lv : Locals) (s : IStream)
    (r : Locals × IStream), LogInv s.data lv → chunkLoop pad swap fuel lv s = some r →
    LogInv s.data r.1 := by
  intro fuel
  induction fuel with
  | zero => intro lv s r _ hr; simp [chunkLoop] at hr
  | succ n ih =>
    intro lv s r h hr
    rw [chunkLoop_succ] at hr
    cases hrd : (ReadContent s lv.content_section.toMem).1
    · simp only [hrd, Bool.false_eq_true, if_false, Option.some.injEq] at hr
      subst hr
      exact LogInv_congr rfl rfl h
    · simp only [hrd, if_true, Option.bind_eq_some] at hr
      obtain ⟨r', hb, hloop⟩ := hr
      obtain ⟨hpos, hfl, _⟩ := ReadContent_pos_of_true s _ hrd
      rw [length_Section_toMem] at hpos
      have hval := ReadContent_value_of_true s _ hrd
      rw [length_Section_toMem] at hval
      have ht : tellg (ReadContent s lv.content_section.toMem).2.2 = s.pos + 8 := by
        simp [tellg, hfl, hpos]
      obtain ⟨hlog, hoff⟩ := chunkBody_log pad swap _ _ r' hb
      obtain ⟨hdata, _⟩ := chunkBody_data pad swap _ _ r' hb
      rw [ReadContent_data] at hdata
      rw [ht] at hlog hoff
      have hinv : LogInv s.data r'.1 := by
        constructor
        · intro d hd
          rw [hlog] at hd
          rcases List.mem_append.mp hd with hd | hd
          · exact h.1 d hd
          · rw [List.mem_singleton] at hd
            subst hd
            refine ⟨by simp, ?_⟩
            simp only [Section.ofMem, hval, Nat.add_sub_cancel, List.take_take]
            rfl
        · rw [hoff, hlog, lastDataPos_append, h.2]
      have := ih r'.1 r'.2 r (by rw [hdata]; exact hinv) hloop
      rwa [hdata] at this

/-- C18: after the decode pass every logged `section_pos` is at least 8 and stands
just after the eight header bytes that begin with the logged signature; the recorded
data offset is the `section_pos` of the last dispatched chunk with the `DATA`
signature; and so it is 0 if and only if no such chunk was dispatched. -/
theorem C18_data_offset_sentinel (pad : Nat) (swap : Bool) (bnk : List Byte) (lv : Locals)
    (s : IStream) (hdec : decodePass pad swap bnk = some (lv, s)) :
    (∀ d ∈ lv.dispatched, 8 ≤ d.1 ∧ (bnk.drop (d.1 - 8)).take 4 = d.2.sign)
    ∧ lv.data_offset = lastDataPos lv.dispatched
    ∧ (lv.data_offset = 0 ↔ ∀ d ∈ lv.dispatched, Compare d.2.sign sigDATA = false)
    ∧ (∀ pre d post, lv.dispatched = pre ++ d :: post → Compare d.2.sign sigDATA = true →
        (∀ x ∈ post, Compare x.2.sign sigDATA = false) → lv.data_offset = d.1 ∧ 8 ≤ d.1) := by
  have hinv : LogInv bnk lv := by
    unfold decodePass at hdec
    simp only [Option.map_eq_some'] at hdec
    obtain ⟨r', hr', hrr⟩ := hdec
    have h0 : LogInv bnk Locals.init := by
      constructor
      · intro d hd; simp [Locals.init] at hd
      · rfl
    have := chunkLoop_logInv pad swap _ _ ⟨bnk, 0, false⟩ r' h0 hr'
    cases hrr
    exact this
  have hlast : ∀ pre d post, lv.dispatched = pre ++ d :: post →
      Compare d.2.sign sigDATA = true → (∀ x ∈ post, Compare x.2.sign sigDATA = false) →
      lv.data_offset = d.1 ∧ 8 ≤ d.1 := by
    intro pre d post he hd hpost
    refine ⟨?_, (hinv.1 d (by rw [he]; simp)).1⟩
    rw [hinv.2, he]
    exact lastDataPos_last post pre d hd hpost
  refine ⟨hinv.1, hinv.2, ⟨?_, ?_⟩, hlast⟩
  · intro h0 d hd
    by_contra hc
    have hc' : Compare d.2.sign sigDATA = true := by simpa using hc
    -- take the last dispatched `DATA` chunk
    have hex : ∃ pre x post, lv.dispatched = pre ++ x :: post
        ∧ Compare x.2.sign sigDATA = true ∧ ∀ y ∈ post, Compare y.2.sign sigDATA = false := by
      have : ∀ (l : List (Nat × Section)), (∃ d ∈ l, Compare d.2.sign sigDATA = true) →
          ∃ pre x post, l = pre ++ x :: post ∧ Compare x.2.sign sigDATA = true
            ∧ ∀ y ∈ post, Compare y.2.sign sigDATA = false := by
        intro l
        induction l with
        | nil => intro ⟨d, hd, _⟩; simp at hd
        | cons a l ih =>
          intro hex
          by_cases hl : ∃ d ∈ l, Compare d.2.sign sigDATA = true
          · obtain ⟨pre, x, post, e, hx, hp⟩ := ih hl
            exact ⟨a :: pre, x, post, by rw [e]; rfl, hx, hp⟩
          · obtain ⟨d, hd, hdc⟩ := hex
            rcases List.mem_cons.mp hd with hd | hd
            · subst hd
              refine ⟨[], d, l, rfl, hdc, ?_⟩
              intro y hy
              by_contra hy'
              exact hl ⟨y, hy, by simpa using hy'⟩
            · exact absurd ⟨d, hd, hdc⟩ hl
      exact this _ ⟨d, hd, hc'⟩
    obtain ⟨pre, x, post, e, hx, hp⟩ := hex
    obtain ⟨h1, h2⟩ := hlast pre x post e hx hp
    omega
  · intro hnone
    rw [hinv.2]
    exact lastDataPos_eq_zero_of_none _ hnone

/-- C18 on `c18File`: two `DATA` chunks are dispatched, with `section_pos` 8 and 18, and
the recorded data offset is 18. -/
theorem C18_data_offset_sentinel_witness :
    ∃ lv s, decodePass naturalPad false c18File = some (lv, s)
      ∧ lv.dispatched = [(8, ⟨sigDATA, 2⟩), (18, ⟨sigDATA, 0⟩)]
      ∧ lv.data_offset = 18 := by
  have hd : (decodePass naturalPad false c18File).map (fun r => r.1.dispatched)
      = some [(8, ⟨sigDATA, 2⟩), (18, ⟨sigDATA, 0⟩)] := by decide
  cases h : decodePass naturalPad false c18File with
  | none => rw [h] at hd; cases hd
  | some r =>
    obtain ⟨lv, s⟩ := r
    rw [h] at hd
    simp only [Option.map_some', Option.some.injEq] at hd
    refine ⟨lv, s, rfl, hd, ?_⟩
    exact ((C18_data_offset_sentinel naturalPad false c18File lv s h).2.2.2
      [(8, ⟨sigDATA, 2⟩)] (18, ⟨sigDATA, 0⟩) [] hd (by decide) (by simp)).1

/-! ## The object maps: one entry per id, last write wins -/

theorem mapFind_mapAssign_self {α : Type} : ∀ (m : List (Nat × α)) (k : Nat) (v : α),
    mapFind (mapAssign m k v) k = some v := by
  intro m
  induction m with
  | nil => intro k v; simp [mapAssign, mapFind]
  | cons e rest ih =>
    intro k v
    obtain ⟨k', v'⟩ := e
    by_cases h : k' = k
    · simp [mapAssign, mapFind, h]
    · simp [mapAssign, mapFind, h, ih]

theorem mapFind_mapAssign_other {α : Type} : ∀ (m : List (Nat × α)) (k k' : Nat) (v : α),
    k' ≠ k → mapFind (mapAssign m k v) k' = mapFind m k' := by
  intro m
  induction m with
  | nil =>
    intro k k' v h
    simp [mapAssign, mapFind, Ne.symm h]
  | cons e rest ih =>
    intro k k' v h
    obtain ⟨k0, v0⟩ := e
    by_cases h0 : k0 = k
    · subst h0
      simp [mapAssign, mapFind, Ne.symm h]
    · by_cases h1 : k0 = k'
      · subst h1
        simp [mapAssign, mapFind, h0]
      · simp [mapAssign, mapFind, h0, h1, ih k k' v h]

theorem mapAssign_keys {α : Type} : ∀ (m : List (Nat × α)) (k : Nat) (v : α),
    (mapAssign m k v).map Prod.fst
      = if k ∈ m.map Prod.fst then m.map Prod.fst else m.map Prod.fst ++ [k] := by
  intro m
  induction m with
  | nil => intro k v; simp [mapAssign]
  | cons e rest ih =>
    intro k v
    obtain ⟨k0, v0⟩ := e
    by_cases h0 : k0 = k
    · subst h0
      simp [mapAssign]
    · have hne : ¬ k = k0 := fun h => h0 h.symm
      simp only [mapAssign, h0, if_false, List.map_cons, ih, List.mem_cons, hne, false_or]
      split <;> simp

theorem mapAssign_nodup {α : Type} (m : List (Nat × α)) (k : Nat) (v : α)
    (h : (m.map Prod.fst).Nodup) : ((mapAssign m k v).map Prod.fst).Nodup := by
  rw [mapAssign_keys]
  split
  · exact h
  · rename_i hk
    exact List.Nodup.append h (List.nodup_singleton k)
      (by
        intro a ha hb
        rw [List.mem_singleton] at hb
        subst hb
        exact hk ha)

theorem mapAssign_mem_keys {α : Type} (m : List (Nat × α)) (k : Nat) (v : α) :
    k ∈ (mapAssign m k v).map Prod.fst := by
  rw [mapAssign_keys]
  split
  · assumption
  · simp

theorem mapAssign_count {α : Type} (m : List (Nat × α)) (k : Nat) (v : α)
    (h : (m.map Prod.fst).Nodup) : ((mapAssign m k v).map Prod.fst).count k = 1 :=
  List.count_eq_one_of_mem (mapAssign_nodup m k v h) (mapAssign_mem_keys m k v)

theorem mapFind_mem {α : Type} : ∀ (m : List (Nat × α)) (k : Nat) (v : α),
    mapFind m k = some v → (k, v) ∈ m := by
  intro m
  induction m with
  | nil => intro k v h; simp [mapFind] at h
  | cons e rest ih =>
    intro k v h
    obtain ⟨k0, v0⟩ := e
    by_cases h0 : k0 = k
    · simp only [mapFind, h0, if_true, Option.some.injEq] at h
      subst h0; subst h
      exact List.mem_cons_self _ _
    · simp only [mapFind, h0, if_false] at h
      exact List.mem_cons_of_mem _ (ih k v h)

theorem mapFind_mapAssign_isSome {α : Type} (m : List (Nat × α)) (k k' : Nat) (v : α)
    (h : (mapFind m k').isSome = true) : (mapFind (mapAssign m k v) k').isSome = true := by
  by_cases hk : k' = k
  · subst hk; rw [mapFind_mapAssign_self]; rfl
  · rw [mapFind_mapAssign_other m k k' v hk]; exact h

theorem hircObject_event (pad : Nat) (lv : Locals) (s : IStream)
    (h : (headerRead pad s).type = ObjectType.Event) :
    (hircObject pad lv s).1
      = { lv with
          event_objects := mapAssign lv.event_objects (headerRead pad s).id
            (readEvent lv.bank_header.version (afterHeader pad s)).1,
          objects := lv.objects ++ [headerRead pad s] } := by
  unfold headerRead afterHeader at *
  unfold hircObject
  simp only [h, if_true]

theorem hircObject_eventAction (pad : Nat) (lv : Locals) (s : IStream)
    (h : (headerRead pad s).type = ObjectType.EventAction) :
    (hircObject pad lv s).1
      = { lv with
          event_action_objects := mapAssign lv.event_action_objects (headerRead pad s).id
            (readEventAction (headerRead pad s).size (afterHeader pad s)).1,
          objects := lv.objects ++ [headerRead pad s] } := by
  unfold headerRead afterHeader at *
  have hne : ¬ (ObjectType.EventAction = ObjectType.Event) := by decide
  unfold hircObject
  simp only [h, hne, if_true, if_false]

theorem hircObject_other (pad : Nat) (lv : Locals) (s : IStream)
    (h1 : (headerRead pad s).type ≠ ObjectType.Event)
    (h2 : (headerRead pad s).type ≠ ObjectType.EventAction) :
    (hircObject pad lv s).1 = { lv with objects := lv.objects ++ [headerRead pad s] } := by
  unfold headerRead at *
  unfold hircObject
  simp only [h1, h2, if_false]

theorem hircObject_keysUnique (pad : Nat) (lv : Locals) (s : IStream) (h : KeysUnique lv) :
    KeysUnique (hircObject pad lv s).1 := by
  by_cases h1 : (headerRead pad s).type = ObjectType.Event
  · rw [hircObject_event pad lv s h1]
    exact ⟨mapAssign_nodup _ _ _ h.1, h.2⟩
  · by_cases h2 : (headerRead pad s).type = ObjectType.EventAction
    · rw [hircObject_eventAction pad lv s h2]
      exact ⟨h.1, mapAssign_nodup _ _ _ h.2⟩
    · rw [hircObject_other pad lv s h1 h2]
      exact h

theorem hircObject_objInv (pad : Nat) (lv : Locals) (s : IStream) (h : ObjInv lv) :
    ObjInv (hircObject pad lv s).1 := by
  by_cases h1 : (headerRead pad s).type = ObjectType.Event
  · rw [hircObject_event pad lv s h1]
    intro o ho
    rcases List.mem_append.mp ho with ho | ho
    · exact ⟨fun ht => mapFind_mapAssign_isSome _ _ _ _ ((h o ho).1 ht), (h o ho).2⟩
    · rw [List.mem_singleton] at ho
      subst ho
      refine ⟨fun _ => by simp only [mapFind_mapAssign_self]; rfl, fun ht => ?_⟩
      rw [h1] at ht; cases ht
  · by_cases h2 : (headerRead pad s).type = ObjectType.EventAction
    · rw [hircObject_eventAction pad lv s h2]
      intro o ho
      rcases List.mem_append.mp ho with ho | ho
      · exact ⟨(h o ho).1, fun ht => mapFind_mapAssign_isSome _ _ _ _ ((h o ho).2 ht)⟩
      · rw [List.mem_singleton] at ho
        subst ho
        exact ⟨fun ht => absurd ht h1, fun _ => by simp only [mapFind_mapAssign_self]; rfl⟩
    · rw [hircObject_other pad lv s h1 h2]
      intro o ho
      rcases List.mem_append.mp ho with ho | ho
      · exact h o ho
      · rw [List.mem_singleton] at ho
        subst ho
        exact ⟨fun ht => absurd ht h1, fun ht => absurd ht h2⟩

/-- A property of the object list and the two object maps that every object iteration
keeps is kept by the chunk loop. -/
theorem chunkLoop_preserves (P : Locals → Prop)
    (hcongr : ∀ lv lv' : Locals, lv'.objects = lv.objects →
      lv'.event_objects = lv.event_objects →
      lv'.event_action_objects = lv.event_action_objects → P lv → P lv')
    (hstep : ∀ (pad : Nat) (lv : Locals) (s : IStream), P lv → P (hircObject pad lv s).1)
    (pad : Nat) (swap : Bool) : ∀ (fuel : Nat) (lv : Locals) (s : IStream)
    (r : Locals × IStream), P lv → chunkLoop pad swap fuel lv s = some r → P r.1 := by
  have hloop : ∀ (n : Nat) (lv : Locals) (s : IStream), P lv → P (hircLoop pad n lv s).1 := by
    intro n
    induction n with
    | zero => intro lv s h; exact h
    | succ n ih => intro lv s h; simp only [hircLoop]; exact ih _ _ (hstep pad lv s h)
  have hbody : ∀ (lv : Locals) (s : IStream) (r : Locals × IStream), P lv →
      chunkBody pad swap lv s = some r → P r.1 := by
    intro lv s r h hr
    unfold chunkBody at hr
    simp only [Option.map_eq_some'] at hr
    obtain ⟨r', hr', rfl⟩ := hr
    dsimp only
    split at hr'
    · cases hr'; exact hcongr lv _ rfl rfl rfl h
    · split at hr'
      · simp only [Option.map_eq_some'] at hr'
        obtain ⟨d, _, rfl⟩ := hr'
        exact hcongr lv _ rfl rfl rfl h
      · split at hr'
        · cases hr'; exact hcongr lv _ rfl rfl rfl h
        · split at hr'
          · cases hr'; exact hcongr lv _ rfl rfl rfl h
          · split at hr'
            · cases hr'
              exact hloop _ _ _ (hcongr lv _ rfl rfl rfl h)
            · cases hr'; exact hcongr lv _ rfl rfl rfl h
  intro fuel
  induction fuel with
  | zero => intro lv s r _ hr; simp [chunkLoop] at hr
  | succ n ih =>
    intro lv s r h hr
    rw [chunkLoop_succ] at hr
    cases hrd : (ReadContent s lv.content_section.toMem).1
    · simp only [hrd, Bool.false_eq_true, if_false, Option.some.injEq] at hr
      subst hr
      exact hcongr lv _ rfl rfl rfl h
    · simp only [hrd, if_true, Option.bind_eq_some] at hr
      obtain ⟨r', hb, hl⟩ := hr
      refine ih _ _ r (hbody _ _ r' ?_ hb) hl
      exact hcongr lv _ rfl rfl rfl h

theorem decodePass_preserves (P : Locals → Prop)
    (hcongr : ∀ lv lv' : Locals, lv'.objects = lv.objects →
      lv'.event_objects = lv.event_objects →
      lv'.event_action_objects = lv.event_action_objects → P lv → P lv')
    (hstep : ∀ (pad : Nat) (lv : Locals) (s : IStream), P lv → P (hircObject pad lv s).1)
    (h0 : P Locals.init) (pad : Nat) (swap : Bool) (bnk : List Byte) (lv : Locals) (s : IStream)
    (hdec : decodePass pad swap bnk = some (lv, s)) : P lv := by
  unfold decodePass at hdec
  simp only [Option.map_eq_some'] at hdec
  obtain ⟨r', hr', hrr⟩ := hdec
  have := chunkLoop_preserves P hcongr hstep pad swap _ _ _ r' h0 hr'
  cases hrr
  exact this

theorem KeysUnique_congr (lv lv' : Locals) (_h0 : lv'.objects = lv.objects)
    (h1 : lv'.event_objects = lv.event_objects)
    (h2 : lv'.event_action_objects = lv.event_action_objects) (h : KeysUnique lv) :
    KeysUnique lv' := by
  unfold KeysUnique at h ⊢
  rw [h1, h2]; exact h

theorem ObjInv_congr (lv lv' : Locals) (h0 : lv'.objects = lv.objects)
    (h1 : lv'.event_objects = lv.event_objects)
    (h2 : lv'.event_action_objects = lv.event_action_objects) (h : ObjInv lv) : ObjInv lv' := by
  unfold ObjInv at h ⊢
  rw [h0, h1, h2]; exact h

theorem KeysUnique_init : KeysUnique Locals.init := by
  constructor <;> simp [Locals.init]

theorem ObjInv_init : ObjInv Locals.init := by
  intro o ho; simp [Locals.init] at ho

theorem hircLoop_succ_last (pad : Nat) : ∀ (n : Nat) (lv : Locals) (s : IStream),
    hircLoop pad (n + 1) lv s
      = hircObject pad (hircLoop pad n lv s).1 (hircLoop pad n lv s).2 := by
  intro n
  induction n with
  | zero => intro lv s; rfl
  | succ n ih =>
    intro lv s
    have h := ih (hircObject pad lv s).1 (hircObject pad lv s).2
    simp only [hircLoop] at h ⊢
    exact h

theorem hircObject_objects (pad : Nat) (lv : Locals) (s : IStream) :
    (hircObject pad lv s).1.objects = lv.objects ++ [headerRead pad s] := by
  by_cases h1 : (headerRead pad s).type = ObjectType.Event
  · rw [hircObject_event pad lv s h1]
  · by_cases h2 : (headerRead pad s).type = ObjectType.EventAction
    · rw [hircObject_eventAction pad lv s h2]
    · rw [hircObject_other pad lv s h1 h2]

theorem hircLoop_objects (pad : Nat) (lv : Locals) (s : IStream) : ∀ (n : Nat),
    (hircLoop pad n lv s).1.objects
      = lv.objects ++ (List.range n).map (fun i => headerRead pad (hircLoop pad i lv s).2) := by
  intro n
  induction n with
  | zero => simp [hircLoop]
  | succ n ih =>
    rw [hircLoop_succ_last, hircObject_objects, ih, List.range_succ, List.map_append,
      List.append_assoc]
    rfl

theorem hircLoop_keysUnique (pad : Nat) : ∀ (n : Nat) (lv : Locals) (s : IStream),
    KeysUnique lv → KeysUnique (hircLoop pad n lv s).1 := by
  intro n
  induction n with
  | zero => intro lv s h; exact h
  | succ n ih =>
    intro lv s h
    simp only [hircLoop]
    exact ih _ _ (hircObject_keysUnique pad lv s h)

theorem hircObject_event_find (pad : Nat) (lv : Locals) (s : IStream) (k : Nat) :
    mapFind (hircObject pad lv s).1.event_objects k
      = if (headerRead pad s).type = ObjectType.Event ∧ (headerRead pad s).id = k then
          some (readEvent lv.bank_header.version (afterHeader pad s)).1
        else mapFind lv.event_objects k := by
  by_cases h1 : (headerRead pad s).type = ObjectType.Event
  · rw [hircObject_event pad lv s h1]
    by_cases hk : (headerRead pad s).id = k
    · subst hk
      simp only [h1, true_and, if_true, mapFind_mapAssign_self]
    · simp only [h1, hk, and_false, if_false]
      exact mapFind_mapAssign_other _ _ _ _ (fun h => hk h.symm)
  · have hn : ¬ ((headerRead pad s).type = ObjectType.Event ∧ (headerRead pad s).id = k) :=
      fun h => h1 h.1
    rw [if_neg hn]
    by_cases h2 : (headerRead pad s).type = ObjectType.EventAction
    · rw [hircObject_eventAction pad lv s h2]
    · rw [hircObject_other pad lv s h1 h2]

theorem hircObject_eventAction_find (pad : Nat) (lv : Locals) (s : IStream) (k : Nat) :
    mapFind (hircObject pad lv s).1.event_action_objects k
      = if (headerRead pad s).type = ObjectType.EventAction ∧ (headerRead pad s).id = k then
          some (readEventAction (headerRead pad s).size (afterHeader pad s)).1
        else mapFind lv.event_action_objects k := by
  by_cases h2 : (headerRead pad s).type = ObjectType.EventAction
  · rw [hircObject_eventAction pad lv s h2]
    by_cases hk : (headerRead pad s).id = k
    · subst hk
      simp only [h2, true_and, if_true, mapFind_mapAssign_self]
    · simp only [h2, hk, and_false, if_false]
      exact mapFind_mapAssign_other _ _ _ _ (fun h => hk h.symm)
  · have hn : ¬ ((headerRead pad s).type = ObjectType.EventAction
        ∧ (headerRead pad s).id = k) := fun h => h2 h.1
    rw [if_neg hn]
    by_cases h1 : (headerRead pad s).type = ObjectType.Event
    · rw [hircObject_event pad lv s h1]
    · rw [hircObject_other pad lv s h1 h2]

theorem hircLoop_event_last (pad : Nat) (lv : Locals) (s : IStream) (j k : Nat)
    (ht : (headerRead pad (hircLoop pad j lv s).2).type = ObjectType.Event)
    (hid : (headerRead pad (hircLoop pad j lv s).2).id = k) : ∀ (n : Nat), j < n →
    (∀ m, j < m → m < n → ¬ ((headerRead pad (hircLoop pad m lv s).2).type = ObjectType.Event
      ∧ (headerRead pad (hircLoop pad m lv s).2).id = k)) →
    mapFind (hircLoop pad n lv s).1.event_objects k
      = some (readEvent lv.bank_header.version (afterHeader pad (hircLoop pad j lv s).2)).1 := by
  intro n
  induction n with
  | zero => intro h; omega
  | succ n ih =>
    intro hj hlast
    rw [hircLoop_succ_last, hircObject_event_find]
    by_cases hjn : j = n
    · subst hjn
      rw [if_pos ⟨ht, hid⟩, (hircLoop_frame pad j lv s).2.2.2.1]
    · have hlt : j < n := by omega
      rw [if_neg (hlast n hlt (Nat.lt_succ_self n))]
      exact ih hlt (fun m h1 h2 => hlast m h1 (Nat.lt_succ_of_lt h2))

theorem hircLoop_eventAction_last (pad : Nat) (lv : Locals) (s : IStream) (j k : Nat)
    (ht : (headerRead pad (hircLoop pad j lv s).2).type = ObjectType.EventAction)
    (hid : (headerRead pad (hircLoop pad j lv s).2).id = k) : ∀ (n : Nat), j < n →
    (∀ m, j < m → m < n →
      ¬ ((headerRead pad (hircLoop pad m lv s).2).type = ObjectType.EventAction
        ∧ (headerRead pad (hircLoop pad m lv s).2).id = k)) →
    mapFind (hircLoop pad n lv s).1.event_action_objects k
      = some (readEventAction (headerRead pad (hircLoop pad j lv s).2).size
          (afterHeader pad (hircLoop pad j lv s).2)).1 := by
  intro n
  induction n with
  | zero => intro h; omega
  | succ n ih =>
    intro hj hlast
    rw [hircLoop_succ_last, hircObject_eventAction_find]
    by_cases hjn : j = n
    · subst hjn
      rw [if_pos ⟨ht, hid⟩]
    · have hlt : j < n := by omega
      rw [if_neg (hlast n hlt (Nat.lt_succ_self n))]
      exact ih hlt (fun m h1 h2 => hlast m h1 (Nat.lt_succ_of_lt h2))

theorem count_key_of_find {α : Type} (m : List (Nat × α)) (k : Nat) (v : α)
    (hn : (m.map Prod.fst).Nodup) (h : mapFind m k = some v) :
    (m.map Prod.fst).count k = 1 :=
  List.count_eq_one_of_mem hn (List.mem_map.mpr ⟨(k, v), mapFind_mem m k v h, rfl⟩)

/-- The two maps in terms of the headers that the iterations read, wherever in the
stream they read them.  In an object loop of `n` iterations entered with one entry per
key in each map, where iteration `i` starts in the state `hircLoop pad i lv s`: the
object list grows by the `n` headers read, in decode order; each map keeps one entry per key; when
iteration `j` reads an `Event` with id `k` and no later iteration does, the event map
holds for `k` exactly one entry, the data read by iteration `j`, whatever earlier
iterations stored under `k`; the same holds for `EventAction` objects and the
event-action map; an `Event` iteration leaves the event-action map as it was and an
`EventAction` iteration leaves the event map as it was; and every model returned by
the decode pass has one entry per key in each map. -/
theorem hircLoop_last_write_wins (pad n : Nat) (lv : Locals) (s : IStream) (hk : KeysUnique lv) :
    (hircLoop pad n lv s).1.objects
        = lv.objects ++ (List.range n).map (fun i => headerRead pad (hircLoop pad i lv s).2)
    ∧ KeysUnique (hircLoop pad n lv s).1
    ∧ (∀ j k, j < n →
        (headerRead pad (hircLoop pad j lv s).2).type = ObjectType.Event →
        (headerRead pad (hircLoop pad j lv s).2).id = k →
        (∀ m, j < m → m < n →
          ¬ ((headerRead pad (hircLoop pad m lv s).2).type = ObjectType.Event
            ∧ (headerRead pad (hircLoop pad m lv s).2).id = k)) →
        mapFind (hircLoop pad n lv s).1.event_objects k
            = some (readEvent lv.bank_header.version
                (afterHeader pad (hircLoop pad j lv s).2)).1
          ∧ ((hircLoop pad n lv s).1.event_objects.map Prod.fst).count k = 1)
    ∧ (∀ j k, j < n →
        (headerRead pad (hircLoop pad j lv s).2).type = ObjectType.EventAction →
        (headerRead pad (hircLoop pad j lv s).2).id = k →
        (∀ m, j < m → m < n →
          ¬ ((headerRead pad (hircLoop pad m lv s).2).type = ObjectType.EventAction
            ∧ (headerRead pad (hircLoop pad m lv s).2).id = k)) →
        mapFind (hircLoop pad n lv s).1.event_action_objects k
            = some (readEventAction (headerRead pad (hircLoop pad j lv s).2).size
                (afterHeader pad (hircLoop pad j lv s).2)).1
          ∧ ((hircLoop pad n lv s).1.event_action_objects.map Prod.fst).count k = 1)
    ∧ (∀ lv' s', (headerRead pad s').type = ObjectType.Event →
        (hircObject pad lv' s').1.event_action_objects = lv'.event_action_objects)
    ∧ (∀ lv' s', (headerRead pad s').type = ObjectType.EventAction →
        (hircObject pad lv' s').1.event_objects = lv'.event_objects)
    ∧ (∀ swap bnk r, decodePass pad swap bnk = some r → KeysUnique r.1) := by
  have hu := hircLoop_keysUnique pad n lv s hk
  refine ⟨hircLoop_objects pad lv s n, hu, ?_, ?_, ?_, ?_, ?_⟩
  · intro j k hj ht hid hlast
    have hf := hircLoop_event_last pad lv s j k ht hid n hj hlast
    exact ⟨hf, count_key_of_find _ _ _ hu.1 hf⟩
  · intro j k hj ht hid hlast
    have hf := hircLoop_eventAction_last pad lv s j k ht hid n hj hlast
    exact ⟨hf, count_key_of_find _ _ _ hu.2 hf⟩
  · intro lv' s' h
    rw [hircObject_event pad lv' s' h]
  · intro lv' s' h
    rw [hircObject_eventAction pad lv' s' h]
  · intro swap bnk r hr
    exact decodePass_preserves KeysUnique KeysUnique_congr hircObject_keysUnique
      KeysUnique_init pad swap bnk r.1 r.2 hr

/-- On the three objects of `c16File`, all of id 1 and of declared size 4, so that every
header is read where the previous record ends: the second `Event` replaces the data of
the first, the `EventAction` is stored in the other map, and the object list holds the
three headers. -/
theorem hircLoop_last_write_wins_c16File :
    KeysUnique Locals.init
    ∧ (hircLoop naturalPad 3 Locals.init ⟨c16File, 12, false⟩).1.objects
        = [⟨4, 4, 1⟩, ⟨4, 4, 1⟩, ⟨3, 4, 1⟩]
    ∧ mapFind (hircLoop naturalPad 3 Locals.init ⟨c16File, 12, false⟩).1.event_objects 1
        = some ⟨2, [20, 30]⟩
    ∧ ((hircLoop naturalPad 3 Locals.init ⟨c16File, 12, false⟩).1.event_objects.map
        Prod.fst).count 1 = 1
    ∧ mapFind (hircLoop naturalPad 3 Locals.init ⟨c16File, 12, false⟩).1.event_action_objects 1
        = some ⟨2, 4, 9, 0, [], []⟩ :=
  have h := hircLoop_last_write_wins naturalPad 3 Locals.init ⟨c16File, 12, false⟩ KeysUnique_init
  have he := h.2.2.1 1 1 (by decide) (by decide) (by decide)
    (by
      intro m h1 h2
      have hm : m = 2 := by omega
      subst hm
      decide)
  have ha := h.2.2.2.1 2 1 (by decide) (by decide) (by decide)
    (by
      intro m h1 h2
      omega)
  ⟨KeysUnique_init, h.1.trans (by decide), he.1.trans (by decide), he.2,
    ha.1.trans (by decide)⟩

theorem reportParameters_isSome (e : EventActionObject) : ∀ (n j : Nat),
    j + n ≤ e.parameters_types.length → j + n ≤ e.parameters.length →
    (reportParameters e n j).isSome = true := by
  intro n
  induction n with
  | zero => intro j _ _; rfl
  | succ n ih =>
    intro j h1 h2
    have ht : j < e.parameters_types.length := by omega
    have hp : j < e.parameters.length := by omega
    have hrest := ih (j + 1) (by omega) (by omega)
    obtain ⟨rest, hrest⟩ := Option.isSome_iff_exists.mp hrest
    simp only [reportParameters, List.getElem?_eq_getElem ht, List.getElem?_eq_getElem hp,
      hrest, Option.map_some', Option.isSome_some]

theorem reportObject_isSome (lv : Locals) (o : Object) (h : ModelInv lv) :
    (reportObject lv o).isSome = true := by
  unfold reportObject
  split
  · rfl
  · split
    · simp only [Option.isSome_map']
      cases hf : mapFind lv.event_action_objects o.id with
      | none => rfl
      | some e =>
        have hm := h.2 _ (mapFind_mem _ _ _ hf)
        simp only [Option.getD_some]
        exact reportParameters_isSome e e.parameter_count 0 (by simp only at hm; omega)
          (by simp only at hm; omega)
    · rfl

theorem reportObjects_isSome (lv : Locals) (h : ModelInv lv) : ∀ (os : List Object),
    (reportObjects lv os).isSome = true := by
  intro os
  induction os with
  | nil => rfl
  | cons o os ih =>
    obtain ⟨a, ha⟩ := Option.isSome_iff_exists.mp (reportObject_isSome lv o h)
    obtain ⟨b, hb⟩ := Option.isSome_iff_exists.mp ih
    simp only [reportObjects, ha, hb, Option.isSome_some]

theorem ModelInv_init : ModelInv Locals.init := by
  constructor <;> intro kv hkv <;> simp [Locals.init] at hkv

theorem decodePass_modelInv (pad : Nat) (swap : Bool) (bnk : List Byte) (lv : Locals)
    (s : IStream) (hdec : decodePass pad swap bnk = some (lv, s)) : ModelInv lv := by
  unfold decodePass at hdec
  simp only [Option.map_eq_some'] at hdec
  obtain ⟨r', hr', hrr⟩ := hdec
  have := chunkLoop_inv pad swap _ _ _ r' ModelInv_init hr'
  cases hrr
  exact this

/-- C19: in every model the decode pass returns, each `EventAction` of the object list
has an entry under its id in the event-action map whose `parameters_types` and
`parameters` are at least `parameter_count` long, so `parameters_types[j]` and
`parameters[j]` exist for every `j < parameter_count`; each `Event` of the object list
has an entry under its id in the event map; and the reporter, which yields no text
when an index is out of bounds, yields the text of the report. -/
theorem C19_reporter_indexing_in_bounds (pad : Nat) (swap : Bool) (bnk : List Byte)
    (lv : Locals) (s : IStream) (hdec : decodePass pad swap bnk = some (lv, s)) :
    (∀ o ∈ lv.objects, o.type = ObjectType.EventAction →
      ∃ e, mapFind lv.event_action_objects o.id = some e
        ∧ e.parameter_count ≤ e.parameters_types.length
        ∧ e.parameter_count ≤ e.parameters.length
        ∧ ∀ j, j < e.parameter_count →
            (e.parameters_types[j]?).isSome = true ∧ (e.parameters[j]?).isSome = true)
    ∧ (∀ o ∈ lv.objects, o.type = ObjectType.Event →
        ∃ e, mapFind lv.event_objects o.id = some e)
    ∧ (objectReport lv).isSome = true := by
  have hm := decodePass_modelInv pad swap bnk lv s hdec
  have ho : ObjInv lv :=
    decodePass_preserves ObjInv ObjInv_congr hircObject_objInv ObjInv_init pad swap bnk lv s hdec
  refine ⟨?_, ?_, reportObjects_isSome lv hm lv.objects⟩
  · intro o hmem ht
    obtain ⟨e, he⟩ := Option.isSome_iff_exists.mp ((ho o hmem).2 ht)
    have hl := hm.2 _ (mapFind_mem _ _ _ he)
    simp only at hl
    refine ⟨e, he, by omega, by omega, ?_⟩
    intro j hj
    have h1 : j < e.parameters_types.length := by omega
    have h2 : j < e.parameters.length := by omega
    simp only [List.getElem?_eq_getElem h1, List.getElem?_eq_getElem h2, Option.isSome_some,
      and_self]
  · intro o hmem ht
    exact Option.isSome_iff_exists.mp ((ho o hmem).1 ht)

/-- C19 on `c5File`, whose object list holds an `Event` and an `EventAction` with two
parameters. -/
theorem C19_reporter_indexing_in_bounds_witness :
    ∃ lv s, decodePass naturalPad false c5File = some (lv, s)
      ∧ lv.objects.map (fun o => o.type) = [ObjectType.Event, ObjectType.EventAction]
      ∧ (mapFind lv.event_action_objects 2).map (fun e => e.parameter_count) = some 2
      ∧ (objectReport lv).isSome = true :=
  ⟨_, _, rfl, by decide, by decide,
    (C19_reporter_indexing_in_bounds naturalPad false c5File _ _ rfl).2.2⟩


/-! ## Runs that do not complete, report failure, objects of equal id -/

/-- C8 (defect): `c8Endless` is one chunk header, `DIDX` with declared length
`2^32 - 1`, so no `DATA` chunk is dispatched and no index entry is present; yet the
run on it does not complete: the `DIDX` loop, and with it the chunk loop, returns for
no amount of fuel, so `ExtractBnkFile` yields no outcome, whatever the header padding,
the byte-order switch, the report switch and the environment.  On `c8File`, which has
no `DATA` chunk either and a `DIDX` chunk of length 12, the run completes with no
payload file. -/
theorem C8_no_data_run_never_completes :
    c8Endless.length = 8
    ∧ ReadContent ⟨c8Endless, 0, false⟩ Locals.init.content_section.toMem
        = (true, c8Endless, ⟨c8Endless, 8, false⟩)
    ∧ Section.ofMem c8Endless = ⟨sigDIDX, 4294967295⟩
    ∧ Compare sigDIDX sigDATA = false
    ∧ (∀ swap fuel, didxLoop fuel 0 (effectiveLength swap 4294967295) ⟨c8Endless, 8, false⟩
        ⟨0, 0, 0⟩ [] = none)
    ∧ (∀ pad swap fuel, chunkLoop pad swap fuel Locals.init ⟨c8Endless, 0, false⟩ = none)
    ∧ (∀ pad swap dump env, ExtractBnkFile pad (some c8Endless) swap dump env = none)
    ∧ (ExtractBnkFile naturalPad (some c8File) false false ⟨true, fun _ => true⟩).map
        (fun o => (o.locals.files, o.locals.data_offset, o.wems))
        = some ([⟨7, 0, 16⟩], 0, []) := by
  have he : ∀ swap, effectiveLength swap 4294967295 = 4294967295 := by
    intro swap; cases swap <;> decide
  have h1 : ∀ swap fuel, didxLoop fuel 0 (effectiveLength swap 4294967295)
      ⟨c8Endless, 8, false⟩ ⟨0, 0, 0⟩ [] = none := by
    intro swap fuel
    rw [he]
    exact didxLoop_never 4294967295 (by decide) fuel 0 _ _ _ (by decide) (by decide)
  have hr : ReadContent ⟨c8Endless, 0, false⟩ Locals.init.content_section.toMem
      = (true, c8Endless, ⟨c8Endless, 8, false⟩) := by decide
  have hs : Section.ofMem c8Endless = ⟨sigDIDX, 4294967295⟩ := by decide
  have hb : ∀ pad swap, chunkBody pad swap
      { Locals.init with content_section := ⟨sigDIDX, 4294967295⟩ } ⟨c8Endless, 8, false⟩
      = none := by
    intro pad swap
    have hsig : Compare ({ Locals.init with
        content_section := ⟨sigDIDX, 4294967295⟩ } : Locals).content_section.sign sigDIDX
        = true := by decide
    rw [chunkBody_didx pad swap _ _ hsig]
    have h := h1 swap didxFuel
    simp only [Locals.init] at h ⊢
    rw [h]
    rfl
  have h2 : ∀ pad swap fuel, chunkLoop pad swap fuel Locals.init ⟨c8Endless, 0, false⟩
      = none := by
    intro pad swap fuel
    cases fuel with
    | zero => rfl
    | succ n =>
      rw [chunkLoop_succ, hr]
      simp only [if_true, hs, hb, Option.none_bind]
  have h3 : ∀ pad swap, decodePass pad swap c8Endless = none := by
    intro pad swap
    unfold decodePass
    rw [h2]; rfl
  exact ⟨by decide, hr, hs, by decide, h1, h2,
    fun pad swap dump env => ExtractBnkFile_of_decodePass_none _ _ _ _ _ (h3 pad swap),
    by decide⟩

theorem extractLoop_env (swap : Bool) (env : Env) (b : Bool) (data_offset : Nat) :
    ∀ (files : List Index) (s : IStream) (done : List Index) (out : List (String × List Byte)),
    extractLoop swap ⟨b, env.wemOpens⟩ data_offset files s done out
      = extractLoop swap env data_offset files s done out := by
  intro files
  induction files with
  | nil => intro s done out; rfl
  | cons e rest ih =>
    intro s done out
    simp only [extractLoop, ih]

/-- C14, amended: with the report switch on, when `objects.txt` cannot be opened the
run ends where the decode pass ends, with the model as decoded and nothing written,
neither report nor payload file; when `objects.txt` can be opened the run is the run
with the report switch off, payload files included, except that the report is
written.  With the report switch off, whether `objects.txt` could be opened changes
nothing. -/
theorem C14_report_failure_ends_run (pad : Nat) (bnk : List Byte) (swap : Bool) (env : Env) :
    ExtractBnkFile pad (some bnk) swap true env
      = (if env.reportOpens then
          (ExtractBnkFile pad (some bnk) swap false env).map
            fun o => { o with reportWritten := true }
        else
          (decodePass pad swap bnk).map
            fun r => { locals := r.1, reportWritten := false, wems := [] })
    ∧ ExtractBnkFile pad (some bnk) swap false env
      = ExtractBnkFile pad (some bnk) swap false ⟨true, env.wemOpens⟩ := by
  have hnone : ∀ dump (env' : Env), decodePass pad swap bnk = none →
      ExtractBnkFile pad (some bnk) swap dump env' = none :=
    fun dump env' h => ExtractBnkFile_of_decodePass_none pad bnk swap dump env' h
  constructor
  · cases hd : decodePass pad swap bnk with
    | none =>
      rw [hnone true env hd, hnone false env hd]
      cases env.reportOpens <;> rfl
    | some r =>
      obtain ⟨lv, s⟩ := r
      unfold ExtractBnkFile
      simp only [hd]
      cases ho : env.reportOpens
      · simp
      · simp only [Bool.true_and, Bool.not_true, Bool.false_eq_true, if_false, if_true,
          Bool.false_and]
        split <;> rfl
  · cases hd : decodePass pad swap bnk with
    | none => rw [hnone false env hd, hnone false _ hd]
    | some r =>
      obtain ⟨lv, s⟩ := r
      unfold ExtractBnkFile
      simp only [hd, Bool.false_and, Bool.false_eq_true, if_false]
      split
      · rfl
      · rw [extractLoop_env swap env true]

/-- C14, amended, on the container of one index entry `{7, 0, 16}` and sixteen data
bytes: with `objects.txt` not openable the run returns the decoded model and writes
nothing; with `objects.txt` openable it writes the report and `7.wem`. -/
theorem C14_report_failure_ends_run_witness :
    (ExtractBnkFile naturalPad (some (didxDataContainer false [⟨7, 0, 16⟩] c2Payload)) false true
        ⟨false, fun _ => true⟩).map (fun o => (o.locals.files, o.reportWritten, o.wems))
      = some ([⟨7, 0, 16⟩], false, [])
    ∧ (ExtractBnkFile naturalPad (some (didxDataContainer false [⟨7, 0, 16⟩] c2Payload)) false
        true ⟨true, fun _ => true⟩).map (fun o => (o.locals.files, o.reportWritten, o.wems))
      = some ([⟨7, 0, 16⟩], true, [("7.wem", c2Payload)]) :=
  ⟨(congrArg (Option.map fun o => (o.locals.files, o.reportWritten, o.wems))
      (C14_report_failure_ends_run naturalPad
        (didxDataContainer false [⟨7, 0, 16⟩] c2Payload) false ⟨false, fun _ => true⟩).1).trans
      (by decide),
    (congrArg (Option.map fun o => (o.locals.files, o.reportWritten, o.wems))
      (C14_report_failure_ends_run naturalPad
        (didxDataContainer false [⟨7, 0, 16⟩] c2Payload) false ⟨true, fun _ => true⟩).1).trans
      (by decide)⟩

/-- C16 (defect): `c16Events` holds two `Event` objects of id 1, the first with the
action id 10, the second, whose header stands at offset 32, with the action ids 20 and
30.  After the first iteration has read the action id, line 134 skips `size - 4` more
bytes and leaves the stream at offset 40, so the second iteration reads the header
`{1, 2, 20}` from the middle of the second record.  The decoded event map keeps the
data of the first object under id 1, not that of the later one, and the object list
holds one of the two headers.  The same happens with nine-byte headers on
`c16EventsPacked`, whose second header stands at offset 29, and with the two
`EventAction` objects of id 1 of `c16Actions`, whose second header stands at offset 33
while the second iteration reads at offset 42: the event-action map keeps the data of
the first object. -/
theorem C16_same_id_events_overskipped :
    headerRead naturalPad ⟨c16Events, 12, false⟩ = ⟨4, 12, 1⟩
    ∧ (readEvent 0 (afterHeader naturalPad ⟨c16Events, 12, false⟩)).1 = ⟨1, [10]⟩
    ∧ headerRead naturalPad ⟨c16Events, 32, false⟩ = ⟨4, 16, 1⟩
    ∧ (readEvent 0 (afterHeader naturalPad ⟨c16Events, 32, false⟩)).1 = ⟨2, [20, 30]⟩
    ∧ (hircObject naturalPad Locals.init ⟨c16Events, 12, false⟩).2 = ⟨c16Events, 40, false⟩
    ∧ headerRead naturalPad ⟨c16Events, 40, false⟩ = ⟨1, 2, 20⟩
    ∧ (decodePass naturalPad false c16Events).map
        (fun r => (r.1.objects, r.1.event_objects, r.1.event_action_objects))
        = some ([⟨4, 12, 1⟩, ⟨1, 2, 20⟩], [(1, ⟨1, [10]⟩)], [])
    ∧ headerRead 0 ⟨c16EventsPacked, 29, false⟩ = ⟨4, 16, 1⟩
    ∧ (hircObject 0 Locals.init ⟨c16EventsPacked, 12, false⟩).2
        = ⟨c16EventsPacked, 37, false⟩
    ∧ (decodePass 0 false c16EventsPacked).map
        (fun r => (r.1.objects, r.1.event_objects, r.1.event_action_objects))
        = some ([⟨4, 12, 1⟩, ⟨0, 2, 20⟩], [(1, ⟨1, [10]⟩)], [])
    ∧ headerRead naturalPad ⟨c16Actions, 33, false⟩ = ⟨3, 13, 1⟩
    ∧ (readEventAction 13 (afterHeader naturalPad ⟨c16Actions, 33, false⟩)).1
        = ⟨3, 5, 8, 0, [], []⟩
    ∧ (hircObject naturalPad Locals.init ⟨c16Actions, 12, false⟩).2 = ⟨c16Actions, 42, false⟩
    ∧ (decodePass naturalPad false c16Actions).map
        (fun r => (r.1.objects, r.1.event_objects, r.1.event_action_objects))
        = some ([⟨3, 13, 1⟩, ⟨0, 2053, 0⟩], [], [(1, ⟨2, 4, 9, 0, [], []⟩)]) := by
  refine ⟨?_, ?_, ?_, ?_, ?_, ?_, ?_, ?_, ?_, ?_, ?_, ?_, ?_, ?_⟩ <;> decide

end BnkExtr
